import Mathlib

/-!
# Barnes-Hut n-body simulation: embedding and verified properties

Shallow embedding of `vector.c`, `body.c`, `quadtree.c` and `barnes_hut.c`.

* `double` is read as exact arithmetic in a linearly ordered field `K`; the
  library `sqrt` is a parameter `sqrt : K → K` (instantiated with `Real.sqrt`
  whenever a property of square roots is needed).
* Where a property compares positions with the child centres that
  `quadtree_subdivide` computes (the regions of the nodes), the rounding of
  `double` is explicit: `quadtree_subdivide_fl` and `quadtree_insert_recursive_fl`
  take the rounding `fl : K → K` of a `double` operation as a parameter, and
  `round_double` is IEEE 754 round-to-nearest-even on the rationals.
* `Body *` is an address (`Nat`) into a heap `Heap K = Nat → Body K`; a nullable
  body pointer is an `Option Nat`.
* `QuadtreeNode *` is the inductive type `QuadtreeNode K`, whose constructor
  `null` is the `NULL` pointer; every node exclusively owns its four children.
* `malloc` is assumed to succeed.
-/

namespace BarnesHut

/-- Struct `Vec2` of `vector.h`. -/
@[ext]
structure Vec2 (K : Type) where
  x : K
  y : K
deriving DecidableEq

/-- Struct `Body` of `body.h`. -/
structure Body (K : Type) where
  position : Vec2 K
  velocity : Vec2 K
  acceleration : Vec2 K
  mass : K
deriving DecidableEq

/-- Memory holding the bodies: address to body. -/
abbrev Heap (K : Type) := Nat → Body K

/-- Enum `Quadrant` of `quadtree.h`. -/
inductive Quadrant where
  | NORTHWEST
  | NORTHEAST
  | SOUTHWEST
  | SOUTHEAST
deriving DecidableEq, Repr

/-- Pointer to a `struct QuadtreeNode` of `quadtree.h`: `null`, or a node with
its fields in declaration order (`children[0..3]` are `c0 .. c3`). -/
inductive QuadtreeNode (K : Type) where
  | null : QuadtreeNode K
  | node (center_region : Vec2 K) (size : K) (body : Option Nat)
      (c0 c1 c2 c3 : QuadtreeNode K) (total_mass : K) (center_of_mass : Vec2 K) :
      QuadtreeNode K
deriving DecidableEq

section Definitions

variable {K : Type} [LinearOrderedField K]

/-! ## vector.c -/

/-- Function `add` of `vector.c`. -/
def add (a b : Vec2 K) : Vec2 K := ⟨a.x + b.x, a.y + b.y⟩

/-- Function `subtract` of `vector.c`. -/
def subtract (a b : Vec2 K) : Vec2 K := ⟨a.x - b.x, a.y - b.y⟩

/-- Function `scale` of `vector.c`. -/
def scale (a : Vec2 K) (scalar : K) : Vec2 K := ⟨a.x * scalar, a.y * scalar⟩

/-- Function `dotProduct` of `vector.c`. -/
def dotProduct (a b : Vec2 K) : K := a.x * b.x + a.y * b.y

/-- Function `length` of `vector.c`; `sqrt` is the library square root. -/
def length (sqrt : K → K) (a : Vec2 K) : K := sqrt (dotProduct a a)

/-- What the model asks of the library `sqrt` on the non-negative numbers it is
called with: a non-negative root. -/
structure IsSqrt (sqrt : K → K) : Prop where
  nonneg : ∀ x, 0 ≤ sqrt x
  mul_self : ∀ x, 0 ≤ x → sqrt x * sqrt x = x

/-! ## body.c -/

/-- Function `applyForce` of `body.c`. -/
def applyForce (mem : Heap K) (body : Option Nat) (force : Vec2 K) : Heap K :=
  match body with
  | none => mem
  | some p =>
    if (mem p).mass = 0 then mem
    else
      let acceleration := scale force (1 / (mem p).mass)
      Function.update mem p
        { mem p with acceleration := add (mem p).acceleration acceleration }

/-- Function `update_body` of `body.c`. -/
def update_body (mem : Heap K) (body : Option Nat) (dt : K) : Heap K :=
  match body with
  | none => mem
  | some p =>
    if dt ≤ 0 then mem
    else
      let velocity := add (mem p).velocity (scale (mem p).acceleration dt)
      let position := add (mem p).position (scale velocity dt)
      Function.update mem p { mem p with velocity := velocity, position := position }

/-- Function `reset_acceleration` of `body.c`. -/
def reset_acceleration (mem : Heap K) (body : Option Nat) : Heap K :=
  match body with
  | none => mem
  | some p => Function.update mem p { mem p with acceleration := ⟨0, 0⟩ }

/-! ## barnes_hut.c -/

/-- Constant `EPSILON` of `barnes_hut.c`. -/
def EPSILON : K := 1e-9

/-- Constant `G` of `barnes_hut.c`. -/
def G : K := 6.67430e-11

/-- Function `barnes_hut_calculate_force` of `barnes_hut.c`. The `else` that
holds the loop over the children belongs, as the braces of the source stand, to
the inner `if (distance > 0)`. -/
def barnes_hut_calculate_force (sqrt : K → K) (target_body : Nat) (theta : K) :
    QuadtreeNode K → Heap K → Heap K
  | .null, mem => mem
  | .node _ _ (some nb) _ _ _ _ _ _, mem =>
    if nb ≠ target_body then
      let displacement := subtract (mem nb).position (mem target_body).position
      let distance := length sqrt displacement
      if distance > 0 then
        let force_magnitude :=
          (G * (mem target_body).mass * (mem nb).mass) / (distance * distance + EPSILON)
        let force_vector := scale displacement (force_magnitude / distance)
        applyForce mem (some target_body) force_vector
      else mem
    else mem
  | .node _ size none c0 c1 c2 c3 total_mass center_of_mass, mem =>
    let s := size
    let d := length sqrt (subtract center_of_mass (mem target_body).position)
    if d > 0 ∧ s / d < theta then
      let displacement := subtract center_of_mass (mem target_body).position
      let distance := length sqrt displacement
      if distance > 0 then
        let force_magnitude :=
          (G * (mem target_body).mass * total_mass) / (distance * distance + EPSILON)
        let force_vector := scale displacement (force_magnitude / distance)
        applyForce mem (some target_body) force_vector
      else
        barnes_hut_calculate_force sqrt target_body theta c3
          (barnes_hut_calculate_force sqrt target_body theta c2
            (barnes_hut_calculate_force sqrt target_body theta c1
              (barnes_hut_calculate_force sqrt target_body theta c0 mem)))
    else mem

/-! ## quadtree.c -/

/-- Macro `MAX_DEPTH` of `quadtree.c`. -/
def MAX_DEPTH : Nat := 100

/-- Function `quadtree_create` of `quadtree.c`. -/
def quadtree_create (center : Vec2 K) (size : K) : QuadtreeNode K :=
  .node center size none .null .null .null .null 0 ⟨0, 0⟩

/-- Function `get_quadrant` of `quadtree.c`, on the two fields it reads:
`node->center_region` and `body->position`. -/
def get_quadrant (center_region : Vec2 K) (position : Vec2 K) : Quadrant :=
  if position.y < center_region.y then
    if position.x < center_region.x then .NORTHWEST else .NORTHEAST
  else
    if position.x < center_region.x then .SOUTHWEST else .SOUTHEAST

/-- Read of `node->children[quad]` (the enum values are the indices 0..3). -/
def QuadtreeNode.child : QuadtreeNode K → Quadrant → QuadtreeNode K
  | .null, _ => .null
  | .node _ _ _ c0 _ _ _ _ _, .NORTHWEST => c0
  | .node _ _ _ _ c1 _ _ _ _, .NORTHEAST => c1
  | .node _ _ _ _ _ c2 _ _ _, .SOUTHWEST => c2
  | .node _ _ _ _ _ _ c3 _ _, .SOUTHEAST => c3

/-- State of the node once the subtree under `node->children[quad]` has become `ch`. -/
def QuadtreeNode.setChild : QuadtreeNode K → Quadrant → QuadtreeNode K → QuadtreeNode K
  | .null, _, _ => .null
  | .node c s b _ c1 c2 c3 tm com, .NORTHWEST, ch => .node c s b ch c1 c2 c3 tm com
  | .node c s b c0 _ c2 c3 tm com, .NORTHEAST, ch => .node c s b c0 ch c2 c3 tm com
  | .node c s b c0 c1 _ c3 tm com, .SOUTHWEST, ch => .node c s b c0 c1 ch c3 tm com
  | .node c s b c0 c1 c2 _ tm com, .SOUTHEAST, ch => .node c s b c0 c1 c2 ch tm com

/-- Function `quadtree_subdivide` of `quadtree.c`: the node with its four
children replaced by fresh empty nodes. -/
def quadtree_subdivide : QuadtreeNode K → QuadtreeNode K
  | .null => .null
  | .node center_region size b _ _ _ _ tm com =>
    let child_size := size / 2
    let offset := child_size / 2
    let nw_center : Vec2 K := ⟨center_region.x - offset, center_region.y - offset⟩
    let ne_center : Vec2 K := ⟨center_region.x + offset, center_region.y - offset⟩
    let sw_center : Vec2 K := ⟨center_region.x - offset, center_region.y + offset⟩
    let se_center : Vec2 K := ⟨center_region.x + offset, center_region.y + offset⟩
    .node center_region size b
      (quadtree_create nw_center child_size) (quadtree_create ne_center child_size)
      (quadtree_create sw_center child_size) (quadtree_create se_center child_size) tm com

/-- Write `node->body = NULL`. -/
def QuadtreeNode.clearBody : QuadtreeNode K → QuadtreeNode K
  | .null => .null
  | .node c s _ c0 c1 c2 c3 tm com => .node c s none c0 c1 c2 c3 tm com

/-- Function `quadtree_insert_recursive` of `quadtree.c`. The first argument
bounds the nesting of recursive calls; the result is `none` when that bound is
used up or `node` is `NULL` (which the C code dereferences). The result carries
the new heap, the new state of the subtree under `node`, and a ghost counter of
how many times the mass-fusion statement `node->body->mass += body->mass`
(the `depth >= MAX_DEPTH` branch) was executed. -/
def quadtree_insert_recursive :
    Nat → Heap K → QuadtreeNode K → Nat → Nat → Option (Heap K × QuadtreeNode K × Nat)
  | 0, _, _, _, _ => none
  | _ + 1, _, .null, _, _ => none
  | fuel + 1, mem, .node center size none c0 c1 c2 c3 tm com, body, depth =>
    if c0 ≠ .null then
      let node : QuadtreeNode K := .node center size none c0 c1 c2 c3 tm com
      let quad := get_quadrant center (mem body).position
      match quadtree_insert_recursive fuel mem (node.child quad) body (depth + 1) with
      | none => none
      | some (mem1, ch, fused) => some (mem1, node.setChild quad ch, fused)
    else
      some (mem, .node center size (some body) c0 c1 c2 c3 tm com, 0)
  | fuel + 1, mem, .node center size (some existing_body) c0 c1 c2 c3 tm com, body, depth =>
    if depth ≥ MAX_DEPTH then
      some (Function.update mem existing_body
              { mem existing_body with mass := (mem existing_body).mass + (mem body).mass },
            .node center size (some existing_body) c0 c1 c2 c3 tm com, 1)
    else
      let node1 : QuadtreeNode K :=
        (quadtree_subdivide (.node center size (some existing_body) c0 c1 c2 c3 tm com)).clearBody
      let old_body_quad := get_quadrant center (mem existing_body).position
      match quadtree_insert_recursive fuel mem (node1.child old_body_quad) existing_body
          (depth + 1) with
      | none => none
      | some (mem1, ch1, fused1) =>
        let node2 := node1.setChild old_body_quad ch1
        let new_body_quad := get_quadrant center (mem1 body).position
        match quadtree_insert_recursive fuel mem1 (node2.child new_body_quad) body
            (depth + 1) with
        | none => none
        | some (mem2, ch2, fused2) =>
          some (mem2, node2.setChild new_body_quad ch2, fused1 + fused2)

/-- Function `quadtree_insert` of `quadtree.c`. -/
def quadtree_insert (fuel : Nat) (mem : Heap K) (node : QuadtreeNode K) (body : Nat) :
    Option (Heap K × QuadtreeNode K × Nat) :=
  quadtree_insert_recursive fuel mem node body 0

/-- Insertion loop of `simulation_step` (`for (i...) quadtree_insert(root, &bodies[i])`)
over a list of body addresses; the ghost counters of the single insertions add up. -/
def quadtree_insert_all (fuel : Nat) :
    Heap K → QuadtreeNode K → List Nat → Option (Heap K × QuadtreeNode K × Nat)
  | mem, node, [] => some (mem, node, 0)
  | mem, node, body :: rest =>
    match quadtree_insert fuel mem node body with
    | none => none
    | some (mem1, node1, fused1) =>
      match quadtree_insert_all fuel mem1 node1 rest with
      | none => none
      | some (mem2, node2, fused2) => some (mem2, node2, fused1 + fused2)

/-- One pass of the loop body of `quadtree_compute_mass_distribution` after the
recursive call: a non-null child adds its `total_mass` and its weighted
`center_of_mass` to the running sums. -/
def mass_accumulate (acc : K × Vec2 K) : QuadtreeNode K → K × Vec2 K
  | .null => acc
  | .node _ _ _ _ _ _ _ child_mass child_com =>
    (acc.1 + child_mass, add acc.2 (scale child_com child_mass))

/-- Function `quadtree_compute_mass_distribution` of `quadtree.c`. -/
def quadtree_compute_mass_distribution (mem : Heap K) : QuadtreeNode K → QuadtreeNode K
  | .null => .null
  | .node c s (some b) c0 c1 c2 c3 _ _ =>
    .node c s (some b) c0 c1 c2 c3 (mem b).mass (mem b).position
  | .node c s none c0 c1 c2 c3 _ _ =>
    let d0 := quadtree_compute_mass_distribution mem c0
    let d1 := quadtree_compute_mass_distribution mem c1
    let d2 := quadtree_compute_mass_distribution mem c2
    let d3 := quadtree_compute_mass_distribution mem c3
    let acc := mass_accumulate (mass_accumulate (mass_accumulate
      (mass_accumulate (0, ⟨0, 0⟩) d0) d1) d2) d3
    let total_mass := acc.1
    let weighted_pos_sum := acc.2
    .node c s none d0 d1 d2 d3 total_mass
      (if total_mass > 0 then scale weighted_pos_sum (1 / total_mass) else ⟨0, 0⟩)

/-! ## Notions used to state the properties -/

/-- Read of `node->total_mass`; `none` on `NULL`. -/
def QuadtreeNode.totalMass : QuadtreeNode K → Option K
  | .null => none
  | .node _ _ _ _ _ _ _ tm _ => some tm

/-- Read of `node->center_of_mass`; `none` on `NULL`. -/
def QuadtreeNode.centerOfMass : QuadtreeNode K → Option (Vec2 K)
  | .null => none
  | .node _ _ _ _ _ _ _ _ com => some com

/-- Write `node->body = body`. -/
def QuadtreeNode.setBody : QuadtreeNode K → Nat → QuadtreeNode K
  | .null, _ => .null
  | .node c s _ c0 c1 c2 c3 tm com, b => .node c s (some b) c0 c1 c2 c3 tm com

/-- Bodies held by a subtree: the body of a node that has one (every function
of the program treats such a node as a leaf), else the bodies of its children. -/
def QuadtreeNode.bodies : QuadtreeNode K → Multiset Nat
  | .null => 0
  | .node _ _ (some b) _ _ _ _ _ _ => {b}
  | .node _ _ none c0 c1 c2 c3 _ _ => c0.bodies + c1.bodies + c2.bodies + c3.bodies

/-- Number of node levels of a subtree (0 for `NULL`, 1 for a node without children). -/
def QuadtreeNode.height : QuadtreeNode K → Nat
  | .null => 0
  | .node _ _ _ c0 c1 c2 c3 _ _ =>
    1 + max (max c0.height c1.height) (max c2.height c3.height)

/-- Every node is empty (no body, no children), a leaf (a body, no children) or
internal (no body, four children). -/
def WellFormed : QuadtreeNode K → Prop
  | .null => True
  | .node _ _ b c0 c1 c2 c3 _ _ =>
    ((c0 = .null ∧ c1 = .null ∧ c2 = .null ∧ c3 = .null) ∨
      (b = none ∧ c0 ≠ .null ∧ c1 ≠ .null ∧ c2 ≠ .null ∧ c3 ≠ .null)) ∧
    WellFormed c0 ∧ WellFormed c1 ∧ WellFormed c2 ∧ WellFormed c3

/-- A property holds at every node of a tree. -/
def AllNodes (P : QuadtreeNode K → Prop) : QuadtreeNode K → Prop
  | .null => True
  | .node c s b c0 c1 c2 c3 tm com =>
    P (.node c s b c0 c1 c2 c3 tm com) ∧
    AllNodes P c0 ∧ AllNodes P c1 ∧ AllNodes P c2 ∧ AllNodes P c3

/-- Sum of the masses of a collection of bodies. -/
def mass_sum (mem : Heap K) (bs : Multiset Nat) : K :=
  (bs.map fun p => (mem p).mass).sum

/-- Sum of `mass * position` over a collection of bodies. -/
def moment (mem : Heap K) (bs : Multiset Nat) : Vec2 K :=
  ⟨(bs.map fun p => (mem p).position.x * (mem p).mass).sum,
   (bs.map fun p => (mem p).position.y * (mem p).mass).sum⟩

/-- Centre that `quadtree_subdivide` gives the child in quadrant `q` of a node
with centre `c` and size `s`. -/
def child_center (c : Vec2 K) (s : K) : Quadrant → Vec2 K
  | .NORTHWEST => ⟨c.x - s / 2 / 2, c.y - s / 2 / 2⟩
  | .NORTHEAST => ⟨c.x + s / 2 / 2, c.y - s / 2 / 2⟩
  | .SOUTHWEST => ⟨c.x - s / 2 / 2, c.y + s / 2 / 2⟩
  | .SOUTHEAST => ⟨c.x + s / 2 / 2, c.y + s / 2 / 2⟩

/-- Child in quadrant `q` of an occupied leaf (centre `c`, size `s`, body `e`)
right after it was subdivided and `e` was stored in its quadrant `qe`. -/
def split_child (c : Vec2 K) (s : K) (e : Nat) (qe q : Quadrant) : QuadtreeNode K :=
  if q = qe then (quadtree_create (child_center c s q) (s / 2)).setBody e
  else quadtree_create (child_center c s q) (s / 2)

/-- Quadrant rule in the words of the specification: north if the body's `y` is
below the centre's `y`, otherwise south; west if the body's `x` is below the
centre's `x`, otherwise east. -/
def quadrant_rule (center position : Vec2 K) : Quadrant :=
  match decide (position.y < center.y), decide (position.x < center.x) with
  | true, true => .NORTHWEST
  | true, false => .NORTHEAST
  | false, true => .SOUTHWEST
  | false, false => .SOUTHEAST

/-- Body held by the leaf reached from a node by descending, at every node
without a body, into the child the quadrant rule chooses for `position`;
`none` when the descent ends in a node without body and children. -/
def leaf_reached (position : Vec2 K) : QuadtreeNode K → Option Nat
  | .null => none
  | .node _ _ (some b) _ _ _ _ _ _ => some b
  | .node c _ none c0 c1 c2 c3 _ _ =>
    match quadrant_rule c position with
    | .NORTHWEST => leaf_reached position c0
    | .NORTHEAST => leaf_reached position c1
    | .SOUTHWEST => leaf_reached position c2
    | .SOUTHEAST => leaf_reached position c3

/-- Every body held below a node without a body sits in the child that the
quadrant rule chooses for it at that node, and so on down the tree. -/
def Placed (mem : Heap K) : QuadtreeNode K → Prop
  | .null => True
  | .node _ _ (some _) _ _ _ _ _ _ => True
  | .node c _ none c0 c1 c2 c3 _ _ =>
    (∀ p ∈ c0.bodies, quadrant_rule c (mem p).position = .NORTHWEST) ∧
    (∀ p ∈ c1.bodies, quadrant_rule c (mem p).position = .NORTHEAST) ∧
    (∀ p ∈ c2.bodies, quadrant_rule c (mem p).position = .SOUTHWEST) ∧
    (∀ p ∈ c3.bodies, quadrant_rule c (mem p).position = .SOUTHEAST) ∧
    Placed mem c0 ∧ Placed mem c1 ∧ Placed mem c2 ∧ Placed mem c3

/-- Trees obtained from `quadtree_create` by finitely many `quadtree_insert` calls
(each with any heap and any body). -/
inductive Built : QuadtreeNode K → Prop
  | create (center : Vec2 K) (size : K) : Built (quadtree_create center size)
  | insert (fuel : Nat) (mem : Heap K) (t : QuadtreeNode K) (b : Nat)
      (mem1 : Heap K) (t1 : QuadtreeNode K) (fused : Nat) :
      Built t → quadtree_insert fuel mem t b = some (mem1, t1, fused) → Built t1

/-- Big-step description of one `quadtree_insert_recursive` call, used to reason
by induction on the calls made: `InsertStep mem t b d mem1 t1 n` relates the
state before the call on node `t` at depth `d` to the state after it. The four
rules are the four paths of the function: `store` (empty node), `descend`
(node with children), `fuse` (occupied leaf at `MAX_DEPTH` or deeper) and
`split` (occupied leaf above `MAX_DEPTH`, where the resident body has been
stored in its fresh child before the new body is inserted). Theorem
`insertStep_of_eq` shows that every result of the function obeys it. -/
inductive InsertStep :
    Heap K → QuadtreeNode K → Nat → Nat → Heap K → QuadtreeNode K → Nat → Prop
  | store (mem : Heap K) (c : Vec2 K) (s : K) (c1 c2 c3 : QuadtreeNode K) (tm : K)
      (com : Vec2 K) (b d : Nat) :
      InsertStep mem (.node c s none .null c1 c2 c3 tm com) b d
        mem (.node c s (some b) .null c1 c2 c3 tm com) 0
  | descend (mem : Heap K) (c : Vec2 K) (s : K) (c0 c1 c2 c3 : QuadtreeNode K) (tm : K)
      (com : Vec2 K) (b d : Nat) (mem1 : Heap K) (ch : QuadtreeNode K) (n : Nat) :
      c0 ≠ .null →
      InsertStep mem
        ((QuadtreeNode.node c s none c0 c1 c2 c3 tm com).child
          (get_quadrant c (mem b).position)) b (d + 1) mem1 ch n →
      InsertStep mem (.node c s none c0 c1 c2 c3 tm com) b d mem1
        ((QuadtreeNode.node c s none c0 c1 c2 c3 tm com).setChild
          (get_quadrant c (mem b).position) ch) n
  | fuse (mem : Heap K) (c : Vec2 K) (s : K) (e : Nat) (c0 c1 c2 c3 : QuadtreeNode K)
      (tm : K) (com : Vec2 K) (b d : Nat) :
      MAX_DEPTH ≤ d →
      InsertStep mem (.node c s (some e) c0 c1 c2 c3 tm com) b d
        (Function.update mem e { mem e with mass := (mem e).mass + (mem b).mass })
        (.node c s (some e) c0 c1 c2 c3 tm com) 1
  | split (mem : Heap K) (c : Vec2 K) (s : K) (e : Nat) (c0 c1 c2 c3 : QuadtreeNode K)
      (tm : K) (com : Vec2 K) (b d : Nat) (mem2 : Heap K) (ch2 : QuadtreeNode K) (n : Nat) :
      d < MAX_DEPTH →
      InsertStep mem
        ((((quadtree_subdivide (.node c s (some e) c0 c1 c2 c3 tm com)).clearBody).setChild
            (get_quadrant c (mem e).position)
            ((((quadtree_subdivide (.node c s (some e) c0 c1 c2 c3 tm com)).clearBody).child
              (get_quadrant c (mem e).position)).setBody e)).child
          (get_quadrant c (mem b).position)) b (d + 1) mem2 ch2 n →
      InsertStep mem (.node c s (some e) c0 c1 c2 c3 tm com) b d mem2
        ((((quadtree_subdivide (.node c s (some e) c0 c1 c2 c3 tm com)).clearBody).setChild
            (get_quadrant c (mem e).position)
            ((((quadtree_subdivide (.node c s (some e) c0 c1 c2 c3 tm com)).clearBody).child
              (get_quadrant c (mem e).position)).setBody e)).setChild
          (get_quadrant c (mem b).position) ch2) n

/-- Mass-weighted average position of a collection of bodies: the sum of
`mass * position` divided by the sum of the masses. -/
def weighted_average (mem : Heap K) (bs : Multiset Nat) : Vec2 K :=
  ⟨(moment mem bs).x / mass_sum mem bs, (moment mem bs).y / mass_sum mem bs⟩

/-- Aggregates of one node are right: `total_mass` is the sum of the masses of
the bodies held in the subtree; `center_of_mass` is their mass-weighted average
when `total_mass` is positive, the origin when a node without a body has
`total_mass` zero, and the position of the body when the node is a leaf. -/
def AggregateOK (mem : Heap K) : QuadtreeNode K → Prop
  | .null => True
  | .node c s b c0 c1 c2 c3 tm com =>
    tm = mass_sum mem (QuadtreeNode.node c s b c0 c1 c2 c3 tm com).bodies ∧
    (0 < tm → com = weighted_average mem (QuadtreeNode.node c s b c0 c1 c2 c3 tm com).bodies) ∧
    (b = none → tm = 0 → com = ⟨0, 0⟩) ∧
    (∀ p, b = some p → com = (mem p).position)

/-- What one insertion of body `b` does to the heap and to the bodies held,
according to its ghost counter `n`: either the fusion branch was not reached
(`n = 0`), the heap is unchanged and `b` is held in addition; or it was reached
once (`n = 1`), the same bodies are held and one of them, `e`, has gained the
mass of `b`. -/
def InsertOutcome (mem : Heap K) (before : Multiset Nat) (b : Nat) (mem1 : Heap K)
    (after : Multiset Nat) (n : Nat) : Prop :=
  (n = 0 ∧ mem1 = mem ∧ after = b ::ₘ before) ∨
  (n = 1 ∧ after = before ∧ ∃ e ∈ before,
    mem1 = Function.update mem e { mem e with mass := (mem e).mass + (mem b).mass })

/-! ## Example data -/

/-- Example heap: body `i` rests at `(6 i, 8 i)` with mass 1. -/
def twoBodies : Heap K := fun i => ⟨⟨6 * (i : K), 8 * (i : K)⟩, ⟨0, 0⟩, ⟨0, 0⟩, 1⟩

/-- Example tree: root square centred at `(4, 4)` of size 8, holding body 0 in
its north-west child and body 1 in its south-east child, before aggregation. -/
def twoBodyTree : QuadtreeNode K :=
  .node ⟨4, 4⟩ 8 none
    (.node ⟨2, 2⟩ 4 (some 0) .null .null .null .null 0 ⟨0, 0⟩)
    (.node ⟨6, 2⟩ 4 none .null .null .null .null 0 ⟨0, 0⟩)
    (.node ⟨2, 6⟩ 4 none .null .null .null .null 0 ⟨0, 0⟩)
    (.node ⟨6, 6⟩ 4 (some 1) .null .null .null .null 0 ⟨0, 0⟩) 0 ⟨0, 0⟩

/-- Example tree `twoBodyTree` after aggregation over `twoBodies`. -/
def twoBodyRoot : QuadtreeNode K :=
  .node ⟨4, 4⟩ 8 none
    (.node ⟨2, 2⟩ 4 (some 0) .null .null .null .null 1 ⟨0, 0⟩)
    (.node ⟨6, 2⟩ 4 none .null .null .null .null 0 ⟨0, 0⟩)
    (.node ⟨2, 6⟩ 4 none .null .null .null .null 0 ⟨0, 0⟩)
    (.node ⟨6, 6⟩ 4 (some 1) .null .null .null .null 1 ⟨6, 8⟩) 2 ⟨3, 4⟩

/-- Example heap of near-coincident bodies: body `i` rests at `(i / 2^100, 0)`
with mass 1, so bodies 0 and 1 are `2^-100` apart. -/
def nearBodies : Heap K := fun i => ⟨⟨(i : K) / 2 ^ 100, 0⟩, ⟨0, 0⟩, ⟨0, 0⟩, 1⟩

/-- Frame of `barnes_hut_calculate_force` on the bodies: heap `mem1` differs
from `mem` at most in the acceleration of body `T`. -/
def SameExceptAcceleration (T : Nat) (mem mem1 : Heap K) : Prop :=
  (∀ q, q ≠ T → mem1 q = mem q) ∧
  (mem1 T).position = (mem T).position ∧
  (mem1 T).velocity = (mem T).velocity ∧
  (mem1 T).mass = (mem T).mass

/-- State of a node: empty (no body, no children). -/
def IsEmptyNode : QuadtreeNode K → Prop
  | .null => False
  | .node _ _ b c0 c1 c2 c3 _ _ =>
    b = none ∧ c0 = .null ∧ c1 = .null ∧ c2 = .null ∧ c3 = .null

/-- State of a node: leaf (a body, no children). -/
def IsLeafNode : QuadtreeNode K → Prop
  | .null => False
  | .node _ _ b c0 c1 c2 c3 _ _ =>
    b ≠ none ∧ c0 = .null ∧ c1 = .null ∧ c2 = .null ∧ c3 = .null

/-- State of a node: internal (no body, four children). -/
def IsInternalNode : QuadtreeNode K → Prop
  | .null => False
  | .node _ _ b c0 c1 c2 c3 _ _ =>
    b = none ∧ c0 ≠ .null ∧ c1 ≠ .null ∧ c2 ≠ .null ∧ c3 ≠ .null

/-- A node is in exactly one of the three states. -/
def ExactlyOneState (n : QuadtreeNode K) : Prop :=
  (IsEmptyNode n ∧ ¬ IsLeafNode n ∧ ¬ IsInternalNode n) ∨
  (¬ IsEmptyNode n ∧ IsLeafNode n ∧ ¬ IsInternalNode n) ∨
  (¬ IsEmptyNode n ∧ ¬ IsLeafNode n ∧ IsInternalNode n)

/-! ## simulation.c -/

/-- Struct `Simulation` of `simulation.h`. Field `bodies` is the memory of the
body array, `&sim->bodies[i]` being address `i`; `output_file` and the records
written to it are left out. -/
structure Simulation (K : Type) where
  bodies : Heap K
  num_bodies : Nat
  theta : K
  dt : K
  sim_size : K
  step_count : Nat

/-- Force loop of `simulation_step`: for each body in turn, `reset_acceleration`
and then `barnes_hut_calculate_force` from the root. -/
def force_loop (sqrt : K → K) (theta : K) (root : QuadtreeNode K) :
    List Nat → Heap K → Heap K
  | [], mem => mem
  | i :: rest, mem =>
    force_loop sqrt theta root rest
      (barnes_hut_calculate_force sqrt i theta root (reset_acceleration mem (some i)))

/-- Integration loop of `simulation_step`: `update_body` for each body in turn. -/
def update_loop (dt : K) : List Nat → Heap K → Heap K
  | [], mem => mem
  | i :: rest, mem => update_loop dt rest (update_body mem (some i) dt)

/-- Function `simulation_step` of `simulation.c`: build the tree over the whole
domain, insert every body, aggregate, evaluate the forces, integrate, count the
step. The result is `none` when an insertion runs out of `fuel`. -/
def simulation_step (sqrt : K → K) (fuel : Nat) (sim : Simulation K) :
    Option (Simulation K) :=
  let center : Vec2 K := ⟨sim.sim_size / 2, sim.sim_size / 2⟩
  let root := quadtree_create center sim.sim_size
  match quadtree_insert_all fuel sim.bodies root (List.range sim.num_bodies) with
  | none => none
  | some (mem1, root1, _) =>
    let root2 := quadtree_compute_mass_distribution mem1 root1
    let mem2 := force_loop sqrt sim.theta root2 (List.range sim.num_bodies) mem1
    let mem3 := update_loop sim.dt (List.range sim.num_bodies) mem2
    some { sim with bodies := mem3, step_count := sim.step_count + 1 }

/-- Example heap of a symmetric pair: body 0 rests at `(3, 4)`, body 1 at
`(-3, -4)` (body `i` at `(3 - 6 i, 4 - 8 i)`), all with mass 1. -/
def symBodies : Heap K :=
  fun i => ⟨⟨3 - 6 * (i : K), 4 - 8 * (i : K)⟩, ⟨0, 0⟩, ⟨0, 0⟩, 1⟩

/-- Example tree: root square centred at `(4, 4)` of size 8 after bodies 0 and
1 of `symBodies` were inserted, before aggregation. -/
def symTree : QuadtreeNode K :=
  .node ⟨4, 4⟩ 8 none
    (.node ⟨2, 2⟩ 4 (some 1) .null .null .null .null 0 ⟨0, 0⟩)
    (.node ⟨6, 2⟩ 4 none .null .null .null .null 0 ⟨0, 0⟩)
    (.node ⟨2, 6⟩ 4 (some 0) .null .null .null .null 0 ⟨0, 0⟩)
    (.node ⟨6, 6⟩ 4 none .null .null .null .null 0 ⟨0, 0⟩) 0 ⟨0, 0⟩

/-- Example tree `symTree` after aggregation over `symBodies`. -/
def symRoot : QuadtreeNode K :=
  .node ⟨4, 4⟩ 8 none
    (.node ⟨2, 2⟩ 4 (some 1) .null .null .null .null 1 ⟨-3, -4⟩)
    (.node ⟨6, 2⟩ 4 none .null .null .null .null 0 ⟨0, 0⟩)
    (.node ⟨2, 6⟩ 4 (some 0) .null .null .null .null 1 ⟨3, 4⟩)
    (.node ⟨6, 6⟩ 4 none .null .null .null .null 0 ⟨0, 0⟩) 2 ⟨0, 0⟩

/-- Body `b` is held by a node exactly `k` levels below the given node, and
that node is a leaf without children (that is, not subdivided further). -/
def HeldInLeafAt (b : Nat) : Nat → QuadtreeNode K → Prop
  | 0, .node _ _ (some e) .null .null .null .null _ _ => e = b
  | k + 1, .node _ _ none c0 c1 c2 c3 _ _ =>
    HeldInLeafAt b k c0 ∨ HeldInLeafAt b k c1 ∨ HeldInLeafAt b k c2 ∨ HeldInLeafAt b k c3
  | _, _ => False

/-- Read of `node->center_region` and `node->size`; `none` on `NULL`. -/
def QuadtreeNode.geometry : QuadtreeNode K → Option (Vec2 K × K)
  | .null => none
  | .node c s _ _ _ _ _ _ _ => some (c, s)

/-- Children, where present, have the centres and the size that
`quadtree_subdivide` gives them, at every node. -/
def Gridded : QuadtreeNode K → Prop
  | .null => True
  | .node c s b c0 c1 c2 c3 tm com =>
    (∀ q, (QuadtreeNode.node c s b c0 c1 c2 c3 tm com).child q = .null ∨
      ((QuadtreeNode.node c s b c0 c1 c2 c3 tm com).child q).geometry
        = some (child_center c s q, s / 2)) ∧
    Gridded c0 ∧ Gridded c1 ∧ Gridded c2 ∧ Gridded c3

/-- Region of a node as a relation `R centre size position`: every body held in
the subtree of the node has its position in the region of the node. -/
def RegionHolds (R : Vec2 K → K → Vec2 K → Prop) (mem : Heap K) : QuadtreeNode K → Prop
  | .null => True
  | .node c s b c0 c1 c2 c3 tm com =>
    ∀ p ∈ (QuadtreeNode.node c s b c0 c1 c2 c3 tm com).bodies, R c s (mem p).position

/-- Region of a node with `size` read as the side length of the square:
`|x - cx| <= size / 2` and `|y - cy| <= size / 2`. -/
def side_length_region (c : Vec2 K) (s : K) (pos : Vec2 K) : Prop :=
  |pos.x - c.x| ≤ s / 2 ∧ |pos.y - c.y| ≤ s / 2

/-- Example heap of coincident bodies: every body rests at `(1, 1)`, body `i`
with mass `1 + i`. -/
def stackedBodies : Heap K := fun i => ⟨⟨1, 1⟩, ⟨0, 0⟩, ⟨0, 0⟩, 1 + (i : K)⟩

/-- Example heap of two bodies in opposite corners: body 0 rests at `(-4, -4)`,
body 1 at `(4, 4)` (body `i` at `(8 i - 4, 8 i - 4)`), all with mass 1. -/
def cornerBodies : Heap K :=
  fun i => ⟨⟨8 * (i : K) - 4, 8 * (i : K) - 4⟩, ⟨0, 0⟩, ⟨0, 0⟩, 1⟩

/-- Read of `node->body`; `none` on `NULL`. -/
def QuadtreeNode.body : QuadtreeNode K → Option Nat
  | .null => none
  | .node _ _ b _ _ _ _ _ _ => b

/-- Test of `quadtree_insert_recursive` for a node that is not an empty one: it
has a body or its `children[0]` is present. -/
def NotEmptySlot (t : QuadtreeNode K) : Prop :=
  t.body ≠ none ∨ t.child .NORTHWEST ≠ .null

/-- Closed square `[0, s] x [0, s]` of the simulation domain. -/
def in_domain (s : K) (pos : Vec2 K) : Prop :=
  0 ≤ pos.x ∧ pos.x ≤ s ∧ 0 ≤ pos.y ∧ pos.y ≤ s

/-- Region of a node with `size` read as the side length of a half-open square:
`[cx - size/2, cx + size/2) x [cy - size/2, cy + size/2)`. -/
def half_open_region (c : Vec2 K) (s : K) (pos : Vec2 K) : Prop :=
  c.x - s / 2 ≤ pos.x ∧ pos.x < c.x + s / 2 ∧ c.y - s / 2 ≤ pos.y ∧ pos.y < c.y + s / 2

/-- Half-open region of the node behind a pointer, read from its own
`center_region` and `size`; `NULL` has no region. -/
def QuadtreeNode.region : QuadtreeNode K → Vec2 K → Prop
  | .null, _ => False
  | .node c s _ _ _ _ _ _ _, pos => half_open_region c s pos

/-- The children of a subdivided node (`children[0]` present) are all present
and their regions partition the region of the node: a position is in the region
of the node exactly when it is in the region of some child, no position is in
the regions of two children, and no child has an empty region. -/
def ChildrenPartition : QuadtreeNode K → Prop
  | .null => True
  | .node c s b c0 c1 c2 c3 tm com =>
    c0 ≠ .null →
    (∀ q, (QuadtreeNode.node c s b c0 c1 c2 c3 tm com).child q ≠ .null) ∧
    (∀ pos, (QuadtreeNode.node c s b c0 c1 c2 c3 tm com).region pos ↔
      ∃ q, ((QuadtreeNode.node c s b c0 c1 c2 c3 tm com).child q).region pos) ∧
    (∀ q q1 pos, ((QuadtreeNode.node c s b c0 c1 c2 c3 tm com).child q).region pos →
      ((QuadtreeNode.node c s b c0 c1 c2 c3 tm com).child q1).region pos → q = q1) ∧
    (∀ q, ∃ pos, ((QuadtreeNode.node c s b c0 c1 c2 c3 tm com).child q).region pos)

/-- The body held by a node, if any, has its position in the region of the node. -/
def LeafHolds (mem : Heap K) : QuadtreeNode K → Prop
  | .null => True
  | .node c s b c0 c1 c2 c3 tm com =>
    ∀ p, b = some p → (QuadtreeNode.node c s b c0 c1 c2 c3 tm com).region (mem p).position

/-! ## quadtree.c in the arithmetic of `double`

The definitions above read `double` as exact arithmetic. Those below make the
rounding explicit where the values of the child centres matter: `fl` stands for
the rounding that a `double` operation applies to its exact result, so that a
stored centre is `fl (x - offset)` and not `x - offset`. Comparisons are exact
in `double`, so `get_quadrant` is unchanged. -/

/-- Function `quadtree_subdivide` of `quadtree.c` with rounding: `fl` is applied
to the exact result of each `/`, `-` and `+`. -/
def quadtree_subdivide_fl (fl : K → K) : QuadtreeNode K → QuadtreeNode K
  | .null => .null
  | .node center_region size b _ _ _ _ tm com =>
    let child_size := fl (size / 2)
    let offset := fl (child_size / 2)
    let nw_center : Vec2 K := ⟨fl (center_region.x - offset), fl (center_region.y - offset)⟩
    let ne_center : Vec2 K := ⟨fl (center_region.x + offset), fl (center_region.y - offset)⟩
    let sw_center : Vec2 K := ⟨fl (center_region.x - offset), fl (center_region.y + offset)⟩
    let se_center : Vec2 K := ⟨fl (center_region.x + offset), fl (center_region.y + offset)⟩
    .node center_region size b
      (quadtree_create nw_center child_size) (quadtree_create ne_center child_size)
      (quadtree_create sw_center child_size) (quadtree_create se_center child_size) tm com

/-- Function `quadtree_insert_recursive` of `quadtree.c` with rounding: as
`quadtree_insert_recursive`, with `quadtree_subdivide_fl` for the subdivision and
the rounded sum in the mass-fusion statement. -/
def quadtree_insert_recursive_fl (fl : K → K) :
    Nat → Heap K → QuadtreeNode K → Nat → Nat → Option (Heap K × QuadtreeNode K × Nat)
  | 0, _, _, _, _ => none
  | _ + 1, _, .null, _, _ => none
  | fuel + 1, mem, .node center size none c0 c1 c2 c3 tm com, body, depth =>
    if c0 ≠ .null then
      let node : QuadtreeNode K := .node center size none c0 c1 c2 c3 tm com
      let quad := get_quadrant center (mem body).position
      match quadtree_insert_recursive_fl fl fuel mem (node.child quad) body (depth + 1) with
      | none => none
      | some (mem1, ch, fused) => some (mem1, node.setChild quad ch, fused)
    else
      some (mem, .node center size (some body) c0 c1 c2 c3 tm com, 0)
  | fuel + 1, mem, .node center size (some existing_body) c0 c1 c2 c3 tm com, body, depth =>
    if depth ≥ MAX_DEPTH then
      some (Function.update mem existing_body
              { mem existing_body with
                mass := fl ((mem existing_body).mass + (mem body).mass) },
            .node center size (some existing_body) c0 c1 c2 c3 tm com, 1)
    else
      let node1 : QuadtreeNode K :=
        (quadtree_subdivide_fl fl
          (.node center size (some existing_body) c0 c1 c2 c3 tm com)).clearBody
      let old_body_quad := get_quadrant center (mem existing_body).position
      match quadtree_insert_recursive_fl fl fuel mem (node1.child old_body_quad) existing_body
          (depth + 1) with
      | none => none
      | some (mem1, ch1, fused1) =>
        let node2 := node1.setChild old_body_quad ch1
        let new_body_quad := get_quadrant center (mem1 body).position
        match quadtree_insert_recursive_fl fl fuel mem1 (node2.child new_body_quad) body
            (depth + 1) with
        | none => none
        | some (mem2, ch2, fused2) =>
          some (mem2, node2.setChild new_body_quad ch2, fused1 + fused2)

/-- Function `quadtree_insert` of `quadtree.c` with rounding. -/
def quadtree_insert_fl (fl : K → K) (fuel : Nat) (mem : Heap K) (node : QuadtreeNode K)
    (body : Nat) : Option (Heap K × QuadtreeNode K × Nat) :=
  quadtree_insert_recursive_fl fl fuel mem node body 0

/-- Insertion loop of `simulation_step` with rounding, over a list of body
addresses; the ghost counters of the single insertions add up. -/
def quadtree_insert_all_fl (fl : K → K) (fuel : Nat) :
    Heap K → QuadtreeNode K → List Nat → Option (Heap K × QuadtreeNode K × Nat)
  | mem, node, [] => some (mem, node, 0)
  | mem, node, body :: rest =>
    match quadtree_insert_fl fl fuel mem node body with
    | none => none
    | some (mem1, node1, fused1) =>
      match quadtree_insert_all_fl fl fuel mem1 node1 rest with
      | none => none
      | some (mem2, node2, fused2) => some (mem2, node2, fused1 + fused2)

/-- Example heap of two bodies next to `2^53`: body 0 rests at
`(2^53 - 1, 2^53 - 1)`, body 1 at `(2^53 - 9, 2^53 - 9)` (body `i` at
`2^53 - 1 - 8 i`), all with mass 1. Both coordinates are values of `double`. -/
def farBodies : Heap K :=
  fun i => ⟨⟨2 ^ 53 - 1 - 8 * (i : K), 2 ^ 53 - 1 - 8 * (i : K)⟩, ⟨0, 0⟩, ⟨0, 0⟩, 1⟩

/-- Example tree: root square centred at `(2^53 - 1, 2^53 - 1)` with `size = 16`
after bodies 0 and 1 of `farBodies` were inserted in `double` arithmetic: the
centre coordinate `2^53 - 1 + 4` of the east and south children is stored as
`2^53 + 4`. -/
def farTree : QuadtreeNode K :=
  .node ⟨2 ^ 53 - 1, 2 ^ 53 - 1⟩ 16 none
    (.node ⟨2 ^ 53 - 5, 2 ^ 53 - 5⟩ 8 (some 1) .null .null .null .null 0 ⟨0, 0⟩)
    (.node ⟨2 ^ 53 + 4, 2 ^ 53 - 5⟩ 8 none .null .null .null .null 0 ⟨0, 0⟩)
    (.node ⟨2 ^ 53 - 5, 2 ^ 53 + 4⟩ 8 none .null .null .null .null 0 ⟨0, 0⟩)
    (.node ⟨2 ^ 53 + 4, 2 ^ 53 + 4⟩ 8 (some 0) .null .null .null .null 0 ⟨0, 0⟩) 0 ⟨0, 0⟩

end Definitions

section Theorems

set_option linter.unusedSectionVars false

variable {K : Type} [LinearOrderedField K]

/-! ## Vector identities -/

theorem add_scale_add (a f1 f2 : Vec2 K) (k : K) :
    add (add a (scale f1 k)) (scale f2 k) = add a (scale (add f1 f2) k) := by
  ext <;> simp [add, scale] <;> ring

/-- The real square root meets `IsSqrt`. -/
theorem isSqrt_real : IsSqrt Real.sqrt :=
  ⟨Real.sqrt_nonneg, fun _ hx => Real.mul_self_sqrt hx⟩

theorem IsSqrt.zero {sqrt : K → K} (hs : IsSqrt sqrt) : sqrt 0 = 0 := by
  have h := hs.mul_self 0 le_rfl
  exact mul_self_eq_zero.mp h

theorem length_zero {sqrt : K → K} (hs : IsSqrt sqrt) (a : Vec2 K) :
    length sqrt (subtract a a) = 0 := by
  simp [length, subtract, dotProduct, hs.zero]

/-! ## body.c -/

theorem applyForce_some_ne (mem : Heap K) (p : Nat) (f : Vec2 K) (h0 : (mem p).mass ≠ 0) :
    applyForce mem (some p) f = Function.update mem p
      { mem p with acceleration := add (mem p).acceleration (scale f (1 / (mem p).mass)) } := by
  simp [applyForce, h0]

/-- C7: `applyForce` changes nothing for an absent body or a body of mass exactly
zero; otherwise it adds `force * (1 / mass)` to the acceleration and leaves
position, velocity, mass and every other body as they were, so two calls with
`f1` and `f2` add `(f1 + f2) * (1 / mass)` in total. -/
theorem applyForce_contract (mem : Heap K) (p : Nat) (f1 f2 : Vec2 K) :
    applyForce mem none f1 = mem ∧
    ((mem p).mass = 0 → applyForce mem (some p) f1 = mem) ∧
    ((mem p).mass ≠ 0 →
      (applyForce mem (some p) f1 p).acceleration
          = add (mem p).acceleration (scale f1 (1 / (mem p).mass)) ∧
      (applyForce mem (some p) f1 p).position = (mem p).position ∧
      (applyForce mem (some p) f1 p).velocity = (mem p).velocity ∧
      (applyForce mem (some p) f1 p).mass = (mem p).mass ∧
      (∀ q, q ≠ p → applyForce mem (some p) f1 q = mem q) ∧
      (applyForce (applyForce mem (some p) f1) (some p) f2 p).acceleration
          = add (mem p).acceleration (scale (add f1 f2) (1 / (mem p).mass))) := by
  refine ⟨rfl, fun h0 => by simp [applyForce, h0], fun h0 => ?_⟩
  have e1 := applyForce_some_ne mem p f1 h0
  refine ⟨by simp [e1], by simp [e1], by simp [e1], by simp [e1], ?_, ?_⟩
  · intro q hq
    simp [e1, Function.update_noteq hq]
  · have hm : (applyForce mem (some p) f1 p).mass = (mem p).mass := by simp [e1]
    rw [applyForce_some_ne _ p f2 (by rw [hm]; exact h0), Function.update_same, hm]
    simp [e1, add_scale_add]

/-- C8: `update_body` changes nothing for an absent body or when `dt <= 0`; when
`dt > 0` the new velocity is `v + a*dt`, the new position is `p + (v + a*dt)*dt`
(the updated velocity feeds the position), acceleration and mass stay, and no
other body changes. -/
theorem update_body_contract (mem : Heap K) (p : Nat) (dt : K) :
    update_body mem none dt = mem ∧
    (dt ≤ 0 → update_body mem (some p) dt = mem) ∧
    (0 < dt →
      (update_body mem (some p) dt p).velocity
          = add (mem p).velocity (scale (mem p).acceleration dt) ∧
      (update_body mem (some p) dt p).position
          = add (mem p).position
              (scale (add (mem p).velocity (scale (mem p).acceleration dt)) dt) ∧
      (update_body mem (some p) dt p).acceleration = (mem p).acceleration ∧
      (update_body mem (some p) dt p).mass = (mem p).mass ∧
      (∀ q, q ≠ p → update_body mem (some p) dt q = mem q)) := by
  refine ⟨rfl, fun h0 => by simp [update_body, h0], fun h0 => ?_⟩
  have e1 : update_body mem (some p) dt = Function.update mem p
      { mem p with
        velocity := add (mem p).velocity (scale (mem p).acceleration dt),
        position := add (mem p).position
          (scale (add (mem p).velocity (scale (mem p).acceleration dt)) dt) } := by
    simp [update_body, not_le.mpr h0]
  refine ⟨by simp [e1], by simp [e1], by simp [e1], by simp [e1], ?_⟩
  intro q hq
  simp [e1, Function.update_noteq hq]

/-! ## barnes_hut.c: leaves and the null node -/

/-- On a leaf holding another body at positive distance the force is applied. -/
theorem leaf_force_eq (sqrt : K → K) (mem : Heap K) (T B : Nat) (theta : K)
    (c : Vec2 K) (s : K) (c0 c1 c2 c3 : QuadtreeNode K) (tm : K) (com : Vec2 K)
    (hBT : B ≠ T)
    (hdist : 0 < length sqrt (subtract (mem B).position (mem T).position)) :
    barnes_hut_calculate_force sqrt T theta (.node c s (some B) c0 c1 c2 c3 tm com) mem
      = applyForce mem (some T) (scale (subtract (mem B).position (mem T).position)
          (G * (mem T).mass * (mem B).mass /
            (length sqrt (subtract (mem B).position (mem T).position) *
              length sqrt (subtract (mem B).position (mem T).position) + EPSILON) /
            length sqrt (subtract (mem B).position (mem T).position))) := by
  simp only [barnes_hut_calculate_force, ne_eq, hBT, not_false_eq_true, if_true, gt_iff_lt,
    hdist]

/-- C9: on a leaf holding a body `B` other than the target `T`, at distance
`dist > 0`, with `T.mass` non-zero, the acceleration of `T` grows by exactly
`(B.position - T.position) * (magnitude / dist) / T.mass` where
`magnitude = G * T.mass * B.mass / (dist^2 + EPSILON)`, `G = 6.67430e-11` and
`EPSILON = 1e-9`; nothing else of the heap changes. -/
theorem leaf_force (sqrt : K → K) (mem : Heap K) (T B : Nat) (theta : K)
    (c : Vec2 K) (s : K) (c0 c1 c2 c3 : QuadtreeNode K) (tm : K) (com : Vec2 K)
    (hBT : B ≠ T) (hmass : (mem T).mass ≠ 0)
    (hdist : 0 < length sqrt (subtract (mem B).position (mem T).position)) :
    (G : K) = 6.67430e-11 ∧ (EPSILON : K) = 1e-9 ∧
    barnes_hut_calculate_force sqrt T theta (.node c s (some B) c0 c1 c2 c3 tm com) mem
      = Function.update mem T { mem T with acceleration :=
          ⟨(mem T).acceleration.x + ((mem B).position.x - (mem T).position.x) *
              (G * (mem T).mass * (mem B).mass /
                (length sqrt (subtract (mem B).position (mem T).position) ^ 2 + EPSILON) /
                length sqrt (subtract (mem B).position (mem T).position)) / (mem T).mass,
           (mem T).acceleration.y + ((mem B).position.y - (mem T).position.y) *
              (G * (mem T).mass * (mem B).mass /
                (length sqrt (subtract (mem B).position (mem T).position) ^ 2 + EPSILON) /
                length sqrt (subtract (mem B).position (mem T).position)) / (mem T).mass⟩ } := by
  refine ⟨rfl, rfl, ?_⟩
  rw [leaf_force_eq sqrt mem T B theta c s c0 c1 c2 c3 tm com hBT hdist,
    applyForce_some_ne _ _ _ hmass]
  simp [add, scale, subtract, pow_two, div_eq_mul_inv]

/-- Witness for `leaf_force`: target 0 at the origin, body 1 at `(6, 8)`. -/
theorem leaf_force_witness :
    barnes_hut_calculate_force Real.sqrt 0 (1 / 2)
        (.node ⟨6, 6⟩ 4 (some 1) .null .null .null .null 1 ⟨6, 8⟩) (twoBodies : Heap ℝ)
      = Function.update twoBodies 0 { (twoBodies : Heap ℝ) 0 with acceleration :=
          ⟨((twoBodies : Heap ℝ) 0).acceleration.x +
            (((twoBodies : Heap ℝ) 1).position.x - ((twoBodies : Heap ℝ) 0).position.x) *
              (G * ((twoBodies : Heap ℝ) 0).mass * ((twoBodies : Heap ℝ) 1).mass /
                (length Real.sqrt (subtract ((twoBodies : Heap ℝ) 1).position
                  ((twoBodies : Heap ℝ) 0).position) ^ 2 + EPSILON) /
                length Real.sqrt (subtract ((twoBodies : Heap ℝ) 1).position
                  ((twoBodies : Heap ℝ) 0).position)) / ((twoBodies : Heap ℝ) 0).mass,
           ((twoBodies : Heap ℝ) 0).acceleration.y +
            (((twoBodies : Heap ℝ) 1).position.y - ((twoBodies : Heap ℝ) 0).position.y) *
              (G * ((twoBodies : Heap ℝ) 0).mass * ((twoBodies : Heap ℝ) 1).mass /
                (length Real.sqrt (subtract ((twoBodies : Heap ℝ) 1).position
                  ((twoBodies : Heap ℝ) 0).position) ^ 2 + EPSILON) /
                length Real.sqrt (subtract ((twoBodies : Heap ℝ) 1).position
                  ((twoBodies : Heap ℝ) 0).position)) / ((twoBodies : Heap ℝ) 0).mass⟩ } :=
  (leaf_force Real.sqrt twoBodies 0 1 (1 / 2) ⟨6, 6⟩ 4 .null .null .null .null 1 ⟨6, 8⟩
    (by decide) (by simp [twoBodies])
    (by
      simp only [length, subtract, dotProduct, twoBodies]
      exact Real.sqrt_pos.mpr (by norm_num))).2.2

/-- C10: `barnes_hut_calculate_force` leaves the heap (hence the target) as it
was on a null node, on a leaf holding the target itself, and on a leaf holding
another body whose position equals the target position exactly. -/
theorem calculate_force_noop (sqrt : K → K) (hs : IsSqrt sqrt) (mem : Heap K) (T B : Nat)
    (theta : K) (c : Vec2 K) (s : K) (c0 c1 c2 c3 : QuadtreeNode K) (tm : K) (com : Vec2 K) :
    barnes_hut_calculate_force sqrt T theta .null mem = mem ∧
    barnes_hut_calculate_force sqrt T theta (.node c s (some T) c0 c1 c2 c3 tm com) mem = mem ∧
    (B ≠ T → (mem B).position = (mem T).position →
      barnes_hut_calculate_force sqrt T theta (.node c s (some B) c0 c1 c2 c3 tm com) mem
        = mem) := by
  refine ⟨rfl, by simp [barnes_hut_calculate_force], fun _ hpos => ?_⟩
  simp [barnes_hut_calculate_force, hpos, length_zero hs]

/-- Witness for `calculate_force_noop` over the reals: two bodies at the same place. -/
theorem calculate_force_noop_witness :
    barnes_hut_calculate_force Real.sqrt 0 (1 / 2)
        (.node ⟨0, 0⟩ 1 (some 1) .null .null .null .null 0 ⟨0, 0⟩)
        (fun _ => (⟨⟨1, 1⟩, ⟨0, 0⟩, ⟨0, 0⟩, 1⟩ : Body ℝ))
      = fun _ => (⟨⟨1, 1⟩, ⟨0, 0⟩, ⟨0, 0⟩, 1⟩ : Body ℝ) :=
  (calculate_force_noop Real.sqrt isSqrt_real (fun _ => (⟨⟨1, 1⟩, ⟨0, 0⟩, ⟨0, 0⟩, 1⟩ : Body ℝ))
    0 1 (1 / 2) ⟨0, 0⟩ 1 .null .null .null .null 0 ⟨0, 0⟩).2.2 (by decide) rfl

/-! ## Example data: the two-body tree -/

theorem twoBodyTree_built (fuel : Nat) :
    quadtree_insert_all (fuel + 2) (twoBodies : Heap K) (quadtree_create ⟨4, 4⟩ 8) [0, 1]
      = some (twoBodies, twoBodyTree, 0) := by
  simp [quadtree_insert_all, quadtree_insert, quadtree_insert_recursive, quadtree_create,
    quadtree_subdivide, QuadtreeNode.clearBody, QuadtreeNode.child, QuadtreeNode.setChild,
    get_quadrant, twoBodies, twoBodyTree, MAX_DEPTH]
  norm_num
  rw [quadtree_insert_recursive]
  simp

theorem twoBodyRoot_computed :
    quadtree_compute_mass_distribution (twoBodies : Heap K) twoBodyTree = twoBodyRoot := by
  simp [quadtree_compute_mass_distribution, mass_accumulate, twoBodyTree, twoBodyRoot,
    twoBodies, add, scale]
  norm_num

/-! ## barnes_hut.c: nodes without a body -/

/-- On a node without a body the function either applies the point-mass force
(when `d > 0` and `s / d < theta`) or returns at once: the loop over the
children sits in the `else` of `if (distance > 0)`, which is never taken because
`distance` is `d`. -/
theorem calculate_force_internal_eq (sqrt : K → K) (mem : Heap K) (T : Nat) (theta : K)
    (c : Vec2 K) (s : K) (c0 c1 c2 c3 : QuadtreeNode K) (tm : K) (com : Vec2 K) :
    barnes_hut_calculate_force sqrt T theta (.node c s none c0 c1 c2 c3 tm com) mem
      = if 0 < length sqrt (subtract com (mem T).position) ∧
            s / length sqrt (subtract com (mem T).position) < theta then
          applyForce mem (some T) (scale (subtract com (mem T).position)
            (G * (mem T).mass * tm /
              (length sqrt (subtract com (mem T).position) *
                length sqrt (subtract com (mem T).position) + EPSILON) /
              length sqrt (subtract com (mem T).position)))
        else mem := by
  by_cases h : 0 < length sqrt (subtract com (mem T).position) ∧
      s / length sqrt (subtract com (mem T).position) < theta
  · simp only [barnes_hut_calculate_force, gt_iff_lt, h, and_self, if_true, h.1]
  · simp only [barnes_hut_calculate_force, gt_iff_lt, h, if_false]

theorem sqrt_25 : Real.sqrt 25 = 5 := by
  rw [show (25 : ℝ) = 5 * 5 by norm_num, Real.sqrt_mul_self (by norm_num)]

theorem sqrt_100 : Real.sqrt 100 = 10 := by
  rw [show (100 : ℝ) = 10 * 10 by norm_num, Real.sqrt_mul_self (by norm_num)]

/-- The two-body root is left without any force for every `theta` up to `8 / 5`. -/
theorem twoBodyRoot_no_force (theta : ℝ) (hth : theta ≤ 8 / 5) :
    barnes_hut_calculate_force Real.sqrt 0 theta (twoBodyRoot : QuadtreeNode ℝ) twoBodies
      = twoBodies := by
  have h25 : Real.sqrt (3 * 3 + 4 * 4) = 5 := by
    rw [show (3 * 3 + 4 * 4 : ℝ) = 25 by norm_num, sqrt_25]
  rw [twoBodyRoot, calculate_force_internal_eq]
  simp only [length, subtract, dotProduct, twoBodies, Nat.cast_zero, mul_zero, sub_zero, h25]
  rw [if_neg]
  rintro ⟨-, h⟩
  linarith

/-- Calling the function on the four children of the two-body root in turn
accelerates body 0 towards body 1. -/
theorem twoBodyRoot_children_force :
    (barnes_hut_calculate_force Real.sqrt 0 (1 / 2)
      ((twoBodyRoot : QuadtreeNode ℝ).child .SOUTHEAST)
      (barnes_hut_calculate_force Real.sqrt 0 (1 / 2) (twoBodyRoot.child .SOUTHWEST)
        (barnes_hut_calculate_force Real.sqrt 0 (1 / 2) (twoBodyRoot.child .NORTHEAST)
          (barnes_hut_calculate_force Real.sqrt 0 (1 / 2) (twoBodyRoot.child .NORTHWEST)
            twoBodies))) 0).acceleration
      = ⟨6 * (G / (100 + EPSILON) / 10), 8 * (G / (100 + EPSILON) / 10)⟩ := by
  have h100 : Real.sqrt (6 * 6 + 8 * 8) = 10 := by
    rw [show (6 * 6 + 8 * 8 : ℝ) = 100 by norm_num, sqrt_100]
  have e0 : barnes_hut_calculate_force Real.sqrt 0 (1 / 2)
      ((twoBodyRoot : QuadtreeNode ℝ).child .NORTHWEST) twoBodies = twoBodies := by
    simp [twoBodyRoot, QuadtreeNode.child, barnes_hut_calculate_force]
  have e1 : barnes_hut_calculate_force Real.sqrt 0 (1 / 2)
      ((twoBodyRoot : QuadtreeNode ℝ).child .NORTHEAST) twoBodies = twoBodies := by
    simp only [twoBodyRoot, QuadtreeNode.child]
    rw [calculate_force_internal_eq]
    simp [length, subtract, dotProduct, twoBodies]
  have e2 : barnes_hut_calculate_force Real.sqrt 0 (1 / 2)
      ((twoBodyRoot : QuadtreeNode ℝ).child .SOUTHWEST) twoBodies = twoBodies := by
    simp only [twoBodyRoot, QuadtreeNode.child]
    rw [calculate_force_internal_eq]
    simp [length, subtract, dotProduct, twoBodies]
  rw [e0, e1, e2]
  simp only [twoBodyRoot, QuadtreeNode.child]
  have hd : length Real.sqrt (subtract ((twoBodies : Heap ℝ) 1).position
      ((twoBodies : Heap ℝ) 0).position) = 10 := by
    simp only [length, subtract, dotProduct, twoBodies, Nat.cast_zero, Nat.cast_one, mul_zero,
      sub_zero, mul_one, h100]
  have h := leaf_force_eq Real.sqrt (twoBodies : Heap ℝ) 0 1 (1 / 2) ⟨6, 6⟩ 4 .null .null .null
    .null 1 ⟨6, 8⟩ (by decide) (by rw [hd]; norm_num)
  rw [h, hd, applyForce_some_ne _ _ _ (by simp [twoBodies])]
  simp [twoBodies, add, scale, subtract]
  norm_num

theorem G_pos : (0 : K) < G := by
  simp only [G]
  norm_num

theorem EPSILON_pos : (0 : K) < EPSILON := by
  simp only [EPSILON]
  norm_num

/-- C1 (the code at a failing input): on the two-body root (an internal node of
size 8 whose centre of mass lies at distance 5 from body 0, so that
`s / d = 8 / 5 >= 1 / 2 = theta` and the criterion fails) the function returns
without touching body 0, whereas calling it on `children[0..3]` in turn gives
body 0 a non-zero acceleration. -/
theorem children_not_visited :
    length Real.sqrt (subtract (⟨3, 4⟩ : Vec2 ℝ) ((twoBodies : Heap ℝ) 0).position) = 5 ∧
    barnes_hut_calculate_force Real.sqrt 0 (1 / 2) (twoBodyRoot : QuadtreeNode ℝ) twoBodies
      = twoBodies ∧
    (barnes_hut_calculate_force Real.sqrt 0 (1 / 2) (twoBodyRoot : QuadtreeNode ℝ) twoBodies
        0).acceleration
      ≠ (barnes_hut_calculate_force Real.sqrt 0 (1 / 2)
          ((twoBodyRoot : QuadtreeNode ℝ).child .SOUTHEAST)
          (barnes_hut_calculate_force Real.sqrt 0 (1 / 2) (twoBodyRoot.child .SOUTHWEST)
            (barnes_hut_calculate_force Real.sqrt 0 (1 / 2) (twoBodyRoot.child .NORTHEAST)
              (barnes_hut_calculate_force Real.sqrt 0 (1 / 2) (twoBodyRoot.child .NORTHWEST)
                twoBodies))) 0).acceleration := by
  have h25 : Real.sqrt (3 * 3 + 4 * 4) = 5 := by
    rw [show (3 * 3 + 4 * 4 : ℝ) = 25 by norm_num, sqrt_25]
  refine ⟨?_, twoBodyRoot_no_force _ (by norm_num), ?_⟩
  · simp only [length, subtract, dotProduct, twoBodies, Nat.cast_zero, mul_zero, sub_zero, h25]
  · rw [twoBodyRoot_no_force _ (by norm_num), twoBodyRoot_children_force]
    intro h
    have hx := congrArg Vec2.x h
    have hpos : (0 : ℝ) < 6 * (G / (100 + EPSILON) / 10) := by
      have := G_pos (K := ℝ)
      have := EPSILON_pos (K := ℝ)
      positivity
    simp only [twoBodies] at hx
    linarith

/-- C2 (the code at a failing input): for the two bodies of `twoBodies` (masses
1, positions `(0, 0)` and `(6, 8)`) in the tree built by `quadtree_create`,
`quadtree_insert` and `quadtree_compute_mass_distribution`, no `theta0 > 0`
makes the tree-based acceleration of body 0 equal to the direct pairwise value
for all `0 < theta < theta0`: for `theta <= 8 / 5` the tree-based value is zero. -/
theorem two_body_tree_force_differs :
    quadtree_insert_all 2 (twoBodies : Heap ℝ) (quadtree_create ⟨4, 4⟩ 8) [0, 1]
      = some (twoBodies, twoBodyTree, 0) ∧
    quadtree_compute_mass_distribution (twoBodies : Heap ℝ) twoBodyTree = twoBodyRoot ∧
    ¬ ∃ theta0 : ℝ, 0 < theta0 ∧ ∀ theta : ℝ, 0 < theta → theta < theta0 →
      (barnes_hut_calculate_force Real.sqrt 0 theta (twoBodyRoot : QuadtreeNode ℝ) twoBodies
          0).acceleration
        = scale (scale (subtract ((twoBodies : Heap ℝ) 1).position (twoBodies 0).position)
            (G * (twoBodies 0).mass * (twoBodies 1).mass /
              (length Real.sqrt (subtract ((twoBodies : Heap ℝ) 1).position
                (twoBodies 0).position) ^ 2 + EPSILON) /
              length Real.sqrt (subtract ((twoBodies : Heap ℝ) 1).position
                (twoBodies 0).position)))
            (1 / (twoBodies 0).mass) := by
  refine ⟨twoBodyTree_built 0, twoBodyRoot_computed, ?_⟩
  rintro ⟨theta0, h0, h⟩
  have h100 : Real.sqrt (6 * 6 + 8 * 8) = 10 := by
    rw [show (6 * 6 + 8 * 8 : ℝ) = 100 by norm_num, sqrt_100]
  have hd : length Real.sqrt (subtract ((twoBodies : Heap ℝ) 1).position
      ((twoBodies : Heap ℝ) 0).position) = 10 := by
    simp only [length, subtract, dotProduct, twoBodies, Nat.cast_zero, Nat.cast_one, mul_zero,
      sub_zero, mul_one, h100]
  have hth : min (theta0 / 2) 1 ≤ (8 / 5 : ℝ) := le_trans (min_le_right _ _) (by norm_num)
  have hlt : min (theta0 / 2) 1 < theta0 := lt_of_le_of_lt (min_le_left _ _) (by linarith)
  have h1 := h (min (theta0 / 2) 1) (lt_min (by linarith) (by norm_num)) hlt
  rw [twoBodyRoot_no_force _ hth, hd] at h1
  have hx := congrArg Vec2.x h1
  have hpos : (0 : ℝ) < 6 * (G * 1 * 1 / (10 ^ 2 + EPSILON) / 10) * (1 / 1) := by
    have := G_pos (K := ℝ)
    have := EPSILON_pos (K := ℝ)
    positivity
  simp only [twoBodies, scale, subtract, Nat.cast_zero, Nat.cast_one, mul_zero, sub_zero,
    mul_one] at hx
  simp only [mul_one] at hpos
  linarith

/-! ## quadtree.c: the calls of `quadtree_insert_recursive` -/

theorem subdivide_child (c : Vec2 K) (s : K) (b : Option Nat) (c0 c1 c2 c3 : QuadtreeNode K)
    (tm : K) (com : Vec2 K) (q : Quadrant) :
    ((quadtree_subdivide (.node c s b c0 c1 c2 c3 tm com)).clearBody).child q
      = quadtree_create (child_center c s q) (s / 2) := by
  cases q <;> rfl

theorem insert_recursive_empty (fuel : Nat) (mem : Heap K) (c : Vec2 K) (s : K)
    (c1 c2 c3 : QuadtreeNode K) (tm : K) (com : Vec2 K) (b d : Nat) :
    quadtree_insert_recursive (fuel + 1) mem (.node c s none .null c1 c2 c3 tm com) b d
      = some (mem, .node c s (some b) .null c1 c2 c3 tm com, 0) := by
  simp [quadtree_insert_recursive]

/-- Every result of `quadtree_insert_recursive` is described by `InsertStep`. -/
theorem insertStep_of_eq (fuel : Nat) : ∀ (mem : Heap K) (t : QuadtreeNode K) (b d : Nat)
    (mem1 : Heap K) (t1 : QuadtreeNode K) (n : Nat),
    quadtree_insert_recursive fuel mem t b d = some (mem1, t1, n) →
    InsertStep mem t b d mem1 t1 n := by
  induction fuel with
  | zero => intro mem t b d mem1 t1 n h; simp [quadtree_insert_recursive] at h
  | succ fuel ih =>
    intro mem t b d mem1 t1 n h
    cases t with
    | null => simp [quadtree_insert_recursive] at h
    | node c s body c0 c1 c2 c3 tm com =>
      cases body with
      | none =>
        by_cases hc0 : c0 = .null
        · subst hc0
          rw [insert_recursive_empty] at h
          cases h
          exact InsertStep.store mem c s c1 c2 c3 tm com b d
        · simp only [quadtree_insert_recursive, ne_eq, hc0, not_false_eq_true, if_true] at h
          cases hr : quadtree_insert_recursive fuel mem
              ((QuadtreeNode.node c s none c0 c1 c2 c3 tm com).child
                (get_quadrant c (mem b).position)) b (d + 1) with
          | none => rw [hr] at h; cases h
          | some r =>
            obtain ⟨m, ch, k⟩ := r
            rw [hr] at h
            cases h
            exact InsertStep.descend mem c s c0 c1 c2 c3 tm com b d _ _ _ hc0 (ih _ _ _ _ _ _ _ hr)
      | some e =>
        by_cases hd : MAX_DEPTH ≤ d
        · simp only [quadtree_insert_recursive, ge_iff_le, hd, if_true] at h
          cases h
          exact InsertStep.fuse mem c s e c0 c1 c2 c3 tm com b d hd
        · simp only [quadtree_insert_recursive, ge_iff_le, hd, if_false, subdivide_child] at h
          cases fuel with
          | zero => simp [quadtree_insert_recursive] at h
          | succ fuel =>
            rw [quadtree_create, insert_recursive_empty] at h
            simp only at h
            cases hr : quadtree_insert_recursive (fuel + 1) mem
                ((((quadtree_subdivide (.node c s (some e) c0 c1 c2 c3 tm com)).clearBody).setChild
                    (get_quadrant c (mem e).position)
                    ((((quadtree_subdivide
                      (.node c s (some e) c0 c1 c2 c3 tm com)).clearBody).child
                      (get_quadrant c (mem e).position)).setBody e)).child
                  (get_quadrant c (mem b).position)) b (d + 1) with
            | none =>
              simp only [subdivide_child, quadtree_create, QuadtreeNode.setBody] at hr
              rw [hr] at h; cases h
            | some r =>
              obtain ⟨m, ch, k⟩ := r
              have hstep := ih _ _ _ _ _ _ _ hr
              simp only [subdivide_child, quadtree_create, QuadtreeNode.setBody] at hr
              rw [hr] at h
              simp only [Option.some.injEq, Prod.mk.injEq, zero_add] at h
              obtain ⟨rfl, rfl, rfl⟩ := h
              have := InsertStep.split mem c s e c0 c1 c2 c3 tm com b d _ _ _ (not_le.mp hd) hstep
              simpa only [subdivide_child, quadtree_create, QuadtreeNode.setBody] using this

/-! ## Children of a node -/

theorem split_form (c : Vec2 K) (s : K) (e : Nat) (c0 c1 c2 c3 : QuadtreeNode K) (tm : K)
    (com : Vec2 K) (qe : Quadrant) :
    ((quadtree_subdivide (.node c s (some e) c0 c1 c2 c3 tm com)).clearBody).setChild qe
        ((((quadtree_subdivide (.node c s (some e) c0 c1 c2 c3 tm com)).clearBody).child
          qe).setBody e)
      = .node c s none (split_child c s e qe .NORTHWEST) (split_child c s e qe .NORTHEAST)
          (split_child c s e qe .SOUTHWEST) (split_child c s e qe .SOUTHEAST) tm com := by
  cases qe <;> rfl

theorem split_child_ne_null (c : Vec2 K) (s : K) (e : Nat) (qe q : Quadrant) :
    split_child c s e qe q ≠ .null := by
  unfold split_child
  split <;> simp [quadtree_create, QuadtreeNode.setBody]

theorem split_child_wellFormed (c : Vec2 K) (s : K) (e : Nat) (qe q : Quadrant) :
    WellFormed (split_child c s e qe q) := by
  unfold split_child
  split <;> simp [quadtree_create, QuadtreeNode.setBody, WellFormed]

theorem split_child_height (c : Vec2 K) (s : K) (e : Nat) (qe q : Quadrant) :
    (split_child c s e qe q).height = 1 := by
  unfold split_child
  split <;> simp [quadtree_create, QuadtreeNode.setBody, QuadtreeNode.height]

theorem split_child_bodies (c : Vec2 K) (s : K) (e : Nat) (qe q : Quadrant) :
    (split_child c s e qe q).bodies = if q = qe then {e} else 0 := by
  unfold split_child
  split <;> simp [quadtree_create, QuadtreeNode.setBody, QuadtreeNode.bodies]

theorem child_ne_null (c : Vec2 K) (s : K) (b : Option Nat) (c0 c1 c2 c3 : QuadtreeNode K)
    (tm : K) (com : Vec2 K) (h : c0 ≠ .null)
    (hw : WellFormed (.node c s b c0 c1 c2 c3 tm com)) (q : Quadrant) :
    (QuadtreeNode.node c s b c0 c1 c2 c3 tm com).child q ≠ .null := by
  simp only [WellFormed] at hw
  rcases hw.1 with h0 | h1
  · exact absurd h0.1 h
  · cases q <;> simp [QuadtreeNode.child, h1]

theorem child_wellFormed (c : Vec2 K) (s : K) (b : Option Nat) (c0 c1 c2 c3 : QuadtreeNode K)
    (tm : K) (com : Vec2 K) (hw : WellFormed (.node c s b c0 c1 c2 c3 tm com)) (q : Quadrant) :
    WellFormed ((QuadtreeNode.node c s b c0 c1 c2 c3 tm com).child q) := by
  simp only [WellFormed] at hw
  cases q <;> simp [QuadtreeNode.child, hw]

theorem child_height_lt (c : Vec2 K) (s : K) (b : Option Nat) (c0 c1 c2 c3 : QuadtreeNode K)
    (tm : K) (com : Vec2 K) (q : Quadrant) :
    ((QuadtreeNode.node c s b c0 c1 c2 c3 tm com).child q).height + 1
      ≤ (QuadtreeNode.node c s b c0 c1 c2 c3 tm com).height := by
  cases q <;> simp only [QuadtreeNode.child, QuadtreeNode.height] <;> omega

theorem setChild_wellFormed (c : Vec2 K) (s : K) (c0 c1 c2 c3 : QuadtreeNode K)
    (tm : K) (com : Vec2 K) (h : c0 ≠ .null)
    (hw : WellFormed (.node c s none c0 c1 c2 c3 tm com)) (q : Quadrant) (ch : QuadtreeNode K)
    (hch : WellFormed ch) (hne : ch ≠ .null) :
    WellFormed ((QuadtreeNode.node c s none c0 c1 c2 c3 tm com).setChild q ch) := by
  simp only [WellFormed] at hw
  rcases hw.1 with h0 | h1
  · exact absurd h0.1 h
  · cases q <;> simp [QuadtreeNode.setChild, WellFormed, hw, h1, hch, hne]

theorem setChild_ne_null (c : Vec2 K) (s : K) (b : Option Nat) (c0 c1 c2 c3 : QuadtreeNode K)
    (tm : K) (com : Vec2 K) (q : Quadrant) (ch : QuadtreeNode K) :
    (QuadtreeNode.node c s b c0 c1 c2 c3 tm com).setChild q ch ≠ .null := by
  cases q <;> simp [QuadtreeNode.setChild]

theorem setChild_height_le (c : Vec2 K) (s : K) (b : Option Nat) (c0 c1 c2 c3 : QuadtreeNode K)
    (tm : K) (com : Vec2 K) (q : Quadrant) (ch : QuadtreeNode K) :
    ((QuadtreeNode.node c s b c0 c1 c2 c3 tm com).setChild q ch).height
      ≤ max (QuadtreeNode.node c s b c0 c1 c2 c3 tm com).height (1 + ch.height) := by
  cases q <;> simp only [QuadtreeNode.setChild, QuadtreeNode.height] <;> omega

theorem setChild_bodies (c : Vec2 K) (s : K) (c0 c1 c2 c3 : QuadtreeNode K)
    (tm : K) (com : Vec2 K) (q : Quadrant) (ch : QuadtreeNode K) :
    ((QuadtreeNode.node c s none c0 c1 c2 c3 tm com).setChild q ch).bodies
        + ((QuadtreeNode.node c s none c0 c1 c2 c3 tm com).child q).bodies
      = (QuadtreeNode.node c s none c0 c1 c2 c3 tm com).bodies + ch.bodies := by
  cases q <;> simp only [QuadtreeNode.setChild, QuadtreeNode.child, QuadtreeNode.bodies] <;> abel

theorem height_pos (t : QuadtreeNode K) (h : t ≠ .null) : 1 ≤ t.height := by
  cases t with
  | null => exact absurd rfl h
  | node c s b c0 c1 c2 c3 tm com => simp only [QuadtreeNode.height]; omega

/-! ## Termination and shape of the tree -/

theorem MAX_DEPTH_eq : MAX_DEPTH = 100 := rfl

/-- With `MAX_DEPTH + 1 - d` levels of recursion available, a call at depth `d`
on a well-formed subtree whose nodes all lie at depth at most `MAX_DEPTH`
returns a result. -/
theorem insert_recursive_terminates (fuel : Nat) : ∀ (mem : Heap K) (t : QuadtreeNode K)
    (b d : Nat), t ≠ .null → WellFormed t → d + t.height ≤ MAX_DEPTH + 1 →
    MAX_DEPTH + 1 ≤ fuel + d → ∃ r, quadtree_insert_recursive fuel mem t b d = some r := by
  induction fuel with
  | zero =>
    intro mem t b d hne _ hh hf
    have := height_pos t hne
    omega
  | succ fuel ih =>
    intro mem t b d hne hw hh hf
    cases t with
    | null => exact absurd rfl hne
    | node c s body c0 c1 c2 c3 tm com =>
      cases body with
      | none =>
        by_cases hc0 : c0 = .null
        · subst hc0
          exact ⟨_, insert_recursive_empty _ _ _ _ _ _ _ _ _ _ _⟩
        · have hlt := child_height_lt c s none c0 c1 c2 c3 tm com
            (get_quadrant c (mem b).position)
          obtain ⟨r, hr⟩ := ih mem ((QuadtreeNode.node c s none c0 c1 c2 c3 tm com).child
              (get_quadrant c (mem b).position)) b (d + 1)
            (child_ne_null c s none c0 c1 c2 c3 tm com hc0 hw _)
            (child_wellFormed c s none c0 c1 c2 c3 tm com hw _) (by omega) (by omega)
          obtain ⟨m, ch, k⟩ := r
          simp only [quadtree_insert_recursive, ne_eq, hc0, not_false_eq_true, if_true, hr]
          exact ⟨_, rfl⟩
      | some e =>
        by_cases hd : MAX_DEPTH ≤ d
        · simp only [quadtree_insert_recursive, ge_iff_le, hd, if_true]
          exact ⟨_, rfl⟩
        · cases fuel with
          | zero => omega
          | succ fuel =>
            have hform := split_form c s e c0 c1 c2 c3 tm com (get_quadrant c (mem e).position)
            obtain ⟨r, hr⟩ := ih mem
              ((QuadtreeNode.node c s none
                (split_child c s e (get_quadrant c (mem e).position) .NORTHWEST)
                (split_child c s e (get_quadrant c (mem e).position) .NORTHEAST)
                (split_child c s e (get_quadrant c (mem e).position) .SOUTHWEST)
                (split_child c s e (get_quadrant c (mem e).position) .SOUTHEAST) tm com).child
                (get_quadrant c (mem b).position)) b (d + 1)
              (by cases (get_quadrant c (mem b).position) <;>
                  simp [QuadtreeNode.child, split_child_ne_null])
              (by cases (get_quadrant c (mem b).position) <;>
                  simp [QuadtreeNode.child, split_child_wellFormed])
              (by cases (get_quadrant c (mem b).position) <;>
                  simp only [QuadtreeNode.child, split_child_height] <;> omega)
              (by omega)
            obtain ⟨m, ch, k⟩ := r
            simp only [quadtree_insert_recursive, ge_iff_le, hd, if_false, subdivide_child]
            simp only [ne_eq, not_true_eq_false, if_false]
            simp only [subdivide_child, quadtree_create, QuadtreeNode.setBody] at hform
            simp only [hform, hr]
            exact ⟨_, rfl⟩

/-- One call keeps the tree well formed, non-null, and within the depth bound. -/
theorem InsertStep.preserves {mem : Heap K} {t : QuadtreeNode K} {b d : Nat} {mem1 : Heap K}
    {t1 : QuadtreeNode K} {n : Nat} (h : InsertStep mem t b d mem1 t1 n) :
    WellFormed t → d + t.height ≤ MAX_DEPTH + 1 →
    WellFormed t1 ∧ t1 ≠ .null ∧ d + t1.height ≤ MAX_DEPTH + 1 := by
  induction h with
  | store c s c1 c2 c3 tm com b d =>
    intro hw hh
    simp only [WellFormed] at hw
    refine ⟨?_, by simp, ?_⟩
    · rcases hw.1 with h0 | h1
      · simp [WellFormed, h0]
      · exact absurd rfl h1.2.1
    · simpa only [QuadtreeNode.height] using hh
  | descend c s c0 c1 c2 c3 tm com b d mem1 ch n hc0 _ ih =>
    intro hw hh
    have hlt := child_height_lt c s none c0 c1 c2 c3 tm com (get_quadrant c (mem b).position)
    obtain ⟨h1, h2, h3⟩ := ih (child_wellFormed c s none c0 c1 c2 c3 tm com hw _) (by omega)
    refine ⟨setChild_wellFormed c s c0 c1 c2 c3 tm com hc0 hw _ ch h1 h2,
      setChild_ne_null _ _ _ _ _ _ _ _ _ _ _, ?_⟩
    have := setChild_height_le c s none c0 c1 c2 c3 tm com (get_quadrant c (mem b).position) ch
    omega
  | fuse c s e c0 c1 c2 c3 tm com b d _ =>
    intro hw hh
    exact ⟨hw, by simp, hh⟩
  | split c s e c0 c1 c2 c3 tm com b d mem2 ch2 n hd _ ih =>
    intro _ _
    rw [split_form] at ih ⊢
    have hw2 : WellFormed (QuadtreeNode.node c s none
        (split_child c s e (get_quadrant c (mem e).position) .NORTHWEST)
        (split_child c s e (get_quadrant c (mem e).position) .NORTHEAST)
        (split_child c s e (get_quadrant c (mem e).position) .SOUTHWEST)
        (split_child c s e (get_quadrant c (mem e).position) .SOUTHEAST) tm com) := by
      simp [WellFormed, split_child_ne_null, split_child_wellFormed]
    have hh2 : (QuadtreeNode.node c s none
        (split_child c s e (get_quadrant c (mem e).position) .NORTHWEST)
        (split_child c s e (get_quadrant c (mem e).position) .NORTHEAST)
        (split_child c s e (get_quadrant c (mem e).position) .SOUTHWEST)
        (split_child c s e (get_quadrant c (mem e).position) .SOUTHEAST) tm com).height = 2 := by
      simp [QuadtreeNode.height, split_child_height]
    have hlt := child_height_lt c s none
        (split_child c s e (get_quadrant c (mem e).position) .NORTHWEST)
        (split_child c s e (get_quadrant c (mem e).position) .NORTHEAST)
        (split_child c s e (get_quadrant c (mem e).position) .SOUTHWEST)
        (split_child c s e (get_quadrant c (mem e).position) .SOUTHEAST) tm com
        (get_quadrant c (mem b).position)
    obtain ⟨h1, h2, h3⟩ := ih (child_wellFormed _ _ _ _ _ _ _ _ _ hw2 _) (by omega)
    refine ⟨setChild_wellFormed _ _ _ _ _ _ _ _ (split_child_ne_null _ _ _ _ _) hw2 _ ch2 h1 h2,
      setChild_ne_null _ _ _ _ _ _ _ _ _ _ _, ?_⟩
    have := setChild_height_le c s none
        (split_child c s e (get_quadrant c (mem e).position) .NORTHWEST)
        (split_child c s e (get_quadrant c (mem e).position) .NORTHEAST)
        (split_child c s e (get_quadrant c (mem e).position) .SOUTHWEST)
        (split_child c s e (get_quadrant c (mem e).position) .SOUTHEAST) tm com
        (get_quadrant c (mem b).position) ch2
    omega

/-! ## Bodies held after an insertion -/

theorem child_bodies_subset (c : Vec2 K) (s : K) (c0 c1 c2 c3 : QuadtreeNode K)
    (tm : K) (com : Vec2 K) (q : Quadrant) (e : Nat)
    (h : e ∈ ((QuadtreeNode.node c s none c0 c1 c2 c3 tm com).child q).bodies) :
    e ∈ (QuadtreeNode.node c s none c0 c1 c2 c3 tm com).bodies := by
  cases q <;> simp only [QuadtreeNode.child] at h <;>
    simp only [QuadtreeNode.bodies, Multiset.mem_add] <;> tauto

/-- An outcome for the child chosen carries over to the node. -/
theorem outcome_setChild (c : Vec2 K) (s : K) (c0 c1 c2 c3 : QuadtreeNode K)
    (tm : K) (com : Vec2 K) (q : Quadrant) (ch : QuadtreeNode K) (mem mem1 : Heap K)
    (b n : Nat)
    (h : InsertOutcome mem ((QuadtreeNode.node c s none c0 c1 c2 c3 tm com).child q).bodies b
      mem1 ch.bodies n) :
    InsertOutcome mem (QuadtreeNode.node c s none c0 c1 c2 c3 tm com).bodies b mem1
      ((QuadtreeNode.node c s none c0 c1 c2 c3 tm com).setChild q ch).bodies n := by
  have hs := setChild_bodies c s c0 c1 c2 c3 tm com q ch
  rcases h with ⟨h0, hm, hb⟩ | ⟨h1, hb, e, he, hm⟩
  · refine Or.inl ⟨h0, hm, ?_⟩
    rw [hb] at hs
    have : ((QuadtreeNode.node c s none c0 c1 c2 c3 tm com).setChild q ch).bodies
        + ((QuadtreeNode.node c s none c0 c1 c2 c3 tm com).child q).bodies
        = (b ::ₘ (QuadtreeNode.node c s none c0 c1 c2 c3 tm com).bodies)
          + ((QuadtreeNode.node c s none c0 c1 c2 c3 tm com).child q).bodies := by
      rw [hs, Multiset.add_cons, Multiset.cons_add]
    exact add_right_cancel this
  · refine Or.inr ⟨h1, ?_, e, child_bodies_subset c s c0 c1 c2 c3 tm com q e he, hm⟩
    rw [hb] at hs
    exact add_right_cancel hs

/-- One call either stores the new body without touching the heap, or reaches
the fusion branch once and adds the mass of the new body to a body held. -/
theorem InsertStep.outcome {mem : Heap K} {t : QuadtreeNode K} {b d : Nat} {mem1 : Heap K}
    {t1 : QuadtreeNode K} {n : Nat} (h : InsertStep mem t b d mem1 t1 n) :
    WellFormed t → InsertOutcome mem t.bodies b mem1 t1.bodies n := by
  induction h with
  | store c s c1 c2 c3 tm com b d =>
    intro hw
    simp only [WellFormed] at hw
    rcases hw.1 with h0 | h1
    · obtain ⟨-, rfl, rfl, rfl⟩ := h0
      exact Or.inl ⟨rfl, rfl, by simp [QuadtreeNode.bodies]⟩
    · exact absurd rfl h1.2.1
  | descend c s c0 c1 c2 c3 tm com b d mem1 ch n _ _ ih =>
    intro hw
    exact outcome_setChild c s c0 c1 c2 c3 tm com _ ch mem mem1 b n
      (ih (child_wellFormed c s none c0 c1 c2 c3 tm com hw _))
  | fuse c s e c0 c1 c2 c3 tm com b d _ =>
    intro _
    exact Or.inr ⟨rfl, rfl, e, by simp [QuadtreeNode.bodies], rfl⟩
  | split c s e c0 c1 c2 c3 tm com b d mem2 ch2 n _ _ ih =>
    intro _
    rw [split_form] at ih ⊢
    have hw2 : WellFormed (QuadtreeNode.node c s none
        (split_child c s e (get_quadrant c (mem e).position) .NORTHWEST)
        (split_child c s e (get_quadrant c (mem e).position) .NORTHEAST)
        (split_child c s e (get_quadrant c (mem e).position) .SOUTHWEST)
        (split_child c s e (get_quadrant c (mem e).position) .SOUTHEAST) tm com) := by
      simp [WellFormed, split_child_ne_null, split_child_wellFormed]
    have hb2 : (QuadtreeNode.node c s none
        (split_child c s e (get_quadrant c (mem e).position) .NORTHWEST)
        (split_child c s e (get_quadrant c (mem e).position) .NORTHEAST)
        (split_child c s e (get_quadrant c (mem e).position) .SOUTHWEST)
        (split_child c s e (get_quadrant c (mem e).position) .SOUTHEAST) tm com).bodies
        = (QuadtreeNode.node c s (some e) c0 c1 c2 c3 tm com).bodies := by
      simp only [QuadtreeNode.bodies, split_child_bodies]
      cases (get_quadrant c (mem e).position) <;> simp
    have := outcome_setChild c s _ _ _ _ tm com _ ch2 mem mem2 b n
      (ih (child_wellFormed _ _ _ _ _ _ _ _ _ hw2 _))
    rwa [hb2] at this

/-- Trees built by `quadtree_create` and `quadtree_insert` are non-null, well
formed and at most `MAX_DEPTH + 1` levels high. -/
theorem Built.invariant {t : QuadtreeNode K} (h : Built t) :
    t ≠ .null ∧ WellFormed t ∧ t.height ≤ MAX_DEPTH + 1 := by
  induction h with
  | create center size =>
    simp [quadtree_create, WellFormed, QuadtreeNode.height]
  | insert fuel mem t b mem1 t1 fused _ hins ih =>
    have hstep := insertStep_of_eq fuel mem t b 0 mem1 t1 fused hins
    obtain ⟨h1, h2, h3⟩ := hstep.preserves ih.2.1 (by have := ih.2.2; omega)
    exact ⟨h2, h1, by omega⟩

/-- C6: `quadtree_insert` returns (given `MAX_DEPTH + 1` levels of recursion) on
every tree built by `quadtree_create` and `quadtree_insert`, for every heap and
body, in particular for a body placed where a body of the tree already is; and
such a tree has at most `MAX_DEPTH + 1 = 101` levels, the root being level 0, so
no node lies more than 100 levels below the root. -/
theorem insert_terminates_depth_bounded (t : QuadtreeNode K) (hb : Built t) :
    (∀ (fuel : Nat) (mem : Heap K) (b : Nat), MAX_DEPTH + 1 ≤ fuel →
      ∃ r, quadtree_insert fuel mem t b = some r) ∧
    t.height ≤ MAX_DEPTH + 1 ∧ MAX_DEPTH = 100 := by
  obtain ⟨h1, h2, h3⟩ := hb.invariant
  refine ⟨fun fuel mem b hf => ?_, h3, rfl⟩
  exact insert_recursive_terminates fuel mem t b 0 h1 h2 (by omega) (by omega)

theorem Built.insert_all {t : QuadtreeNode K} (h : Built t) (fuel : Nat) :
    ∀ (ps : List Nat) (mem mem1 : Heap K) (t1 : QuadtreeNode K) (n : Nat),
    quadtree_insert_all fuel mem t ps = some (mem1, t1, n) → Built t1 := by
  intro ps
  induction ps generalizing t with
  | nil =>
    intro mem mem1 t1 n hins
    simp only [quadtree_insert_all, Option.some.injEq, Prod.mk.injEq] at hins
    rw [← hins.2.1]
    exact h
  | cons b rest ih =>
    intro mem mem1 t1 n hins
    simp only [quadtree_insert_all] at hins
    cases h1 : quadtree_insert fuel mem t b with
    | none => rw [h1] at hins; cases hins
    | some r =>
      obtain ⟨m, u, k⟩ := r
      rw [h1] at hins
      simp only at hins
      cases h2 : quadtree_insert_all fuel m u rest with
      | none => rw [h2] at hins; cases hins
      | some r2 =>
        obtain ⟨m2, u2, k2⟩ := r2
        rw [h2] at hins
        simp only [Option.some.injEq, Prod.mk.injEq] at hins
        rw [← hins.2.1]
        exact ih (Built.insert fuel mem t b m u k h h1) m m2 u2 k2 h2

/-- Witness for `insert_terminates_depth_bounded`: the two-body tree over the rationals. -/
theorem insert_terminates_depth_bounded_witness :
    (∀ (fuel : Nat) (mem : Heap ℚ) (b : Nat), MAX_DEPTH + 1 ≤ fuel →
      ∃ r, quadtree_insert fuel mem twoBodyTree b = some r) ∧
    (twoBodyTree : QuadtreeNode ℚ).height ≤ MAX_DEPTH + 1 ∧ MAX_DEPTH = 100 :=
  insert_terminates_depth_bounded twoBodyTree
    ((Built.create (⟨4, 4⟩ : Vec2 ℚ) 8).insert_all 2 [0, 1] twoBodies twoBodies twoBodyTree 0
      (twoBodyTree_built 0))

/-! ## The insertion loop -/

/-- The insertion loop returns, keeps the tree in shape, and, when no insertion
reached the fusion branch, leaves the heap as it was and makes the tree hold
the inserted bodies in addition. -/
theorem insert_all_outcome (fuel : Nat) (hf : MAX_DEPTH + 1 ≤ fuel) :
    ∀ (ps : List Nat) (mem : Heap K) (t : QuadtreeNode K),
    t ≠ .null → WellFormed t → t.height ≤ MAX_DEPTH + 1 →
    ∃ mem1 t1 n, quadtree_insert_all fuel mem t ps = some (mem1, t1, n) ∧
      t1 ≠ .null ∧ WellFormed t1 ∧ t1.height ≤ MAX_DEPTH + 1 ∧
      (n = 0 → mem1 = mem ∧ t1.bodies = t.bodies + (ps : Multiset Nat)) := by
  intro ps
  induction ps with
  | nil =>
    intro mem t h1 h2 h3
    exact ⟨mem, t, 0, rfl, h1, h2, h3, fun _ => ⟨rfl, by simp⟩⟩
  | cons b rest ih =>
    intro mem t h1 h2 h3
    obtain ⟨r, hr⟩ := insert_recursive_terminates fuel mem t b 0 h1 h2 (by omega) (by omega)
    obtain ⟨m, u, k⟩ := r
    have hstep := insertStep_of_eq fuel mem t b 0 m u k hr
    obtain ⟨hu1, hu2, hu3⟩ := hstep.preserves h2 (by omega)
    have hout := hstep.outcome h2
    obtain ⟨m2, u2, k2, hr2, hv1, hv2, hv3, hv4⟩ := ih m u hu2 hu1 (by omega)
    refine ⟨m2, u2, k + k2, ?_, hv1, hv2, hv3, ?_⟩
    · simp only [quadtree_insert_all, quadtree_insert, hr, hr2]
    · intro hn
      have hk : k = 0 := by omega
      have hk2 : k2 = 0 := by omega
      obtain ⟨hm2, hb2⟩ := hv4 hk2
      rcases hout with ⟨-, hm, hb⟩ | ⟨hk1, -⟩
      · refine ⟨by rw [hm2, hm], ?_⟩
        rw [hb2, hb, ← Multiset.cons_coe, Multiset.cons_add, Multiset.add_cons]
      · omega

/-! ## quadtree.c: the aggregation pass -/

theorem mass_sum_zero (mem : Heap K) : mass_sum mem 0 = 0 := by
  simp [mass_sum]

theorem mass_sum_singleton (mem : Heap K) (p : Nat) : mass_sum mem {p} = (mem p).mass := by
  simp [mass_sum]

theorem mass_sum_add (mem : Heap K) (a b : Multiset Nat) :
    mass_sum mem (a + b) = mass_sum mem a + mass_sum mem b := by
  simp [mass_sum]

theorem mass_sum_nonneg (mem : Heap K) (bs : Multiset Nat)
    (h : ∀ p ∈ bs, 0 ≤ (mem p).mass) : 0 ≤ mass_sum mem bs := by
  unfold mass_sum
  apply Multiset.sum_nonneg
  intro x hx
  obtain ⟨p, hp, rfl⟩ := Multiset.mem_map.mp hx
  exact h p hp

theorem moment_zero (mem : Heap K) : moment mem 0 = ⟨0, 0⟩ := by
  simp [moment]

theorem moment_singleton (mem : Heap K) (p : Nat) :
    moment mem {p} = scale (mem p).position (mem p).mass := by
  simp [moment, scale]

theorem moment_add (mem : Heap K) (a b : Multiset Nat) :
    moment mem (a + b) = add (moment mem a) (moment mem b) := by
  simp [moment, add]

/-- Bodies of non-negative mass whose masses sum to zero have no moment. -/
theorem moment_eq_zero (mem : Heap K) (bs : Multiset Nat) :
    (∀ p ∈ bs, 0 ≤ (mem p).mass) → mass_sum mem bs = 0 → moment mem bs = ⟨0, 0⟩ := by
  induction bs using Multiset.induction_on with
  | empty => intro _ _; exact moment_zero mem
  | cons a bs ih =>
    intro hnn hsum
    have ha : 0 ≤ (mem a).mass := hnn a (Multiset.mem_cons_self a bs)
    have hbs : ∀ p ∈ bs, 0 ≤ (mem p).mass := fun p hp => hnn p (Multiset.mem_cons_of_mem hp)
    have hs := mass_sum_nonneg mem bs hbs
    have hsum2 : (mem a).mass + mass_sum mem bs = 0 := by
      simpa [mass_sum] using hsum
    have ha0 : (mem a).mass = 0 := by linarith
    have hs0 : mass_sum mem bs = 0 := by linarith
    have hm := ih hbs hs0
    have hx := congrArg Vec2.x hm
    have hy := congrArg Vec2.y hm
    simp only [moment] at hx hy
    simp [moment, ha0, hx, hy]

theorem totalMass_node (c : Vec2 K) (s : K) (b : Option Nat) (c0 c1 c2 c3 : QuadtreeNode K)
    (tm : K) (com : Vec2 K) :
    (QuadtreeNode.node c s b c0 c1 c2 c3 tm com).totalMass = some tm := rfl

theorem centerOfMass_node (c : Vec2 K) (s : K) (b : Option Nat) (c0 c1 c2 c3 : QuadtreeNode K)
    (tm : K) (com : Vec2 K) :
    (QuadtreeNode.node c s b c0 c1 c2 c3 tm com).centerOfMass = some com := rfl

theorem mass_accumulate_eq (acc : K × Vec2 K) (x : QuadtreeNode K) :
    mass_accumulate acc x
      = (acc.1 + x.totalMass.getD 0,
         add acc.2 (scale (x.centerOfMass.getD ⟨0, 0⟩) (x.totalMass.getD 0))) := by
  cases x with
  | null =>
    simp [mass_accumulate, QuadtreeNode.totalMass, QuadtreeNode.centerOfMass, add, scale]
  | node c s b c0 c1 c2 c3 tm com =>
    simp [mass_accumulate, QuadtreeNode.totalMass, QuadtreeNode.centerOfMass]

theorem compute_ne_null (mem : Heap K) (t : QuadtreeNode K) (h : t ≠ .null) :
    quadtree_compute_mass_distribution mem t ≠ .null := by
  cases t with
  | null => exact absurd rfl h
  | node c s b c0 c1 c2 c3 tm com =>
    cases b <;> simp [quadtree_compute_mass_distribution]

theorem compute_bodies (mem : Heap K) (t : QuadtreeNode K) :
    (quadtree_compute_mass_distribution mem t).bodies = t.bodies := by
  induction t with
  | null => rfl
  | node c s b c0 c1 c2 c3 tm com ih0 ih1 ih2 ih3 =>
    cases b with
    | some p => simp [quadtree_compute_mass_distribution, QuadtreeNode.bodies]
    | none => simp [quadtree_compute_mass_distribution, QuadtreeNode.bodies, ih0, ih1, ih2, ih3]

/-- After aggregation `total_mass` is the sum of the masses held in the subtree. -/
theorem compute_totalMass (mem : Heap K) (t : QuadtreeNode K) :
    (quadtree_compute_mass_distribution mem t).totalMass.getD 0 = mass_sum mem t.bodies := by
  induction t with
  | null => simp [quadtree_compute_mass_distribution, QuadtreeNode.totalMass,
      QuadtreeNode.bodies, mass_sum_zero]
  | node c s b c0 c1 c2 c3 tm com ih0 ih1 ih2 ih3 =>
    cases b with
    | some p =>
      simp [quadtree_compute_mass_distribution, QuadtreeNode.totalMass, QuadtreeNode.bodies,
        mass_sum_singleton]
    | none =>
      simp only [quadtree_compute_mass_distribution, mass_accumulate_eq, totalMass_node,
        Option.getD_some, QuadtreeNode.bodies, mass_sum_add, ih0, ih1, ih2, ih3, zero_add]

/-- After aggregation, with non-negative masses, `center_of_mass * total_mass`
is the sum of `position * mass` over the bodies held in the subtree. -/
theorem compute_moment (mem : Heap K) (t : QuadtreeNode K) :
    (∀ p ∈ t.bodies, 0 ≤ (mem p).mass) →
    scale ((quadtree_compute_mass_distribution mem t).centerOfMass.getD ⟨0, 0⟩)
        ((quadtree_compute_mass_distribution mem t).totalMass.getD 0)
      = moment mem t.bodies := by
  induction t with
  | null =>
    intro _
    simp [quadtree_compute_mass_distribution, QuadtreeNode.totalMass,
      QuadtreeNode.centerOfMass, QuadtreeNode.bodies, moment_zero, scale]
  | node c s b c0 c1 c2 c3 tm com ih0 ih1 ih2 ih3 =>
    intro hnn
    cases b with
    | some p =>
      simp [quadtree_compute_mass_distribution, QuadtreeNode.totalMass,
        QuadtreeNode.centerOfMass, QuadtreeNode.bodies, moment_singleton]
    | none =>
      have hT := compute_totalMass mem (.node c s none c0 c1 c2 c3 tm com)
      simp only [QuadtreeNode.bodies, Multiset.mem_add] at hnn
      have e0 := ih0 (fun p hp => hnn p (Or.inl (Or.inl (Or.inl hp))))
      have e1 := ih1 (fun p hp => hnn p (Or.inl (Or.inl (Or.inr hp))))
      have e2 := ih2 (fun p hp => hnn p (Or.inl (Or.inr hp)))
      have e3 := ih3 (fun p hp => hnn p (Or.inr hp))
      have hpos : 0 ≤ mass_sum mem (QuadtreeNode.node c s none c0 c1 c2 c3 tm com).bodies :=
        mass_sum_nonneg mem _ (by
          simp only [QuadtreeNode.bodies, Multiset.mem_add]
          exact hnn)
      simp only [quadtree_compute_mass_distribution, mass_accumulate_eq, totalMass_node,
        Option.getD_some, centerOfMass_node, e0, e1, e2, e3] at hT ⊢
      rw [hT]
      by_cases h0 : 0 < mass_sum mem (QuadtreeNode.node c s none c0 c1 c2 c3 tm com).bodies
      · rw [if_pos h0]
        simp only [QuadtreeNode.bodies, moment_add]
        have hne : mass_sum mem (c0.bodies + c1.bodies + c2.bodies + c3.bodies) ≠ 0 := by
          simp only [QuadtreeNode.bodies] at h0
          exact ne_of_gt h0
        ext <;> simp [scale, add] <;> field_simp
      · have hz : mass_sum mem (QuadtreeNode.node c s none c0 c1 c2 c3 tm com).bodies = 0 :=
          le_antisymm (not_lt.mp h0) hpos
        rw [if_neg h0, moment_eq_zero mem _ (by
          simp only [QuadtreeNode.bodies, Multiset.mem_add]
          exact hnn) hz]
        simp [scale]

theorem compute_internal (mem : Heap K) (c : Vec2 K) (s : K) (c0 c1 c2 c3 : QuadtreeNode K)
    (tm : K) (com : Vec2 K) :
    ∃ (T : K) (W : Vec2 K),
      quadtree_compute_mass_distribution mem (.node c s none c0 c1 c2 c3 tm com)
        = .node c s none (quadtree_compute_mass_distribution mem c0)
            (quadtree_compute_mass_distribution mem c1)
            (quadtree_compute_mass_distribution mem c2)
            (quadtree_compute_mass_distribution mem c3) T
            (if T > 0 then scale W (1 / T) else ⟨0, 0⟩) :=
  ⟨_, _, rfl⟩

/-- After aggregation of a well-formed tree over bodies of non-negative mass,
the aggregates of every node are right. -/
theorem compute_allNodes (mem : Heap K) (t : QuadtreeNode K) :
    WellFormed t → (∀ p ∈ t.bodies, 0 ≤ (mem p).mass) →
    AllNodes (AggregateOK mem) (quadtree_compute_mass_distribution mem t) := by
  induction t with
  | null => intro _ _; simp [quadtree_compute_mass_distribution, AllNodes]
  | node c s b c0 c1 c2 c3 tm com ih0 ih1 ih2 ih3 =>
    intro hw hnn
    cases b with
    | some p =>
      simp only [WellFormed] at hw
      rcases hw.1 with h0 | h1
      · obtain ⟨rfl, rfl, rfl, rfl⟩ := h0
        simp only [quadtree_compute_mass_distribution, AllNodes, AggregateOK,
          QuadtreeNode.bodies, mass_sum_singleton, and_true, true_and]
        refine ⟨fun hpos => ?_, fun h => (by cases h), fun q hq => (by cases hq; rfl)⟩
        have hne : (mem p).mass ≠ 0 := ne_of_gt hpos
        simp only [weighted_average, moment_singleton, mass_sum_singleton, scale]
        ext <;> simp <;> field_simp
      · cases h1.1
    | none =>
      have hT := compute_totalMass mem (.node c s none c0 c1 c2 c3 tm com)
      have hM := compute_moment mem (.node c s none c0 c1 c2 c3 tm com) hnn
      have hB := compute_bodies mem (.node c s none c0 c1 c2 c3 tm com)
      simp only [WellFormed] at hw
      simp only [QuadtreeNode.bodies, Multiset.mem_add] at hnn
      have a0 := ih0 hw.2.1 (fun p hp => hnn p (Or.inl (Or.inl (Or.inl hp))))
      have a1 := ih1 hw.2.2.1 (fun p hp => hnn p (Or.inl (Or.inl (Or.inr hp))))
      have a2 := ih2 hw.2.2.2.1 (fun p hp => hnn p (Or.inl (Or.inr hp)))
      have a3 := ih3 hw.2.2.2.2 (fun p hp => hnn p (Or.inr hp))
      obtain ⟨T, W, hc⟩ := compute_internal mem c s c0 c1 c2 c3 tm com
      rw [hc] at hT hM hB ⊢
      simp only [totalMass_node, centerOfMass_node, Option.getD_some] at hT hM
      simp only [AllNodes, a0, a1, a2, a3, and_true]
      simp only [AggregateOK, hB]
      refine ⟨hT, fun hpos => ?_, fun _ h0 => ?_, fun q hq => (by cases hq)⟩
      · have hne : T ≠ 0 := ne_of_gt hpos
        generalize (if T > 0 then scale W (1 / T) else (⟨0, 0⟩ : Vec2 K)) = C at hM ⊢
        simp only [weighted_average, ← hM, ← hT, scale]
        ext <;> simp <;> field_simp
      · rw [if_neg (by rw [h0]; exact lt_irrefl 0)]

theorem compute_totalMass_some (mem : Heap K) (t : QuadtreeNode K) (h : t ≠ .null) :
    (quadtree_compute_mass_distribution mem t).totalMass = some (mass_sum mem t.bodies) := by
  have h1 := compute_totalMass mem t
  have h2 := compute_ne_null mem t h
  cases hr : quadtree_compute_mass_distribution mem t with
  | null => exact absurd hr h2
  | node c s b c0 c1 c2 c3 tm com =>
    rw [hr] at h1
    simpa [totalMass_node] using h1

theorem create_invariant (center : Vec2 K) (size : K) :
    quadtree_create center size ≠ .null ∧ WellFormed (quadtree_create center size) ∧
    (quadtree_create center size).height ≤ MAX_DEPTH + 1 ∧
    (quadtree_create center size).bodies = 0 := by
  simp [quadtree_create, WellFormed, QuadtreeNode.height, QuadtreeNode.bodies]

/-- C3: inserting a list of bodies into a tree made by `quadtree_create` returns
(given `MAX_DEPTH + 1` levels of recursion), and when no insertion reached the
`MAX_DEPTH` mass-fusion branch (ghost counter 0) the bodies are unchanged and
`quadtree_compute_mass_distribution` sets the root `total_mass` to the sum of
the masses of the inserted bodies. -/
theorem root_total_mass (fuel : Nat) (hf : MAX_DEPTH + 1 ≤ fuel) (mem : Heap K)
    (center : Vec2 K) (size : K) (ps : List Nat) :
    ∃ mem1 t n,
      quadtree_insert_all fuel mem (quadtree_create center size) ps = some (mem1, t, n) ∧
      (n = 0 → mem1 = mem ∧
        (quadtree_compute_mass_distribution mem1 t).totalMass
          = some ((ps.map fun p => (mem p).mass).sum)) := by
  obtain ⟨h1, h2, h3, h4⟩ := create_invariant center size
  obtain ⟨mem1, t, n, hr, ht1, -, -, hn⟩ :=
    insert_all_outcome fuel hf ps mem (quadtree_create center size) h1 h2 h3
  refine ⟨mem1, t, n, hr, fun h0 => ?_⟩
  obtain ⟨hm, hb⟩ := hn h0
  refine ⟨hm, ?_⟩
  rw [compute_totalMass_some mem1 t ht1, hb, h4, hm]
  simp [mass_sum]

/-- Witness for `root_total_mass`: the two bodies of `twoBodies`, total mass 2. -/
theorem root_total_mass_witness :
    (quadtree_compute_mass_distribution (twoBodies : Heap ℚ) twoBodyTree).totalMass
      = some (([0, 1].map fun p => ((twoBodies : Heap ℚ) p).mass).sum) := by
  obtain ⟨mem1, t, n, h, hn⟩ :=
    root_total_mass 101 (by decide) (twoBodies : Heap ℚ) ⟨4, 4⟩ 8 [0, 1]
  rw [twoBodyTree_built 99] at h
  cases h
  exact (hn rfl).2

/-- C4: for a tree built by insertions that never reached the mass-fusion
branch, from bodies of non-negative mass, after
`quadtree_compute_mass_distribution` every node has `total_mass` equal to the
sum of the masses held in its subtree and `center_of_mass` equal to their
mass-weighted average when `total_mass` is positive, to the origin when the
node has no body and `total_mass` is zero, and to the position of its body when
it is a leaf. -/
theorem center_of_mass_weighted_average (fuel : Nat) (hf : MAX_DEPTH + 1 ≤ fuel)
    (mem : Heap K) (center : Vec2 K) (size : K) (ps : List Nat)
    (hmass : ∀ p ∈ ps, 0 ≤ (mem p).mass) :
    ∃ mem1 t n,
      quadtree_insert_all fuel mem (quadtree_create center size) ps = some (mem1, t, n) ∧
      (n = 0 → AllNodes (AggregateOK mem1) (quadtree_compute_mass_distribution mem1 t)) := by
  obtain ⟨h1, h2, h3, h4⟩ := create_invariant center size
  obtain ⟨mem1, t, n, hr, -, htw, -, hn⟩ :=
    insert_all_outcome fuel hf ps mem (quadtree_create center size) h1 h2 h3
  refine ⟨mem1, t, n, hr, fun h0 => ?_⟩
  obtain ⟨hm, hb⟩ := hn h0
  apply compute_allNodes mem1 t htw
  intro p hp
  rw [hb, h4, zero_add, Multiset.mem_coe] at hp
  rw [hm]
  exact hmass p hp

/-- Witness for `center_of_mass_weighted_average`: the two-body tree. -/
theorem center_of_mass_weighted_average_witness :
    AllNodes (AggregateOK (twoBodies : Heap ℚ))
      (quadtree_compute_mass_distribution (twoBodies : Heap ℚ) twoBodyTree) := by
  obtain ⟨mem1, t, n, h, hn⟩ :=
    center_of_mass_weighted_average 101 (by decide) (twoBodies : Heap ℚ) ⟨4, 4⟩ 8 [0, 1]
      (by intro p _; simp [twoBodies])
  rw [twoBodyTree_built 99] at h
  cases h
  exact hn rfl

/-! ## Where the inserted bodies are held -/

/-- The code of `get_quadrant` follows the quadrant rule of the specification. -/
theorem get_quadrant_eq_rule (c p : Vec2 K) : get_quadrant c p = quadrant_rule c p := by
  unfold get_quadrant quadrant_rule
  by_cases hy : p.y < c.y <;> by_cases hx : p.x < c.x <;> simp [hy, hx]

theorem leaf_reached_of_placed (mem : Heap K) (t : QuadtreeNode K) :
    Placed mem t → ∀ p ∈ t.bodies, leaf_reached (mem p).position t = some p := by
  induction t with
  | null => intro _ p hp; simp [QuadtreeNode.bodies] at hp
  | node c s b c0 c1 c2 c3 tm com ih0 ih1 ih2 ih3 =>
    intro hpl p hp
    cases b with
    | some e =>
      simp only [QuadtreeNode.bodies, Multiset.mem_singleton] at hp
      simp [leaf_reached, hp]
    | none =>
      simp only [Placed] at hpl
      obtain ⟨q0, q1, q2, q3, p0, p1, p2, p3⟩ := hpl
      simp only [QuadtreeNode.bodies, Multiset.mem_add] at hp
      rcases hp with ((hp | hp) | hp) | hp
      · simp only [leaf_reached, q0 p hp]; exact ih0 p0 p hp
      · simp only [leaf_reached, q1 p hp]; exact ih1 p1 p hp
      · simp only [leaf_reached, q2 p hp]; exact ih2 p2 p hp
      · simp only [leaf_reached, q3 p hp]; exact ih3 p3 p hp

theorem leaf_reached_mem (pos : Vec2 K) (t : QuadtreeNode K) (p : Nat) :
    leaf_reached pos t = some p → p ∈ t.bodies := by
  induction t with
  | null => intro h; simp [leaf_reached] at h
  | node c s b c0 c1 c2 c3 tm com ih0 ih1 ih2 ih3 =>
    intro h
    cases b with
    | some e =>
      simp only [leaf_reached, Option.some.injEq] at h
      simp [QuadtreeNode.bodies, h]
    | none =>
      simp only [QuadtreeNode.bodies, Multiset.mem_add]
      simp only [leaf_reached] at h
      cases hq : quadrant_rule c pos <;> rw [hq] at h <;> simp only at h
      · exact Or.inl (Or.inl (Or.inl (ih0 h)))
      · exact Or.inl (Or.inl (Or.inr (ih1 h)))
      · exact Or.inl (Or.inr (ih2 h))
      · exact Or.inr (ih3 h)

theorem placed_setChild (mem : Heap K) (c : Vec2 K) (s : K) (c0 c1 c2 c3 : QuadtreeNode K)
    (tm : K) (com : Vec2 K) (q : Quadrant) (ch : QuadtreeNode K)
    (hX : Placed mem (.node c s none c0 c1 c2 c3 tm com)) (hch : Placed mem ch)
    (hq : ∀ p ∈ ch.bodies, quadrant_rule c (mem p).position = q) :
    Placed mem ((QuadtreeNode.node c s none c0 c1 c2 c3 tm com).setChild q ch) := by
  simp only [Placed] at hX
  obtain ⟨q0, q1, q2, q3, p0, p1, p2, p3⟩ := hX
  cases q <;> simp only [QuadtreeNode.setChild, Placed] <;>
    exact ⟨by assumption, by assumption, by assumption, by assumption,
      by assumption, by assumption, by assumption, by assumption⟩

theorem placed_child (mem : Heap K) (c : Vec2 K) (s : K) (c0 c1 c2 c3 : QuadtreeNode K)
    (tm : K) (com : Vec2 K) (q : Quadrant)
    (hX : Placed mem (.node c s none c0 c1 c2 c3 tm com)) :
    Placed mem ((QuadtreeNode.node c s none c0 c1 c2 c3 tm com).child q) ∧
    ∀ p ∈ ((QuadtreeNode.node c s none c0 c1 c2 c3 tm com).child q).bodies,
      quadrant_rule c (mem p).position = q := by
  simp only [Placed] at hX
  obtain ⟨q0, q1, q2, q3, p0, p1, p2, p3⟩ := hX
  cases q <;> simp only [QuadtreeNode.child] <;> exact ⟨by assumption, by assumption⟩

/-- A call that does not reach the fusion branch keeps every body in the child
chosen by the quadrant rule. -/
theorem InsertStep.placed {mem : Heap K} {t : QuadtreeNode K} {b d : Nat} {mem1 : Heap K}
    {t1 : QuadtreeNode K} {n : Nat} (h : InsertStep mem t b d mem1 t1 n) :
    WellFormed t → Placed mem t → n = 0 → Placed mem t1 := by
  induction h with
  | store c s c1 c2 c3 tm com b d => intro _ _ _; simp [Placed]
  | descend c s c0 c1 c2 c3 tm com b d mem1 ch n _ hstep ih =>
    intro hw hpl hn
    have hwc := child_wellFormed c s none c0 c1 c2 c3 tm com hw
      (get_quadrant c (mem b).position)
    obtain ⟨hpc, hqc⟩ := placed_child mem c s c0 c1 c2 c3 tm com
      (get_quadrant c (mem b).position) hpl
    refine placed_setChild mem c s c0 c1 c2 c3 tm com _ ch hpl (ih hwc hpc hn) ?_
    rcases hstep.outcome hwc with ⟨-, -, hb⟩ | ⟨h1, -⟩
    · intro p hp
      rw [hb, Multiset.mem_cons] at hp
      rcases hp with rfl | hp
      · exact (get_quadrant_eq_rule c _).symm
      · exact hqc p hp
    · omega
  | fuse c s e c0 c1 c2 c3 tm com b d _ => intro _ _ hn; cases hn
  | split c s e c0 c1 c2 c3 tm com b d mem2 ch2 n _ hstep ih =>
    intro _ _ hn
    rw [split_form] at ih hstep ⊢
    have hw2 : WellFormed (QuadtreeNode.node c s none
        (split_child c s e (get_quadrant c (mem e).position) .NORTHWEST)
        (split_child c s e (get_quadrant c (mem e).position) .NORTHEAST)
        (split_child c s e (get_quadrant c (mem e).position) .SOUTHWEST)
        (split_child c s e (get_quadrant c (mem e).position) .SOUTHEAST) tm com) := by
      simp [WellFormed, split_child_ne_null, split_child_wellFormed]
    have hpl2 : Placed mem (QuadtreeNode.node c s none
        (split_child c s e (get_quadrant c (mem e).position) .NORTHWEST)
        (split_child c s e (get_quadrant c (mem e).position) .NORTHEAST)
        (split_child c s e (get_quadrant c (mem e).position) .SOUTHWEST)
        (split_child c s e (get_quadrant c (mem e).position) .SOUTHEAST) tm com) := by
      have hr := get_quadrant_eq_rule c (mem e).position
      simp only [Placed, split_child_bodies]
      refine ⟨?_, ?_, ?_, ?_, ?_, ?_, ?_, ?_⟩
      · intro p hp; split at hp
        · next hq => rw [Multiset.mem_singleton] at hp; rw [hp, ← hr, ← hq]
        · simp at hp
      · intro p hp; split at hp
        · next hq => rw [Multiset.mem_singleton] at hp; rw [hp, ← hr, ← hq]
        · simp at hp
      · intro p hp; split at hp
        · next hq => rw [Multiset.mem_singleton] at hp; rw [hp, ← hr, ← hq]
        · simp at hp
      · intro p hp; split at hp
        · next hq => rw [Multiset.mem_singleton] at hp; rw [hp, ← hr, ← hq]
        · simp at hp
      all_goals
        unfold split_child
        split <;> simp [quadtree_create, QuadtreeNode.setBody, Placed, QuadtreeNode.bodies]
    have hwc := child_wellFormed _ _ _ _ _ _ _ _ _ hw2 (get_quadrant c (mem b).position)
    obtain ⟨hpc, hqc⟩ := placed_child mem c s _ _ _ _ tm com
      (get_quadrant c (mem b).position) hpl2
    refine placed_setChild mem c s _ _ _ _ tm com _ ch2 hpl2 (ih hwc hpc hn) ?_
    rcases hstep.outcome hwc with ⟨-, -, hb⟩ | ⟨h1, -⟩
    · intro p hp
      rw [hb, Multiset.mem_cons] at hp
      rcases hp with rfl | hp
      · exact (get_quadrant_eq_rule c _).symm
      · exact hqc p hp
    · omega

theorem insert_all_placed (fuel : Nat) :
    ∀ (ps : List Nat) (mem : Heap K) (t : QuadtreeNode K) (mem1 : Heap K)
      (t1 : QuadtreeNode K) (n : Nat),
    WellFormed t → t.height ≤ MAX_DEPTH + 1 → Placed mem t →
    quadtree_insert_all fuel mem t ps = some (mem1, t1, n) → n = 0 → Placed mem t1 := by
  intro ps
  induction ps with
  | nil =>
    intro mem t mem1 t1 n _ _ hpl hins _
    simp only [quadtree_insert_all, Option.some.injEq, Prod.mk.injEq] at hins
    rw [← hins.2.1]
    exact hpl
  | cons b rest ih =>
    intro mem t mem1 t1 n hw hh hpl hins hn
    simp only [quadtree_insert_all] at hins
    cases h1 : quadtree_insert fuel mem t b with
    | none => rw [h1] at hins; cases hins
    | some r =>
      obtain ⟨m, u, k⟩ := r
      rw [h1] at hins
      simp only at hins
      cases h2 : quadtree_insert_all fuel m u rest with
      | none => rw [h2] at hins; cases hins
      | some r2 =>
        obtain ⟨m2, u2, k2⟩ := r2
        rw [h2] at hins
        simp only [Option.some.injEq, Prod.mk.injEq] at hins
        obtain ⟨-, rfl, rfl⟩ := hins
        have hstep := insertStep_of_eq fuel mem t b 0 m u k h1
        obtain ⟨hu1, -, hu3⟩ := hstep.preserves hw (by omega)
        have hpu := hstep.placed hw hpl (by omega)
        rcases hstep.outcome hw with ⟨-, hm, -⟩ | ⟨hk, -⟩
        · subst hm
          exact ih m u m2 u2 k2 hu1 (by omega) hpu h2 (by omega)
        · omega

/-- C5 (amended): for every list of distinct bodies inserted into a tree made by
`quadtree_create` without reaching the mass-fusion branch, each inserted body
is the body held by the leaf reached from the root by descending into the child
chosen by the quadrant rule (north if `y` is below the centre `y`, else south;
west if `x` is below the centre `x`, else east), and it is held exactly once. -/
theorem inserted_bodies_located (fuel : Nat) (hf : MAX_DEPTH + 1 ≤ fuel) (mem : Heap K)
    (center : Vec2 K) (size : K) (ps : List Nat) (hnd : ps.Nodup) :
    ∃ mem1 t n,
      quadtree_insert_all fuel mem (quadtree_create center size) ps = some (mem1, t, n) ∧
      (n = 0 → ∀ p ∈ ps,
        leaf_reached (mem1 p).position t = some p ∧ t.bodies.count p = 1) := by
  obtain ⟨h1, h2, h3, h4⟩ := create_invariant center size
  obtain ⟨mem1, t, n, hr, -, -, -, hn⟩ :=
    insert_all_outcome fuel hf ps mem (quadtree_create center size) h1 h2 h3
  refine ⟨mem1, t, n, hr, fun h0 p hp => ?_⟩
  obtain ⟨hm, hb⟩ := hn h0
  have hpl := insert_all_placed fuel ps mem (quadtree_create center size) mem1 t n h2 h3
    (by simp [quadtree_create, Placed, QuadtreeNode.bodies]) hr h0
  rw [h4, zero_add] at hb
  subst hm
  refine ⟨leaf_reached_of_placed mem1 t hpl p (by rw [hb]; exact hp), ?_⟩
  rw [hb, Multiset.coe_count]
  exact List.count_eq_one_of_mem hnd hp

/-- Witness for `inserted_bodies_located`: the two bodies of `twoBodies`. -/
theorem inserted_bodies_located_witness :
    (leaf_reached ((twoBodies : Heap ℚ) 0).position (twoBodyTree : QuadtreeNode ℚ) = some 0 ∧
      (twoBodyTree : QuadtreeNode ℚ).bodies.count 0 = 1) ∧
    (leaf_reached ((twoBodies : Heap ℚ) 1).position (twoBodyTree : QuadtreeNode ℚ) = some 1 ∧
      (twoBodyTree : QuadtreeNode ℚ).bodies.count 1 = 1) := by
  obtain ⟨mem1, t, n, h, hn⟩ :=
    inserted_bodies_located 101 (by decide) (twoBodies : Heap ℚ) ⟨4, 4⟩ 8 [0, 1] (by decide)
  rw [twoBodyTree_built 99] at h
  cases h
  exact ⟨hn rfl 0 (by decide), hn rfl 1 (by decide)⟩

/-! ## Bodies that share a cell down to `MAX_DEPTH` -/

theorem insert_recursive_split_eq (fuel : Nat) (mem : Heap K) (c : Vec2 K) (s : K) (e : Nat)
    (c0 c1 c2 c3 : QuadtreeNode K) (tm : K) (com : Vec2 K) (b d : Nat)
    (hd : ¬ MAX_DEPTH ≤ d) :
    quadtree_insert_recursive (fuel + 2) mem (.node c s (some e) c0 c1 c2 c3 tm com) b d
      = match quadtree_insert_recursive (fuel + 1) mem
          ((QuadtreeNode.node c s none
            (split_child c s e (get_quadrant c (mem e).position) .NORTHWEST)
            (split_child c s e (get_quadrant c (mem e).position) .NORTHEAST)
            (split_child c s e (get_quadrant c (mem e).position) .SOUTHWEST)
            (split_child c s e (get_quadrant c (mem e).position) .SOUTHEAST) tm com).child
            (get_quadrant c (mem b).position)) b (d + 1) with
        | none => none
        | some (mem2, ch2, n2) =>
          some (mem2,
            (QuadtreeNode.node c s none
              (split_child c s e (get_quadrant c (mem e).position) .NORTHWEST)
              (split_child c s e (get_quadrant c (mem e).position) .NORTHEAST)
              (split_child c s e (get_quadrant c (mem e).position) .SOUTHWEST)
              (split_child c s e (get_quadrant c (mem e).position) .SOUTHEAST) tm com).setChild
              (get_quadrant c (mem b).position) ch2, 0 + n2) := by
  have hform := split_form c s e c0 c1 c2 c3 tm com (get_quadrant c (mem e).position)
  simp only [quadtree_insert_recursive, ge_iff_le, hd, if_false, subdivide_child]
  simp only [ne_eq, not_true_eq_false, if_false]
  simp only [subdivide_child, quadtree_create, QuadtreeNode.setBody] at hform
  simp only [hform]

/-- Two bodies that fall into the same quadrant at every level down to
`MAX_DEPTH` (`I` describes the cells met on the way) end in the fusion branch:
the resident body gains the mass of the incoming one. -/
theorem same_cell_fuses (mem : Heap K) (e b : Nat) (I : Nat → Vec2 K → K → Prop)
    (hI : ∀ d c s, I d c s → d < MAX_DEPTH →
      get_quadrant c (mem b).position = get_quadrant c (mem e).position ∧
      I (d + 1) (child_center c s (get_quadrant c (mem e).position)) (s / 2)) :
    ∀ (k d : Nat) (c : Vec2 K) (s tm : K) (com : Vec2 K) (fuel : Nat),
      d + k = MAX_DEPTH → k + 1 ≤ fuel → I d c s →
      ∃ t1, quadtree_insert_recursive fuel mem
          (.node c s (some e) .null .null .null .null tm com) b d
        = some (Function.update mem e
            { mem e with mass := (mem e).mass + (mem b).mass }, t1, 1) := by
  intro k
  induction k with
  | zero =>
    intro d c s tm com fuel hd hfuel _
    obtain ⟨f, rfl⟩ : ∃ f, fuel = f + 1 := ⟨fuel - 1, by omega⟩
    have hle : MAX_DEPTH ≤ d := by omega
    simp only [quadtree_insert_recursive, ge_iff_le, hle, if_true]
    exact ⟨_, rfl⟩
  | succ k ih =>
    intro d c s tm com fuel hd hfuel hinv
    obtain ⟨f, rfl⟩ : ∃ f, fuel = f + 2 := ⟨fuel - 2, by omega⟩
    have hlt : d < MAX_DEPTH := by omega
    obtain ⟨hq, hnext⟩ := hI d c s hinv hlt
    rw [insert_recursive_split_eq f mem c s e _ _ _ _ tm com b d (by omega), hq]
    have hchild : (QuadtreeNode.node c s none
        (split_child c s e (get_quadrant c (mem e).position) .NORTHWEST)
        (split_child c s e (get_quadrant c (mem e).position) .NORTHEAST)
        (split_child c s e (get_quadrant c (mem e).position) .SOUTHWEST)
        (split_child c s e (get_quadrant c (mem e).position) .SOUTHEAST) tm com).child
        (get_quadrant c (mem e).position)
        = .node (child_center c s (get_quadrant c (mem e).position)) (s / 2) (some e)
            .null .null .null .null 0 ⟨0, 0⟩ := by
      cases (get_quadrant c (mem e).position) <;>
        simp [QuadtreeNode.child, split_child, quadtree_create, QuadtreeNode.setBody]
    rw [hchild]
    obtain ⟨t1, ht1⟩ := ih (d + 1) (child_center c s (get_quadrant c (mem e).position))
      (s / 2) 0 ⟨0, 0⟩ (f + 1) (by omega) (by omega) hnext
    rw [ht1]
    exact ⟨_, rfl⟩

/-- Cells met by the bodies of `nearBodies` below the root `(2, 2)` of size 4:
at depth `d` the cell has size `4 / 2^d` and its centre is `(size/2, size/2)`. -/
theorem nearBodies_same_cell (d : Nat) (c : Vec2 ℚ) (s : ℚ)
    (h : c.x = s / 2 ∧ c.y = s / 2 ∧ s = 4 / 2 ^ d) (hd : d < MAX_DEPTH) :
    get_quadrant c ((nearBodies : Heap ℚ) 1).position
        = get_quadrant c ((nearBodies : Heap ℚ) 0).position ∧
    ((child_center c s (get_quadrant c ((nearBodies : Heap ℚ) 0).position)).x = s / 2 / 2 ∧
      (child_center c s (get_quadrant c ((nearBodies : Heap ℚ) 0).position)).y = s / 2 / 2 ∧
      s / 2 = 4 / 2 ^ (d + 1)) := by
  obtain ⟨hx, hy, hs⟩ := h
  have hd99 : d ≤ 99 := by simp only [MAX_DEPTH] at hd; omega
  have hpow : (2 : ℚ) ^ d ≤ 2 ^ 99 := pow_le_pow_right₀ (by norm_num) hd99
  have hpos : (0 : ℚ) < 2 ^ d := by positivity
  have hs2 : (1 : ℚ) / 2 ^ 100 < s / 2 := by
    rw [hs, div_div, div_lt_div_iff₀ (by positivity) (by positivity)]
    have : (2 : ℚ) ^ 100 = 2 * 2 ^ 99 := by norm_num
    rw [this]
    nlinarith
  have hs0 : (0 : ℚ) < s / 2 := lt_trans (by positivity) hs2
  have q0 : get_quadrant c ((nearBodies : Heap ℚ) 0).position = .NORTHWEST := by
    simp [get_quadrant, nearBodies, hx, hy, hs0]
  have q1 : get_quadrant c ((nearBodies : Heap ℚ) 1).position = .NORTHWEST := by
    simp only [get_quadrant, nearBodies, Nat.cast_one, hx, hy, hs0, hs2, if_true]
  rw [q0, q1]
  refine ⟨rfl, ?_, ?_, ?_⟩
  · simp only [child_center, hx]; ring
  · simp only [child_center, hy]; ring
  · rw [hs, pow_succ]; field_simp

/-- C5 (counterexample): bodies 0 and 1 of `nearBodies` are distinct bodies at
different positions, `(0, 0)` and `(2^-100, 0)`, inside the root square of
centre `(2, 2)` and size 4; inserting them ends in the mass-fusion branch, and
body 1 is then held by no leaf, in particular not by the leaf reached from the
root by the quadrant rule. -/
theorem near_bodies_not_both_held :
    ((nearBodies : Heap ℚ) 0).position ≠ ((nearBodies : Heap ℚ) 1).position ∧
    ∃ mem1 t n,
      quadtree_insert_all 101 (nearBodies : Heap ℚ) (quadtree_create ⟨2, 2⟩ 4) [0, 1]
        = some (mem1, t, n) ∧
      n = 1 ∧ 1 ∉ t.bodies ∧ leaf_reached (mem1 1).position t ≠ some 1 := by
  refine ⟨?_, ?_⟩
  · intro h
    have hx := congrArg Vec2.x h
    simp only [nearBodies, Nat.cast_zero, Nat.cast_one, zero_div] at hx
    have : (0 : ℚ) < 1 / 2 ^ 100 := by positivity
    linarith
  obtain ⟨t1, ht1⟩ := same_cell_fuses (nearBodies : Heap ℚ) 0 1
    (fun d c s => c.x = s / 2 ∧ c.y = s / 2 ∧ s = 4 / 2 ^ d)
    (fun d c s h hd => nearBodies_same_cell d c s h hd)
    100 0 ⟨2, 2⟩ 4 0 ⟨0, 0⟩ 101 (by simp [MAX_DEPTH]) (by omega) (by norm_num)
  have hstep := insertStep_of_eq _ _ _ _ _ _ _ _ ht1
  have hout := hstep.outcome (by simp [WellFormed])
  have hb : t1.bodies = {0} := by
    rcases hout with ⟨h0, -⟩ | ⟨-, hb, -⟩
    · cases h0
    · simpa [QuadtreeNode.bodies] using hb
  have hnot : 1 ∉ t1.bodies := by rw [hb]; simp
  refine ⟨Function.update nearBodies 0
      { (nearBodies : Heap ℚ) 0 with
        mass := ((nearBodies : Heap ℚ) 0).mass + ((nearBodies : Heap ℚ) 1).mass },
    t1, 1, ?_, rfl, hnot, fun h => hnot (leaf_reached_mem _ _ _ h)⟩
  simp only [quadtree_insert_all, quadtree_insert]
  rw [quadtree_create, insert_recursive_empty 100]
  simp only [ht1]

/-! ## quadtree.c: ties in `get_quadrant` -/

/-- C16 (amended): `get_quadrant` breaks ties toward south/east: when the body's
`y` equals the centre's `y` the result is a south quadrant (SOUTHWEST or
SOUTHEAST), and when the body's `x` equals the centre's `x` the result is an
east quadrant (NORTHEAST or SOUTHEAST). -/
theorem get_quadrant_ties (c p : Vec2 K) :
    (p.y = c.y → get_quadrant c p = .SOUTHWEST ∨ get_quadrant c p = .SOUTHEAST) ∧
    (p.x = c.x → get_quadrant c p = .NORTHEAST ∨ get_quadrant c p = .SOUTHEAST) := by
  unfold get_quadrant
  refine ⟨fun hy => ?_, fun hx => ?_⟩
  · rw [if_neg (by rw [hy]; exact lt_irrefl _)]
    by_cases hx : p.x < c.x <;> simp [hx]
  · by_cases hy : p.y < c.y <;> simp [hy, hx]

/-- C16 (counterexample): a body at the centre `(0, 0)` of a node is put in
SOUTHEAST, which is neither a north nor a west quadrant. -/
theorem get_quadrant_tie_southeast :
    get_quadrant (⟨0, 0⟩ : Vec2 ℚ) ⟨0, 0⟩ = .SOUTHEAST ∧
    ¬ (((⟨0, 0⟩ : Vec2 ℚ).y = (⟨0, 0⟩ : Vec2 ℚ).y →
        get_quadrant (⟨0, 0⟩ : Vec2 ℚ) ⟨0, 0⟩ = .NORTHWEST ∨
        get_quadrant (⟨0, 0⟩ : Vec2 ℚ) ⟨0, 0⟩ = .NORTHEAST) ∧
      ((⟨0, 0⟩ : Vec2 ℚ).x = (⟨0, 0⟩ : Vec2 ℚ).x →
        get_quadrant (⟨0, 0⟩ : Vec2 ℚ) ⟨0, 0⟩ = .NORTHWEST ∨
        get_quadrant (⟨0, 0⟩ : Vec2 ℚ) ⟨0, 0⟩ = .SOUTHWEST)) := by
  have h : get_quadrant (⟨0, 0⟩ : Vec2 ℚ) ⟨0, 0⟩ = .SOUTHEAST := by
    simp [get_quadrant]
  refine ⟨h, ?_⟩
  rw [h]
  intro hc
  rcases hc.1 rfl with h1 | h1 <;> cases h1

/-! ## barnes_hut.c: the point-mass approximation and the frame -/

/-- C11: on a node without a body whose centre of mass lies at distance `d > 0`
from the target `T` with `size / d < theta`, and with `T.mass` non-zero, the
acceleration of `T` grows by exactly
`(center_of_mass - T.position) * (G * T.mass * total_mass / (d^2 + EPSILON) / d) / T.mass`,
nothing else of the heap changes, and the result is the same whatever the four
children are. -/
theorem point_mass_force (sqrt : K → K) (mem : Heap K) (T : Nat) (theta : K)
    (c : Vec2 K) (s : K) (c0 c1 c2 c3 k0 k1 k2 k3 : QuadtreeNode K) (tm : K) (com : Vec2 K)
    (hmass : (mem T).mass ≠ 0)
    (hd : 0 < length sqrt (subtract com (mem T).position))
    (hth : s / length sqrt (subtract com (mem T).position) < theta) :
    barnes_hut_calculate_force sqrt T theta (.node c s none c0 c1 c2 c3 tm com) mem
      = Function.update mem T { mem T with acceleration :=
          ⟨(mem T).acceleration.x + (com.x - (mem T).position.x) *
              (G * (mem T).mass * tm /
                (length sqrt (subtract com (mem T).position) ^ 2 + EPSILON) /
                length sqrt (subtract com (mem T).position)) / (mem T).mass,
           (mem T).acceleration.y + (com.y - (mem T).position.y) *
              (G * (mem T).mass * tm /
                (length sqrt (subtract com (mem T).position) ^ 2 + EPSILON) /
                length sqrt (subtract com (mem T).position)) / (mem T).mass⟩ } ∧
    barnes_hut_calculate_force sqrt T theta (.node c s none c0 c1 c2 c3 tm com) mem
      = barnes_hut_calculate_force sqrt T theta (.node c s none k0 k1 k2 k3 tm com) mem := by
  rw [calculate_force_internal_eq, calculate_force_internal_eq, if_pos ⟨hd, hth⟩,
    applyForce_some_ne _ _ _ hmass]
  refine ⟨?_, rfl⟩
  simp [add, scale, subtract, pow_two, div_eq_mul_inv]

/-- Witness for `point_mass_force` over the reals: target 0 at the origin, a
node of size 1 and mass 2 whose centre of mass `(3, 4)` is at distance 5. -/
theorem point_mass_force_witness :
    barnes_hut_calculate_force Real.sqrt 0 (1 / 2)
        (.node ⟨0, 0⟩ 1 none .null .null .null .null 2 ⟨3, 4⟩) (twoBodies : Heap ℝ)
      = Function.update twoBodies 0 { (twoBodies : Heap ℝ) 0 with acceleration :=
          ⟨((twoBodies : Heap ℝ) 0).acceleration.x +
            (3 - ((twoBodies : Heap ℝ) 0).position.x) *
              (G * ((twoBodies : Heap ℝ) 0).mass * 2 /
                (length Real.sqrt (subtract ⟨3, 4⟩ ((twoBodies : Heap ℝ) 0).position) ^ 2
                  + EPSILON) /
                length Real.sqrt (subtract ⟨3, 4⟩ ((twoBodies : Heap ℝ) 0).position)) /
              ((twoBodies : Heap ℝ) 0).mass,
           ((twoBodies : Heap ℝ) 0).acceleration.y +
            (4 - ((twoBodies : Heap ℝ) 0).position.y) *
              (G * ((twoBodies : Heap ℝ) 0).mass * 2 /
                (length Real.sqrt (subtract ⟨3, 4⟩ ((twoBodies : Heap ℝ) 0).position) ^ 2
                  + EPSILON) /
                length Real.sqrt (subtract ⟨3, 4⟩ ((twoBodies : Heap ℝ) 0).position)) /
              ((twoBodies : Heap ℝ) 0).mass⟩ } ∧
    barnes_hut_calculate_force Real.sqrt 0 (1 / 2)
        (.node ⟨0, 0⟩ 1 none .null .null .null .null 2 ⟨3, 4⟩) (twoBodies : Heap ℝ)
      = barnes_hut_calculate_force Real.sqrt 0 (1 / 2)
        (.node ⟨0, 0⟩ 1 none twoBodyTree twoBodyTree twoBodyTree twoBodyTree 2 ⟨3, 4⟩)
        (twoBodies : Heap ℝ) := by
  have h25 : Real.sqrt (3 * 3 + 4 * 4) = 5 := by
    rw [show (3 * 3 + 4 * 4 : ℝ) = 25 by norm_num, sqrt_25]
  have hd : length Real.sqrt (subtract ⟨3, 4⟩ ((twoBodies : Heap ℝ) 0).position) = 5 := by
    simp only [length, subtract, dotProduct, twoBodies, Nat.cast_zero, mul_zero, sub_zero, h25]
  exact point_mass_force Real.sqrt twoBodies 0 (1 / 2) ⟨0, 0⟩ 1 .null .null .null .null
    twoBodyTree twoBodyTree twoBodyTree twoBodyTree 2 ⟨3, 4⟩ (by simp [twoBodies])
    (by rw [hd]; norm_num) (by rw [hd]; norm_num)

theorem sameExceptAcceleration_refl (T : Nat) (mem : Heap K) :
    SameExceptAcceleration T mem mem :=
  ⟨fun _ _ => rfl, rfl, rfl, rfl⟩

theorem sameExceptAcceleration_trans (T : Nat) (m1 m2 m3 : Heap K)
    (h12 : SameExceptAcceleration T m1 m2) (h23 : SameExceptAcceleration T m2 m3) :
    SameExceptAcceleration T m1 m3 :=
  ⟨fun q hq => (h23.1 q hq).trans (h12.1 q hq), h23.2.1.trans h12.2.1,
    h23.2.2.1.trans h12.2.2.1, h23.2.2.2.trans h12.2.2.2⟩

theorem applyForce_frame (T : Nat) (mem : Heap K) (f : Vec2 K) :
    SameExceptAcceleration T mem (applyForce mem (some T) f) := by
  by_cases h0 : (mem T).mass = 0
  · have : applyForce mem (some T) f = mem := by simp [applyForce, h0]
    rw [this]
    exact sameExceptAcceleration_refl T mem
  · rw [applyForce_some_ne mem T f h0]
    refine ⟨fun q hq => Function.update_noteq hq _ _, ?_, ?_, ?_⟩ <;> simp

/-- C12: `barnes_hut_calculate_force` changes at most the acceleration of the
target: the target's position, velocity and mass and every other body are the
same after the call, for every tree and `theta`. (The tree is an argument that
the function only reads: the source assigns to no node field, and the function
of the embedding returns the heap alone.) -/
theorem calculate_force_frame (sqrt : K → K) (T : Nat) (theta : K) (t : QuadtreeNode K) :
    ∀ mem : Heap K,
      SameExceptAcceleration T mem (barnes_hut_calculate_force sqrt T theta t mem) := by
  induction t with
  | null => intro mem; exact sameExceptAcceleration_refl T mem
  | node c s b c0 c1 c2 c3 tm com ih0 ih1 ih2 ih3 =>
    intro mem
    cases b with
    | some nb =>
      simp only [barnes_hut_calculate_force]
      split
      · split
        · exact applyForce_frame T mem _
        · exact sameExceptAcceleration_refl T mem
      · exact sameExceptAcceleration_refl T mem
    | none =>
      rw [calculate_force_internal_eq]
      split
      · exact applyForce_frame T mem _
      · exact sameExceptAcceleration_refl T mem

/-! ## quadtree.c: the three states of a node -/

theorem wellFormed_allNodes (t : QuadtreeNode K) :
    WellFormed t → AllNodes ExactlyOneState t := by
  induction t with
  | null => intro _; trivial
  | node c s b c0 c1 c2 c3 tm com ih0 ih1 ih2 ih3 =>
    intro hw
    simp only [WellFormed] at hw
    obtain ⟨hshape, h0, h1, h2, h3⟩ := hw
    refine ⟨?_, ih0 h0, ih1 h1, ih2 h2, ih3 h3⟩
    simp only [ExactlyOneState, IsEmptyNode, IsLeafNode, IsInternalNode]
    rcases hshape with ⟨e0, e1, e2, e3⟩ | ⟨hb, n0, n1, n2, n3⟩
    · subst e0 e1 e2 e3
      cases b with
      | none => left; simp
      | some p => right; left; simp
    · subst hb
      right; right
      simp [n0, n1, n2, n3]

/-- C15: every node of every tree obtained from `quadtree_create` by finitely
many `quadtree_insert` calls is in exactly one of the three states empty (no
body, no children), leaf (a body, no children), internal (no body, all four
children). -/
theorem built_three_states (t : QuadtreeNode K) (h : Built t) :
    AllNodes ExactlyOneState t :=
  wellFormed_allNodes t h.invariant.2.1

/-- Witness for `built_three_states`: the two-body tree over the rationals. -/
theorem built_three_states_witness :
    AllNodes ExactlyOneState (twoBodyTree : QuadtreeNode ℚ) :=
  built_three_states twoBodyTree
    ((Built.create (⟨4, 4⟩ : Vec2 ℚ) 8).insert_all 2 [0, 1] twoBodies twoBodies twoBodyTree 0
      (twoBodyTree_built 0))

/-! ## simulation.c: one step -/

theorem simulation_step_eq (sqrt : K → K) (fuel : Nat) (sim : Simulation K) (mem1 : Heap K)
    (root1 : QuadtreeNode K) (n : Nat)
    (h : quadtree_insert_all fuel sim.bodies
      (quadtree_create ⟨sim.sim_size / 2, sim.sim_size / 2⟩ sim.sim_size)
      (List.range sim.num_bodies) = some (mem1, root1, n)) :
    simulation_step sqrt fuel sim
      = some { sim with
          bodies := update_loop sim.dt (List.range sim.num_bodies)
            (force_loop sqrt sim.theta (quadtree_compute_mass_distribution mem1 root1)
              (List.range sim.num_bodies) mem1),
          step_count := sim.step_count + 1 } := by
  simp only [simulation_step, h]

/-- C14: one `simulation_step` of a simulation with exactly one body and
`dt > 0` returns; afterwards the body has zero acceleration, its velocity `v`
and its mass are as before, and its position is `p + v * dt` (so unchanged when
`v` is zero), whatever its initial acceleration, `theta` and `sim_size`. -/
theorem single_body_step (sqrt : K → K) (fuel : Nat) (hf : 1 ≤ fuel) (sim : Simulation K)
    (h1 : sim.num_bodies = 1) (hdt : 0 < sim.dt) :
    ∃ sim1, simulation_step sqrt fuel sim = some sim1 ∧
      (sim1.bodies 0).acceleration = ⟨0, 0⟩ ∧
      (sim1.bodies 0).velocity = (sim.bodies 0).velocity ∧
      (sim1.bodies 0).mass = (sim.bodies 0).mass ∧
      (sim1.bodies 0).position
        = add (sim.bodies 0).position (scale (sim.bodies 0).velocity sim.dt) ∧
      ((sim.bodies 0).velocity = ⟨0, 0⟩ →
        (sim1.bodies 0).position = (sim.bodies 0).position) := by
  obtain ⟨f, rfl⟩ : ∃ f, fuel = f + 1 := ⟨fuel - 1, by omega⟩
  have hins : quadtree_insert_all (f + 1) sim.bodies
      (quadtree_create ⟨sim.sim_size / 2, sim.sim_size / 2⟩ sim.sim_size) [0]
      = some (sim.bodies, .node ⟨sim.sim_size / 2, sim.sim_size / 2⟩ sim.sim_size (some 0)
          .null .null .null .null 0 ⟨0, 0⟩, 0) := by
    simp only [quadtree_insert_all, quadtree_insert]
    rw [quadtree_create, insert_recursive_empty]
  have hr : List.range sim.num_bodies = [0] := by rw [h1]; rfl
  rw [← hr] at hins
  refine ⟨_, simulation_step_eq sqrt (f + 1) sim _ _ _ hins, ?_⟩
  rw [hr]
  have hnot : ¬ sim.dt ≤ 0 := not_le.mpr hdt
  simp only [quadtree_compute_mass_distribution, force_loop, barnes_hut_calculate_force,
    reset_acceleration, update_loop, update_body, ne_eq, not_true_eq_false, if_false, hnot,
    Function.update_same]
  refine ⟨trivial, ?_, trivial, ?_, ?_⟩
  · ext <;> simp [add, scale]
  · ext <;> simp [add, scale]
  · intro hv
    rw [hv]
    ext <;> simp [add, scale]

/-- Witness for `single_body_step` over the reals. -/
theorem single_body_step_witness :
    ∃ sim1, simulation_step Real.sqrt 101 (⟨twoBodies, 1, 1 / 2, 1, 8, 0⟩ : Simulation ℝ)
        = some sim1 ∧
      (sim1.bodies 0).acceleration = ⟨0, 0⟩ ∧
      (sim1.bodies 0).velocity = ((twoBodies : Heap ℝ) 0).velocity ∧
      (sim1.bodies 0).mass = ((twoBodies : Heap ℝ) 0).mass ∧
      (sim1.bodies 0).position
        = add ((twoBodies : Heap ℝ) 0).position (scale ((twoBodies : Heap ℝ) 0).velocity 1) ∧
      (((twoBodies : Heap ℝ) 0).velocity = ⟨0, 0⟩ →
        (sim1.bodies 0).position = ((twoBodies : Heap ℝ) 0).position) :=
  single_body_step Real.sqrt 101 (by norm_num) ⟨twoBodies, 1, 1 / 2, 1, 8, 0⟩ rfl
    (by norm_num)

theorem reset_acceleration_apply (mem : Heap K) (i q : Nat) :
    reset_acceleration mem (some i) q
      = if q = i then { mem q with acceleration := ⟨0, 0⟩ } else mem q := by
  by_cases h : q = i
  · subst h; simp [reset_acceleration]
  · simp [reset_acceleration, Function.update_noteq h, h]

/-- When the root gives no force to any body of the list, the force loop only
resets the accelerations of the bodies of the list. -/
theorem force_loop_no_force (sqrt : K → K) (theta : K) (root : QuadtreeNode K) :
    ∀ (l : List Nat) (mem : Heap K),
    (∀ i ∈ l, ∀ mem1 : Heap K, (∀ q, (mem1 q).position = (mem q).position) →
      barnes_hut_calculate_force sqrt i theta root mem1 = mem1) →
    ∀ q, force_loop sqrt theta root l mem q
      = if q ∈ l then { mem q with acceleration := ⟨0, 0⟩ } else mem q := by
  intro l
  induction l with
  | nil => intro mem _ q; simp [force_loop]
  | cons i rest ih =>
    intro mem H q
    have hpos : ∀ q, (reset_acceleration mem (some i) q).position = (mem q).position := by
      intro q
      rw [reset_acceleration_apply]
      split <;> rfl
    simp only [force_loop]
    rw [H i (List.mem_cons_self i rest) _ hpos]
    rw [ih (reset_acceleration mem (some i)) (fun j hj mem1 h1 =>
      H j (List.mem_cons_of_mem i hj) mem1 (fun q => (h1 q).trans (hpos q))) q]
    rw [reset_acceleration_apply]
    by_cases hqi : q = i
    · subst hqi
      by_cases hqr : q ∈ rest <;> simp [hqr]
    · by_cases hqr : q ∈ rest <;> simp [hqr, hqi]

theorem update_body_congr (m1 m2 : Heap K) (q : Nat) (dt : K) (h : m1 q = m2 q) :
    update_body m1 (some q) dt q = update_body m2 (some q) dt q := by
  simp only [update_body]
  split
  · exact h
  · simp [h]

theorem update_body_other (mem : Heap K) (i q : Nat) (dt : K) (h : q ≠ i) :
    update_body mem (some i) dt q = mem q := by
  simp only [update_body]
  split
  · rfl
  · exact Function.update_noteq h _ _

/-- The integration loop over distinct bodies updates each body of the list
from its own state and leaves the others. -/
theorem update_loop_apply (dt : K) : ∀ (l : List Nat) (mem : Heap K), l.Nodup →
    ∀ q, update_loop dt l mem q
      = if q ∈ l then update_body mem (some q) dt q else mem q := by
  intro l
  induction l with
  | nil => intro mem _ q; simp [update_loop]
  | cons i rest ih =>
    intro mem hnd q
    rw [List.nodup_cons] at hnd
    simp only [update_loop]
    rw [ih _ hnd.2 q]
    by_cases hqr : q ∈ rest
    · have hqi : q ≠ i := fun h => hnd.1 (h ▸ hqr)
      simp only [hqr, if_true, List.mem_cons, or_true]
      exact update_body_congr _ _ q dt (update_body_other mem i q dt hqi)
    · by_cases hqi : q = i
      · subst hqi
        simp [hqr]
      · simp [hqr, hqi, update_body_other mem i q dt hqi]

/-! ## Example data: the symmetric pair -/

theorem symTree_built (fuel : Nat) :
    quadtree_insert_all (fuel + 2) (symBodies : Heap K) (quadtree_create ⟨4, 4⟩ 8) [0, 1]
      = some (symBodies, symTree, 0) := by
  have q0 : get_quadrant (⟨4, 4⟩ : Vec2 K) ((symBodies : Heap K) 0).position
      = .SOUTHWEST := by
    simp only [get_quadrant, symBodies, Nat.cast_zero, mul_zero, sub_zero]
    norm_num
  have q1 : get_quadrant (⟨4, 4⟩ : Vec2 K) ((symBodies : Heap K) 1).position
      = .NORTHWEST := by
    simp only [get_quadrant, symBodies, Nat.cast_one, mul_one]
    norm_num
  simp only [quadtree_insert_all, quadtree_insert]
  rw [quadtree_create, insert_recursive_empty]
  simp only []
  rw [insert_recursive_split_eq fuel _ _ _ _ _ _ _ _ _ _ _ _ (by simp [MAX_DEPTH]), q0, q1]
  simp only [QuadtreeNode.child, split_child, quadtree_create, QuadtreeNode.setBody,
    reduceCtorEq, if_false]
  rw [insert_recursive_empty]
  simp only [QuadtreeNode.setChild, if_true, child_center, symTree]
  norm_num

theorem symRoot_computed :
    quadtree_compute_mass_distribution (symBodies : Heap K) symTree = symRoot := by
  simp [quadtree_compute_mass_distribution, mass_accumulate, symTree, symRoot,
    symBodies, add, scale]
  norm_num

/-- The root of the symmetric pair gives no force to a body at distance 5 from
the centre of mass `(0, 0)` when `theta <= 8 / 5`. -/
theorem symRoot_no_force (theta : ℝ) (hth : theta ≤ 8 / 5) (i : Nat) (mem1 : Heap ℝ)
    (hpos : (mem1 i).position = ⟨3, 4⟩ ∨ (mem1 i).position = ⟨-3, -4⟩) :
    barnes_hut_calculate_force Real.sqrt i theta (symRoot : QuadtreeNode ℝ) mem1 = mem1 := by
  have hd : length Real.sqrt (subtract ⟨0, 0⟩ (mem1 i).position) = 5 := by
    rcases hpos with h | h <;> rw [h] <;>
      simp only [length, subtract, dotProduct, zero_sub, neg_neg, neg_mul_neg] <;>
      rw [show (3 * 3 + 4 * 4 : ℝ) = 25 by norm_num, sqrt_25]
  rw [symRoot, calculate_force_internal_eq, hd, if_neg]
  rintro ⟨-, h⟩
  linarith

/-- C13 (the code at a failing input): two bodies of mass 1 at `(3, 4)` and
`(-3, -4)` with zero velocity, `sim_size = 8`, `theta = 1/2`, `dt = 1`: after
one `simulation_step` both bodies are where they were, so their distance (10)
has not become smaller. -/
theorem symmetric_pair_stays :
    ∃ sim1, simulation_step Real.sqrt 101 (⟨symBodies, 2, 1 / 2, 1, 8, 0⟩ : Simulation ℝ)
        = some sim1 ∧
      sim1.bodies 0 = (symBodies : Heap ℝ) 0 ∧ sim1.bodies 1 = (symBodies : Heap ℝ) 1 ∧
      ¬ (length Real.sqrt (subtract (sim1.bodies 0).position (sim1.bodies 1).position)
          < length Real.sqrt (subtract ((symBodies : Heap ℝ) 0).position
              ((symBodies : Heap ℝ) 1).position)) := by
  have hr : List.range 2 = [0, 1] := rfl
  have hins : quadtree_insert_all 101 (symBodies : Heap ℝ)
      (quadtree_create ⟨(8 : ℝ) / 2, (8 : ℝ) / 2⟩ 8) (List.range 2)
      = some (symBodies, symTree, 0) := by
    rw [hr, show ((8 : ℝ) / 2) = 4 by norm_num]
    exact symTree_built 99
  have hstep := simulation_step_eq Real.sqrt 101 (⟨symBodies, 2, 1 / 2, 1, 8, 0⟩ : Simulation ℝ)
    symBodies symTree 0 hins
  simp only [symRoot_computed] at hstep
  have hforce : ∀ q, force_loop Real.sqrt (1 / 2) (symRoot : QuadtreeNode ℝ) (List.range 2)
      symBodies q = (symBodies : Heap ℝ) q := by
    intro q
    rw [force_loop_no_force Real.sqrt (1 / 2) symRoot (List.range 2) symBodies]
    · split <;> rfl
    · intro i hi mem1 h1
      apply symRoot_no_force _ (by norm_num)
      rw [h1 i]
      rw [hr] at hi
      simp only [List.mem_cons, List.mem_singleton, List.not_mem_nil, or_false] at hi
      rcases hi with rfl | rfl
      · left; simp [symBodies]
      · right; simp only [symBodies, Nat.cast_one]; norm_num
  have hupd : ∀ q, q < 2 → update_loop (1 : ℝ) (List.range 2)
      (force_loop Real.sqrt (1 / 2) (symRoot : QuadtreeNode ℝ) (List.range 2) symBodies) q
      = (symBodies : Heap ℝ) q := by
    intro q hq
    rw [update_loop_apply 1 _ _ (List.nodup_range 2) q, if_pos (List.mem_range.mpr hq)]
    rw [update_body_congr _ symBodies q 1 (hforce q)]
    simp only [update_body, not_le.mpr (zero_lt_one' ℝ), if_false, Function.update_same]
    simp [symBodies, add, scale]
  refine ⟨_, hstep, hupd 0 (by norm_num), hupd 1 (by norm_num), ?_⟩
  simp only [hupd 0 (by norm_num), hupd 1 (by norm_num)]
  exact lt_irrefl _

/-! ## Coincident bodies -/

theorem heldInLeafAt_setChild (b k : Nat) (c : Vec2 K) (s : K) (c0 c1 c2 c3 : QuadtreeNode K)
    (tm : K) (com : Vec2 K) (q : Quadrant) (ch : QuadtreeNode K)
    (h : HeldInLeafAt b k ch) :
    HeldInLeafAt b (k + 1)
      ((QuadtreeNode.node c s none c0 c1 c2 c3 tm com).setChild q ch) := by
  cases q <;> simp only [QuadtreeNode.setChild, HeldInLeafAt]
  · exact Or.inl h
  · exact Or.inr (Or.inl h)
  · exact Or.inr (Or.inr (Or.inl h))
  · exact Or.inr (Or.inr (Or.inr h))

/-- Two bodies that fall into the same quadrant at every level down to
`MAX_DEPTH` are fused in a leaf exactly at depth `MAX_DEPTH`. -/
theorem same_cell_fuses_at (mem : Heap K) (e b : Nat) (I : Nat → Vec2 K → K → Prop)
    (hI : ∀ d c s, I d c s → d < MAX_DEPTH →
      get_quadrant c (mem b).position = get_quadrant c (mem e).position ∧
      I (d + 1) (child_center c s (get_quadrant c (mem e).position)) (s / 2)) :
    ∀ (k d : Nat) (c : Vec2 K) (s tm : K) (com : Vec2 K) (fuel : Nat),
      d + k = MAX_DEPTH → k + 1 ≤ fuel → I d c s →
      ∃ t1, quadtree_insert_recursive fuel mem
          (.node c s (some e) .null .null .null .null tm com) b d
        = some (Function.update mem e
            { mem e with mass := (mem e).mass + (mem b).mass }, t1, 1) ∧
        HeldInLeafAt e k t1 := by
  intro k
  induction k with
  | zero =>
    intro d c s tm com fuel hd hfuel _
    obtain ⟨f, rfl⟩ : ∃ f, fuel = f + 1 := ⟨fuel - 1, by omega⟩
    have hle : MAX_DEPTH ≤ d := by omega
    simp only [quadtree_insert_recursive, ge_iff_le, hle, if_true]
    exact ⟨_, rfl, by simp [HeldInLeafAt]⟩
  | succ k ih =>
    intro d c s tm com fuel hd hfuel hinv
    obtain ⟨f, rfl⟩ : ∃ f, fuel = f + 2 := ⟨fuel - 2, by omega⟩
    have hlt : d < MAX_DEPTH := by omega
    obtain ⟨hq, hnext⟩ := hI d c s hinv hlt
    rw [insert_recursive_split_eq f mem c s e _ _ _ _ tm com b d (by omega), hq]
    have hchild : (QuadtreeNode.node c s none
        (split_child c s e (get_quadrant c (mem e).position) .NORTHWEST)
        (split_child c s e (get_quadrant c (mem e).position) .NORTHEAST)
        (split_child c s e (get_quadrant c (mem e).position) .SOUTHWEST)
        (split_child c s e (get_quadrant c (mem e).position) .SOUTHEAST) tm com).child
        (get_quadrant c (mem e).position)
        = .node (child_center c s (get_quadrant c (mem e).position)) (s / 2) (some e)
            .null .null .null .null 0 ⟨0, 0⟩ := by
      cases (get_quadrant c (mem e).position) <;>
        simp [QuadtreeNode.child, split_child, quadtree_create, QuadtreeNode.setBody]
    rw [hchild]
    obtain ⟨t1, ht1, hheld⟩ := ih (d + 1) (child_center c s (get_quadrant c (mem e).position))
      (s / 2) 0 ⟨0, 0⟩ (f + 1) (by omega) (by omega) hnext
    rw [ht1]
    exact ⟨_, rfl, heldInLeafAt_setChild e k c s _ _ _ _ tm com _ t1 hheld⟩

/-- C18: for two distinct bodies `A` and `B` at exactly equal positions,
inserting `A` and then `B` into an empty tree reaches the mass-fusion branch
(once): afterwards `A` is the only body held, in a leaf without children exactly
`MAX_DEPTH = 100` levels below the root; `A` has mass `A.mass + B.mass` and its
other fields as before; `B` is held by no node and is unchanged, as is every
other body. -/
theorem coincident_bodies_fuse (fuel : Nat) (hf : MAX_DEPTH + 1 ≤ fuel) (mem : Heap K)
    (A B : Nat) (hAB : A ≠ B) (hpos : (mem A).position = (mem B).position)
    (center : Vec2 K) (size : K) :
    ∃ mem1 t,
      quadtree_insert_all fuel mem (quadtree_create center size) [A, B] = some (mem1, t, 1) ∧
      t.bodies = {A} ∧ B ∉ t.bodies ∧ HeldInLeafAt A MAX_DEPTH t ∧ MAX_DEPTH = 100 ∧
      mem1 A = { mem A with mass := (mem A).mass + (mem B).mass } ∧
      mem1 B = mem B ∧ ∀ q, q ≠ A → mem1 q = mem q := by
  obtain ⟨f, rfl⟩ : ∃ f, fuel = f + 1 := ⟨fuel - 1, by omega⟩
  obtain ⟨t1, ht1, hheld⟩ := same_cell_fuses_at mem A B (fun _ _ _ => True)
    (fun d c s _ _ => ⟨by rw [hpos], trivial⟩)
    MAX_DEPTH 0 center size 0 ⟨0, 0⟩ (f + 1) (by omega) (by omega) trivial
  have hstep := insertStep_of_eq _ _ _ _ _ _ _ _ ht1
  have hout := hstep.outcome (by simp [WellFormed])
  have hb : t1.bodies = {A} := by
    rcases hout with ⟨h0, -⟩ | ⟨-, hb, -⟩
    · cases h0
    · simpa [QuadtreeNode.bodies] using hb
  refine ⟨Function.update mem A { mem A with mass := (mem A).mass + (mem B).mass },
    t1, ?_, hb, ?_, hheld, rfl, ?_, ?_, ?_⟩
  · simp only [quadtree_insert_all, quadtree_insert]
    rw [quadtree_create, insert_recursive_empty]
    simp only [ht1]
  · rw [hb, Multiset.mem_singleton]
    exact fun h => hAB h.symm
  · simp
  · exact Function.update_noteq (fun h => hAB h.symm) _ _
  · intro q hq
    exact Function.update_noteq hq _ _

/-- Witness for `coincident_bodies_fuse`: bodies 0 and 1 of a heap whose bodies
all rest at `(1, 1)`, body `i` with mass `1 + i`. -/
theorem coincident_bodies_fuse_witness :
    ∃ mem1 t,
      quadtree_insert_all 101 (fun i => (⟨⟨1, 1⟩, ⟨0, 0⟩, ⟨0, 0⟩, 1 + i⟩ : Body ℚ))
        (quadtree_create ⟨4, 4⟩ 8) [0, 1] = some (mem1, t, 1) ∧
      t.bodies = {0} ∧ 1 ∉ t.bodies ∧ HeldInLeafAt 0 MAX_DEPTH t ∧ MAX_DEPTH = 100 ∧
      mem1 0 = { (⟨⟨1, 1⟩, ⟨0, 0⟩, ⟨0, 0⟩, 1 + (0 : ℕ)⟩ : Body ℚ) with
        mass := (1 + (0 : ℕ) : ℚ) + (1 + (1 : ℕ) : ℚ) } ∧
      mem1 1 = (⟨⟨1, 1⟩, ⟨0, 0⟩, ⟨0, 0⟩, 1 + (1 : ℕ)⟩ : Body ℚ) ∧
      ∀ q, q ≠ 0 → mem1 q = (⟨⟨1, 1⟩, ⟨0, 0⟩, ⟨0, 0⟩, 1 + q⟩ : Body ℚ) :=
  coincident_bodies_fuse 101 (by decide)
    (fun i => (⟨⟨1, 1⟩, ⟨0, 0⟩, ⟨0, 0⟩, 1 + i⟩ : Body ℚ)) 0 1 (by decide) rfl ⟨4, 4⟩ 8

/-! ## Mass kept by the tree under fusion -/

theorem mass_sum_congr (m1 m2 : Heap K) (bs : Multiset Nat)
    (h : ∀ p ∈ bs, (m1 p).mass = (m2 p).mass) : mass_sum m1 bs = mass_sum m2 bs := by
  unfold mass_sum
  rw [Multiset.map_congr rfl h]

theorem mass_sum_cons (mem : Heap K) (b : Nat) (bs : Multiset Nat) :
    mass_sum mem (b ::ₘ bs) = (mem b).mass + mass_sum mem bs := by
  simp [mass_sum]

/-- Adding `x` to the mass of one body of a duplicate-free collection adds `x`
to the sum of its masses. -/
theorem mass_sum_update (mem : Heap K) (bs : Multiset Nat) (e : Nat) (x : K)
    (hnd : bs.Nodup) (he : e ∈ bs) :
    mass_sum (Function.update mem e { mem e with mass := (mem e).mass + x }) bs
      = mass_sum mem bs + x := by
  obtain ⟨rest, rfl⟩ := Multiset.exists_cons_of_mem he
  have hnot : e ∉ rest := (Multiset.nodup_cons.mp hnd).1
  rw [mass_sum_cons, mass_sum_cons, Function.update_same]
  rw [mass_sum_congr _ mem rest (fun p hp => by
    rw [Function.update_noteq (fun h => hnot (by rw [← h]; exact hp))])]
  simp only
  ring

/-- The insertion loop over distinct bodies not yet held, fusion or not: the
masses held by the tree grow by the masses the inserted bodies had before, the
tree holds distinct bodies among the old and the inserted ones, and bodies not
held at the end are unchanged. -/
theorem insert_all_mass (fuel : Nat) (hf : MAX_DEPTH + 1 ≤ fuel) :
    ∀ (ps : List Nat) (mem : Heap K) (t : QuadtreeNode K),
    t ≠ .null → WellFormed t → t.height ≤ MAX_DEPTH + 1 → t.bodies.Nodup →
    ps.Nodup → (∀ p ∈ ps, p ∉ t.bodies) →
    ∃ mem1 t1 n, quadtree_insert_all fuel mem t ps = some (mem1, t1, n) ∧
      t1 ≠ .null ∧ t1.bodies.Nodup ∧
      (∀ p ∈ t.bodies, p ∈ t1.bodies) ∧
      (∀ p ∈ t1.bodies, p ∈ t.bodies ∨ p ∈ ps) ∧
      (∀ p, p ∉ t1.bodies → mem1 p = mem p) ∧
      mass_sum mem1 t1.bodies
        = mass_sum mem t.bodies + (ps.map fun p => (mem p).mass).sum := by
  intro ps
  induction ps with
  | nil =>
    intro mem t h1 _ _ hnd _ _
    exact ⟨mem, t, 0, rfl, h1, hnd, fun _ hp => hp, fun _ hp => Or.inl hp, fun _ _ => rfl,
      by simp⟩
  | cons b rest ih =>
    intro mem t h1 h2 h3 hnd hps hfresh
    obtain ⟨hb_rest, hrest⟩ := List.nodup_cons.mp hps
    have hb_t : b ∉ t.bodies := hfresh b (List.mem_cons_self b rest)
    obtain ⟨r, hr⟩ := insert_recursive_terminates fuel mem t b 0 h1 h2 (by omega) (by omega)
    obtain ⟨m, u, k⟩ := r
    have hstep := insertStep_of_eq fuel mem t b 0 m u k hr
    obtain ⟨hu1, hu2, hu3⟩ := hstep.preserves h2 (by omega)
    have hout := hstep.outcome h2
    -- facts about the state after the first insertion
    have hfacts : u.bodies.Nodup ∧ (∀ p ∈ t.bodies, p ∈ u.bodies) ∧
        (∀ p ∈ u.bodies, p ∈ t.bodies ∨ p = b) ∧
        (∀ p, p ∉ t.bodies → p ≠ b → m p = mem p) ∧
        (∀ p, p ∉ u.bodies → m p = mem p) ∧
        mass_sum m u.bodies = mass_sum mem t.bodies + (mem b).mass := by
      rcases hout with ⟨-, hm, hb⟩ | ⟨-, hb, e, he, hm⟩
      · subst hm
        rw [hb]
        refine ⟨Multiset.nodup_cons.mpr ⟨hb_t, hnd⟩, fun p hp => Multiset.mem_cons_of_mem hp,
          fun p hp => ?_, fun _ _ _ => rfl, fun _ _ => rfl, ?_⟩
        · rcases Multiset.mem_cons.mp hp with h | h
          · exact Or.inr h
          · exact Or.inl h
        · rw [mass_sum_cons, add_comm]
      · subst hm
        rw [hb]
        refine ⟨hnd, fun p hp => hp, fun p hp => Or.inl hp, fun p hp _ => ?_, fun p hp => ?_,
          mass_sum_update mem t.bodies e (mem b).mass hnd he⟩
        · exact Function.update_noteq (fun h => hp (by rw [h]; exact he)) _ _
        · exact Function.update_noteq (fun h => hp (by rw [h]; exact he)) _ _
    obtain ⟨fa, fb, fc, fd, fe, fm⟩ := hfacts
    have hfresh2 : ∀ p ∈ rest, p ∉ u.bodies := by
      intro p hp hpu
      rcases fc p hpu with h | h
      · exact hfresh p (List.mem_cons_of_mem b hp) h
      · exact hb_rest (h ▸ hp)
    obtain ⟨m2, u2, k2, hr2, hv1, ga, gb, gc, gd, gm⟩ :=
      ih m u hu2 hu1 (by omega) fa hrest hfresh2
    refine ⟨m2, u2, k + k2, ?_, hv1, ga, fun p hp => gb p (fb p hp), ?_, ?_, ?_⟩
    · simp only [quadtree_insert_all, quadtree_insert, hr, hr2]
    · intro p hp
      rcases gc p hp with h | h
      · rcases fc p h with h' | h'
        · exact Or.inl h'
        · exact Or.inr (h' ▸ List.mem_cons_self b rest)
      · exact Or.inr (List.mem_cons_of_mem b h)
    · intro p hp
      rw [gd p hp]
      exact fe p (fun h => hp (gb p h))
    · rw [gm, fm, List.map_cons, List.sum_cons]
      have hsame : (rest.map fun p => (m p).mass) = (rest.map fun p => (mem p).mass) := by
        apply List.map_congr_left
        intro p hp
        rw [fd p (hfresh p (List.mem_cons_of_mem b hp)) (fun h => hb_rest (h ▸ hp))]
      rw [hsame]
      ring

theorem sum_map_filter_split (s : Multiset Nat) (P : Nat → Prop) [DecidablePred P]
    (g : Nat → K) :
    (s.map g).sum
      = ((s.filter P).map g).sum + ((s.filter fun a => ¬ P a).map g).sum := by
  conv_lhs => rw [← Multiset.filter_add_not P s]
  rw [Multiset.map_add, Multiset.sum_add]

/-- C20: for every list of distinct bodies inserted into an empty tree, however
often the `MAX_DEPTH` mass-fusion branch is taken, the insertions return and
the root `total_mass` computed by `quadtree_compute_mass_distribution` is the
sum of the masses the bodies had before the insertions; and the sum of the mass
fields of the bodies afterwards is that sum plus the (former) masses of the
bodies that were fused, which are the bodies not held by the tree. -/
theorem fused_tree_keeps_mass (fuel : Nat) (hf : MAX_DEPTH + 1 ≤ fuel) (mem : Heap K)
    (center : Vec2 K) (size : K) (ps : List Nat) (hnd : ps.Nodup) :
    ∃ mem1 t n,
      quadtree_insert_all fuel mem (quadtree_create center size) ps = some (mem1, t, n) ∧
      (quadtree_compute_mass_distribution mem1 t).totalMass
        = some ((ps.map fun p => (mem p).mass).sum) ∧
      (ps.map fun p => (mem1 p).mass).sum
        = (ps.map fun p => (mem p).mass).sum
          + ((ps.filter fun p => p ∉ t.bodies).map fun p => (mem p).mass).sum := by
  obtain ⟨h1, h2, h3, h4⟩ := create_invariant center size
  obtain ⟨mem1, t, n, hr, ht1, ga, -, gc, gd, gm⟩ :=
    insert_all_mass fuel hf ps mem (quadtree_create center size) h1 h2 h3
      (by rw [h4]; exact Multiset.nodup_zero) hnd (by rw [h4]; simp)
  rw [h4, mass_sum_zero, zero_add] at gm
  refine ⟨mem1, t, n, hr, ?_, ?_⟩
  · rw [compute_totalMass_some mem1 t ht1, gm]
  · have hheld : Multiset.filter (fun p => p ∈ t.bodies) (ps : Multiset Nat) = t.bodies := by
      rw [Multiset.Nodup.ext (Multiset.Nodup.filter _ (Multiset.coe_nodup.mpr hnd)) ga]
      intro a
      rw [Multiset.mem_filter, Multiset.mem_coe]
      constructor
      · exact fun h => h.2
      · intro h
        refine ⟨?_, h⟩
        rcases gc a h with h' | h'
        · rw [h4] at h'; simp at h'
        · exact h'
    have hsplit := sum_map_filter_split (ps : Multiset Nat) (fun p => p ∈ t.bodies)
      (fun p => (mem1 p).mass)
    rw [hheld] at hsplit
    have hmass : ((t.bodies).map fun p => (mem1 p).mass).sum
        = (ps.map fun p => (mem p).mass).sum := gm
    rw [hmass] at hsplit
    have hrest : (Multiset.map (fun p => (mem1 p).mass)
          (Multiset.filter (fun a => ¬ a ∈ t.bodies) (ps : Multiset Nat)))
        = (Multiset.map (fun p => (mem p).mass)
          (Multiset.filter (fun a => ¬ a ∈ t.bodies) (ps : Multiset Nat))) := by
      apply Multiset.map_congr rfl
      intro p hp
      rw [gd p (Multiset.mem_filter.mp hp).2]
    rw [hrest] at hsplit
    simpa using hsplit

/-- Witness for `fused_tree_keeps_mass`: two coincident bodies of masses 1 and 2,
which are fused. -/
theorem fused_tree_keeps_mass_witness :
    ∃ mem1 t n,
      quadtree_insert_all 101 (stackedBodies : Heap ℚ) (quadtree_create ⟨4, 4⟩ 8) [0, 1]
        = some (mem1, t, n) ∧
      (quadtree_compute_mass_distribution mem1 t).totalMass
        = some (([0, 1].map fun p => ((stackedBodies : Heap ℚ) p).mass).sum) ∧
      ([0, 1].map fun p => (mem1 p).mass).sum
        = ([0, 1].map fun p => ((stackedBodies : Heap ℚ) p).mass).sum
          + (([0, 1].filter fun p => p ∉ t.bodies).map
              fun p => ((stackedBodies : Heap ℚ) p).mass).sum :=
  fused_tree_keeps_mass 101 (by decide) (stackedBodies : Heap ℚ) ⟨4, 4⟩ 8 [0, 1] (by decide)

/-! ## Regions of the nodes -/

theorem geometry_setChild (c : Vec2 K) (s : K) (b : Option Nat) (c0 c1 c2 c3 : QuadtreeNode K)
    (tm : K) (com : Vec2 K) (q : Quadrant) (ch : QuadtreeNode K) :
    ((QuadtreeNode.node c s b c0 c1 c2 c3 tm com).setChild q ch).geometry = some (c, s) := by
  cases q <;> rfl

theorem gridded_setChild (c : Vec2 K) (s : K) (b : Option Nat) (c0 c1 c2 c3 : QuadtreeNode K)
    (tm : K) (com : Vec2 K) (q : Quadrant) (ch : QuadtreeNode K)
    (hX : Gridded (.node c s b c0 c1 c2 c3 tm com)) (hch : Gridded ch)
    (hg : ch.geometry = some (child_center c s q, s / 2)) :
    Gridded ((QuadtreeNode.node c s b c0 c1 c2 c3 tm com).setChild q ch) := by
  simp only [Gridded] at hX
  obtain ⟨g, g0, g1, g2, g3⟩ := hX
  have gNW := g .NORTHWEST
  have gNE := g .NORTHEAST
  have gSW := g .SOUTHWEST
  have gSE := g .SOUTHEAST
  simp only [QuadtreeNode.child] at gNW gNE gSW gSE
  cases q <;> simp only [QuadtreeNode.setChild, Gridded] <;>
    refine ⟨fun q1 => ?_, by assumption, by assumption, by assumption, by assumption⟩ <;>
    cases q1 <;> simp only [QuadtreeNode.child] <;>
    first
      | exact Or.inr hg
      | assumption

theorem allNodes_setChild (P : QuadtreeNode K → Prop) (c : Vec2 K) (s : K) (b : Option Nat)
    (c0 c1 c2 c3 : QuadtreeNode K) (tm : K) (com : Vec2 K) (q : Quadrant)
    (ch : QuadtreeNode K) (hX : AllNodes P (.node c s b c0 c1 c2 c3 tm com))
    (hch : AllNodes P ch)
    (hP : P ((QuadtreeNode.node c s b c0 c1 c2 c3 tm com).setChild q ch)) :
    AllNodes P ((QuadtreeNode.node c s b c0 c1 c2 c3 tm com).setChild q ch) := by
  simp only [AllNodes] at hX
  obtain ⟨-, a0, a1, a2, a3⟩ := hX
  cases q <;> simp only [QuadtreeNode.setChild] at hP ⊢ <;>
    exact ⟨hP, by assumption, by assumption, by assumption, by assumption⟩

theorem regionHolds_setChild (R : Vec2 K → K → Vec2 K → Prop) (mem : Heap K) (c : Vec2 K)
    (s : K) (c0 c1 c2 c3 : QuadtreeNode K) (tm : K) (com : Vec2 K) (q : Quadrant)
    (ch : QuadtreeNode K) (b : Nat)
    (hX : RegionHolds R mem (.node c s none c0 c1 c2 c3 tm com))
    (hb : R c s (mem b).position)
    (hbodies : ((QuadtreeNode.node c s none c0 c1 c2 c3 tm com).setChild q ch).bodies
      = b ::ₘ (QuadtreeNode.node c s none c0 c1 c2 c3 tm com).bodies) :
    RegionHolds R mem ((QuadtreeNode.node c s none c0 c1 c2 c3 tm com).setChild q ch) := by
  have key : ∀ p ∈ ((QuadtreeNode.node c s none c0 c1 c2 c3 tm com).setChild q ch).bodies,
      R c s (mem p).position := by
    intro p hp
    rw [hbodies, Multiset.mem_cons] at hp
    rcases hp with rfl | hp
    · exact hb
    · exact hX p hp
  cases q <;> simp only [QuadtreeNode.setChild] at key ⊢ <;> exact key

/-- The side-length region of a node passes to the child that `get_quadrant`
chooses. -/
theorem side_length_region_child (c : Vec2 K) (s : K) (pos : Vec2 K)
    (h : side_length_region c s pos) :
    side_length_region (child_center c s (get_quadrant c pos)) (s / 2) pos := by
  obtain ⟨hx, hy⟩ := h
  rw [abs_le] at hx hy
  obtain ⟨hx1, hx2⟩ := hx
  obtain ⟨hy1, hy2⟩ := hy
  unfold get_quadrant
  rcases lt_or_le pos.y c.y with h1 | h1 <;> rcases lt_or_le pos.x c.x with h2 | h2
  · simp only [h1, h2, if_true, child_center, side_length_region, abs_le]
    refine ⟨⟨?_, ?_⟩, ⟨?_, ?_⟩⟩ <;> linarith
  · simp only [h1, not_lt.mpr h2, if_true, if_false, child_center, side_length_region, abs_le]
    refine ⟨⟨?_, ?_⟩, ⟨?_, ?_⟩⟩ <;> linarith
  · simp only [not_lt.mpr h1, h2, if_true, if_false, child_center, side_length_region, abs_le]
    refine ⟨⟨?_, ?_⟩, ⟨?_, ?_⟩⟩ <;> linarith
  · simp only [not_lt.mpr h1, not_lt.mpr h2, if_false, child_center, side_length_region,
      abs_le]
    refine ⟨⟨?_, ?_⟩, ⟨?_, ?_⟩⟩ <;> linarith

theorem gridded_child (c : Vec2 K) (s : K) (b : Option Nat) (c0 c1 c2 c3 : QuadtreeNode K)
    (tm : K) (com : Vec2 K) (q : Quadrant)
    (hX : Gridded (.node c s b c0 c1 c2 c3 tm com)) :
    Gridded ((QuadtreeNode.node c s b c0 c1 c2 c3 tm com).child q) := by
  simp only [Gridded] at hX
  cases q <;> simp only [QuadtreeNode.child] <;> simp [hX]

theorem allNodes_child (P : QuadtreeNode K → Prop) (c : Vec2 K) (s : K) (b : Option Nat)
    (c0 c1 c2 c3 : QuadtreeNode K) (tm : K) (com : Vec2 K) (q : Quadrant)
    (hX : AllNodes P (.node c s b c0 c1 c2 c3 tm com)) :
    AllNodes P ((QuadtreeNode.node c s b c0 c1 c2 c3 tm com).child q) := by
  simp only [AllNodes] at hX
  cases q <;> simp only [QuadtreeNode.child] <;> simp [hX]

theorem split_child_geometry (c : Vec2 K) (s : K) (e : Nat) (qe q : Quadrant) :
    (split_child c s e qe q).geometry = some (child_center c s q, s / 2) := by
  unfold split_child
  split <;> rfl

theorem gridded_leaf (c : Vec2 K) (s : K) (b : Option Nat) (tm : K) (com : Vec2 K) :
    Gridded (.node c s b .null .null .null .null tm com) := by
  refine ⟨fun q => Or.inl ?_, trivial, trivial, trivial, trivial⟩
  cases q <;> rfl

theorem split_child_gridded (c : Vec2 K) (s : K) (e : Nat) (qe q : Quadrant) :
    Gridded (split_child c s e qe q) := by
  unfold split_child
  split <;> simp only [quadtree_create, QuadtreeNode.setBody] <;> exact gridded_leaf _ _ _ _ _

theorem split_child_region (R : Vec2 K → K → Vec2 K → Prop) (mem : Heap K) (c : Vec2 K)
    (s : K) (e : Nat) (qe q : Quadrant)
    (h : R (child_center c s qe) (s / 2) (mem e).position) :
    AllNodes (RegionHolds R mem) (split_child c s e qe q) := by
  unfold split_child
  split
  · next hq =>
    subst hq
    simp only [quadtree_create, QuadtreeNode.setBody, AllNodes, RegionHolds,
      QuadtreeNode.bodies, Multiset.mem_singleton, and_true]
    intro p hp
    rw [hp]
    exact h
  · simp [quadtree_create, AllNodes, RegionHolds, QuadtreeNode.bodies]

/-- A call that does not reach the fusion branch keeps the grid of centres and
sizes and keeps every held body inside the region of every node above it, for
any notion of region that passes to the child chosen by `get_quadrant`. -/
theorem InsertStep.region (R : Vec2 K → K → Vec2 K → Prop)
    (hR : ∀ c s pos, R c s pos → R (child_center c s (get_quadrant c pos)) (s / 2) pos)
    {mem : Heap K} {t : QuadtreeNode K} {b d : Nat} {mem1 : Heap K}
    {t1 : QuadtreeNode K} {n : Nat} (h : InsertStep mem t b d mem1 t1 n) :
    ∀ c s, t.geometry = some (c, s) → WellFormed t → Gridded t →
      AllNodes (RegionHolds R mem) t → R c s (mem b).position → n = 0 →
      t1.geometry = some (c, s) ∧ Gridded t1 ∧ AllNodes (RegionHolds R mem) t1 := by
  induction h with
  | store c s c1 c2 c3 tm com b d =>
    intro c' s' hgeo hw _ _ hb _
    simp only [QuadtreeNode.geometry, Option.some.injEq, Prod.mk.injEq] at hgeo
    obtain ⟨rfl, rfl⟩ := hgeo
    simp only [WellFormed] at hw
    rcases hw.1 with h0 | h1
    · obtain ⟨-, rfl, rfl, rfl⟩ := h0
      refine ⟨rfl, gridded_leaf _ _ _ _ _, ?_⟩
      simp only [AllNodes, RegionHolds, QuadtreeNode.bodies, Multiset.mem_singleton, and_true]
      intro p hp
      rw [hp]
      exact hb
    · exact absurd rfl h1.2.1
  | descend c s c0 c1 c2 c3 tm com b d mem1 ch n hc0 hstep ih =>
    intro c' s' hgeo hw hG hA hb hn
    simp only [QuadtreeNode.geometry, Option.some.injEq, Prod.mk.injEq] at hgeo
    obtain ⟨rfl, rfl⟩ := hgeo
    have hwc := child_wellFormed c s none c0 c1 c2 c3 tm com hw
      (get_quadrant c (mem b).position)
    have hgc : ((QuadtreeNode.node c s none c0 c1 c2 c3 tm com).child
        (get_quadrant c (mem b).position)).geometry
        = some (child_center c s (get_quadrant c (mem b).position), s / 2) := by
      have hG1 := hG
      simp only [Gridded] at hG1
      rcases hG1.1 (get_quadrant c (mem b).position) with h0 | h0
      · exact absurd h0 (child_ne_null c s none c0 c1 c2 c3 tm com hc0 hw _)
      · exact h0
    obtain ⟨i1, i2, i3⟩ := ih _ _ hgc hwc (gridded_child c s none c0 c1 c2 c3 tm com _ hG)
      (allNodes_child _ c s none c0 c1 c2 c3 tm com _ hA) (hR c s _ hb) hn
    have hout := outcome_setChild c s c0 c1 c2 c3 tm com _ ch mem mem1 b n (hstep.outcome hwc)
    have hbodies : ((QuadtreeNode.node c s none c0 c1 c2 c3 tm com).setChild
        (get_quadrant c (mem b).position) ch).bodies
        = b ::ₘ (QuadtreeNode.node c s none c0 c1 c2 c3 tm com).bodies := by
      rcases hout with ⟨-, -, hb1⟩ | ⟨h1, -⟩
      · exact hb1
      · omega
    have hA1 := hA
    simp only [AllNodes] at hA1
    exact ⟨geometry_setChild _ _ _ _ _ _ _ _ _ _ _,
      gridded_setChild c s none c0 c1 c2 c3 tm com _ ch hG i2 i1,
      allNodes_setChild _ c s none c0 c1 c2 c3 tm com _ ch hA i3
        (regionHolds_setChild R mem c s c0 c1 c2 c3 tm com _ ch b hA1.1 hb hbodies)⟩
  | fuse c s e c0 c1 c2 c3 tm com b d _ => intro _ _ _ _ _ _ _ hn; cases hn
  | split c s e c0 c1 c2 c3 tm com b d mem2 ch2 n _ hstep ih =>
    intro c' s' hgeo _ _ hA hb hn
    simp only [QuadtreeNode.geometry, Option.some.injEq, Prod.mk.injEq] at hgeo
    obtain ⟨rfl, rfl⟩ := hgeo
    rw [split_form] at ih hstep ⊢
    have he : R c s (mem e).position := by
      simp only [AllNodes, RegionHolds, QuadtreeNode.bodies, Multiset.mem_singleton] at hA
      exact hA.1 e rfl
    have he2 := hR c s _ he
    have hw2 : WellFormed (QuadtreeNode.node c s none
        (split_child c s e (get_quadrant c (mem e).position) .NORTHWEST)
        (split_child c s e (get_quadrant c (mem e).position) .NORTHEAST)
        (split_child c s e (get_quadrant c (mem e).position) .SOUTHWEST)
        (split_child c s e (get_quadrant c (mem e).position) .SOUTHEAST) tm com) := by
      simp [WellFormed, split_child_ne_null, split_child_wellFormed]
    have hG2 : Gridded (QuadtreeNode.node c s none
        (split_child c s e (get_quadrant c (mem e).position) .NORTHWEST)
        (split_child c s e (get_quadrant c (mem e).position) .NORTHEAST)
        (split_child c s e (get_quadrant c (mem e).position) .SOUTHWEST)
        (split_child c s e (get_quadrant c (mem e).position) .SOUTHEAST) tm com) := by
      simp only [Gridded, split_child_gridded, and_true]
      intro q
      right
      cases q <;> simp only [QuadtreeNode.child, split_child_geometry]
    have hA2 : AllNodes (RegionHolds R mem) (QuadtreeNode.node c s none
        (split_child c s e (get_quadrant c (mem e).position) .NORTHWEST)
        (split_child c s e (get_quadrant c (mem e).position) .NORTHEAST)
        (split_child c s e (get_quadrant c (mem e).position) .SOUTHWEST)
        (split_child c s e (get_quadrant c (mem e).position) .SOUTHEAST) tm com) := by
      refine ⟨?_, split_child_region R mem c s e _ _ he2, split_child_region R mem c s e _ _ he2,
        split_child_region R mem c s e _ _ he2, split_child_region R mem c s e _ _ he2⟩
      intro p hp
      simp only [QuadtreeNode.bodies, split_child_bodies] at hp
      have hpe : p = e := by
        cases hq : get_quadrant c (mem e).position <;> rw [hq] at hp <;> simpa using hp
      rw [hpe]
      exact he
    have hwc := child_wellFormed _ _ _ _ _ _ _ _ _ hw2 (get_quadrant c (mem b).position)
    have hgc : ((QuadtreeNode.node c s none
        (split_child c s e (get_quadrant c (mem e).position) .NORTHWEST)
        (split_child c s e (get_quadrant c (mem e).position) .NORTHEAST)
        (split_child c s e (get_quadrant c (mem e).position) .SOUTHWEST)
        (split_child c s e (get_quadrant c (mem e).position) .SOUTHEAST) tm com).child
        (get_quadrant c (mem b).position)).geometry
        = some (child_center c s (get_quadrant c (mem b).position), s / 2) := by
      cases (get_quadrant c (mem b).position) <;>
        simp only [QuadtreeNode.child, split_child_geometry]
    obtain ⟨i1, i2, i3⟩ := ih _ _ hgc hwc (gridded_child _ _ _ _ _ _ _ _ _ _ hG2)
      (allNodes_child _ _ _ _ _ _ _ _ _ _ _ hA2) (hR c s _ hb) hn
    have hout := outcome_setChild c s _ _ _ _ tm com _ ch2 mem mem2 b n (hstep.outcome hwc)
    have hbodies : ((QuadtreeNode.node c s none
        (split_child c s e (get_quadrant c (mem e).position) .NORTHWEST)
        (split_child c s e (get_quadrant c (mem e).position) .NORTHEAST)
        (split_child c s e (get_quadrant c (mem e).position) .SOUTHWEST)
        (split_child c s e (get_quadrant c (mem e).position) .SOUTHEAST) tm com).setChild
        (get_quadrant c (mem b).position) ch2).bodies
        = b ::ₘ (QuadtreeNode.node c s none
        (split_child c s e (get_quadrant c (mem e).position) .NORTHWEST)
        (split_child c s e (get_quadrant c (mem e).position) .NORTHEAST)
        (split_child c s e (get_quadrant c (mem e).position) .SOUTHWEST)
        (split_child c s e (get_quadrant c (mem e).position) .SOUTHEAST) tm com).bodies := by
      rcases hout with ⟨-, -, hb1⟩ | ⟨h1, -⟩
      · exact hb1
      · omega
    exact ⟨geometry_setChild _ _ _ _ _ _ _ _ _ _ _,
      gridded_setChild c s none _ _ _ _ tm com _ ch2 hG2 i2 i1,
      allNodes_setChild _ c s none _ _ _ _ tm com _ ch2 hA2 i3
        (regionHolds_setChild R mem c s _ _ _ _ tm com _ ch2 b hA2.1 hb hbodies)⟩

theorem insert_all_region (R : Vec2 K → K → Vec2 K → Prop)
    (hR : ∀ c s pos, R c s pos → R (child_center c s (get_quadrant c pos)) (s / 2) pos)
    (fuel : Nat) :
    ∀ (ps : List Nat) (mem : Heap K) (t : QuadtreeNode K) (mem1 : Heap K)
      (t1 : QuadtreeNode K) (n : Nat) (c : Vec2 K) (s : K),
    t.geometry = some (c, s) → WellFormed t → t.height ≤ MAX_DEPTH + 1 → Gridded t →
    AllNodes (RegionHolds R mem) t → (∀ p ∈ ps, R c s (mem p).position) →
    quadtree_insert_all fuel mem t ps = some (mem1, t1, n) → n = 0 →
    t1.geometry = some (c, s) ∧ Gridded t1 ∧ AllNodes (RegionHolds R mem) t1 := by
  intro ps
  induction ps with
  | nil =>
    intro mem t mem1 t1 n c s hg _ _ hG hA _ hins _
    simp only [quadtree_insert_all, Option.some.injEq, Prod.mk.injEq] at hins
    rw [← hins.2.1]
    exact ⟨hg, hG, hA⟩
  | cons b rest ih =>
    intro mem t mem1 t1 n c s hg hw hh hG hA hin hins hn
    simp only [quadtree_insert_all] at hins
    cases h1 : quadtree_insert fuel mem t b with
    | none => rw [h1] at hins; cases hins
    | some r =>
      obtain ⟨m, u, k⟩ := r
      rw [h1] at hins
      simp only at hins
      cases h2 : quadtree_insert_all fuel m u rest with
      | none => rw [h2] at hins; cases hins
      | some r2 =>
        obtain ⟨m2, u2, k2⟩ := r2
        rw [h2] at hins
        simp only [Option.some.injEq, Prod.mk.injEq] at hins
        obtain ⟨-, rfl, rfl⟩ := hins
        have hstep := insertStep_of_eq fuel mem t b 0 m u k h1
        obtain ⟨hu1, -, hu3⟩ := hstep.preserves hw (by omega)
        obtain ⟨r1, r2, r3⟩ := hstep.region R hR c s hg hw hG hA
          (hin b (List.mem_cons_self b rest)) (by omega)
        rcases hstep.outcome hw with ⟨-, hm, -⟩ | ⟨hk, -⟩
        · subst hm
          exact ih m u m2 u2 k2 c s r1 hu1 (by omega) r2 r3
            (fun p hp => hin p (List.mem_cons_of_mem b hp)) h2 (by omega)
        · omega

/-- In exact arithmetic (no operation of `quadtree_subdivide` rounds), taking a
node's region to be the square of side length `size` centred at its
`center_region` (`|x - cx| <= size / 2` and `|y - cy| <= size / 2`): for every
tree built by `quadtree_create(center, size)` and insertions, without the
mass-fusion branch, of bodies whose positions lie in the root's region, every
node's region contains the positions of all bodies held in its subtree. In the
arithmetic of `double` this needs that no child centre was rounded: see
`far_body_outside_closed_region`. -/
theorem bodies_inside_node_regions (fuel : Nat) (hf : MAX_DEPTH + 1 ≤ fuel) (mem : Heap K)
    (center : Vec2 K) (size : K) (ps : List Nat)
    (hin : ∀ p ∈ ps, side_length_region center size (mem p).position) :
    ∃ mem1 t n,
      quadtree_insert_all fuel mem (quadtree_create center size) ps = some (mem1, t, n) ∧
      (n = 0 → AllNodes (RegionHolds side_length_region mem1) t) := by
  obtain ⟨h1, h2, h3, h4⟩ := create_invariant center size
  obtain ⟨mem1, t, n, hr, -, -, -, hn⟩ :=
    insert_all_outcome fuel hf ps mem (quadtree_create center size) h1 h2 h3
  refine ⟨mem1, t, n, hr, fun h0 => ?_⟩
  obtain ⟨hm, -⟩ := hn h0
  subst hm
  exact (insert_all_region side_length_region side_length_region_child fuel ps mem1
    (quadtree_create center size) mem1 t n center size rfl h2 h3
    (gridded_leaf _ _ _ _ _)
    (by simp [quadtree_create, AllNodes, RegionHolds, QuadtreeNode.bodies])
    hin hr h0).2.2

/-- Witness for `bodies_inside_node_regions`: the two-body tree, root square of
side 8 centred at `(4, 4)`, bodies at `(0, 0)` and `(6, 8)`. -/
theorem bodies_inside_node_regions_witness :
    AllNodes (RegionHolds side_length_region (twoBodies : Heap ℚ))
      (twoBodyTree : QuadtreeNode ℚ) := by
  obtain ⟨mem1, t, n, h, hn⟩ :=
    bodies_inside_node_regions 101 (by decide) (twoBodies : Heap ℚ) ⟨4, 4⟩ 8 [0, 1]
      (by
        intro p hp
        simp only [List.mem_cons, List.mem_singleton, List.not_mem_nil, or_false] at hp
        rcases hp with rfl | rfl <;>
          simp only [side_length_region, twoBodies, Nat.cast_zero, Nat.cast_one, mul_zero,
            mul_one, abs_le] <;> norm_num)
  rw [twoBodyTree_built 99] at h
  cases h
  exact hn rfl

/-! ## The root after two insertions -/

theorem InsertStep.ne_null {mem : Heap K} {t : QuadtreeNode K} {b d : Nat} {mem1 : Heap K}
    {t1 : QuadtreeNode K} {n : Nat} (h : InsertStep mem t b d mem1 t1 n) : t1 ≠ .null := by
  cases h with
  | store => simp
  | descend => exact setChild_ne_null _ _ _ _ _ _ _ _ _ _ _
  | fuse => simp
  | split =>
    rw [split_form]
    exact setChild_ne_null _ _ _ _ _ _ _ _ _ _ _

theorem InsertStep.geometry {mem : Heap K} {t : QuadtreeNode K} {b d : Nat} {mem1 : Heap K}
    {t1 : QuadtreeNode K} {n : Nat} (h : InsertStep mem t b d mem1 t1 n) :
    t1.geometry = t.geometry := by
  cases h with
  | store => rfl
  | descend => exact geometry_setChild _ _ _ _ _ _ _ _ _ _ _
  | fuse => rfl
  | split =>
    rw [split_form]
    exact geometry_setChild _ _ _ _ _ _ _ _ _ _ _

theorem setChild_subdivided (c : Vec2 K) (s : K) (c0 c1 c2 c3 : QuadtreeNode K)
    (tm : K) (com : Vec2 K) (q : Quadrant) (ch : QuadtreeNode K)
    (h0 : c0 ≠ .null) (hch : ch ≠ .null) :
    ((QuadtreeNode.node c s none c0 c1 c2 c3 tm com).setChild q ch).body = none ∧
    ((QuadtreeNode.node c s none c0 c1 c2 c3 tm com).setChild q ch).child .NORTHWEST
      ≠ .null := by
  cases q <;> simp only [QuadtreeNode.setChild, QuadtreeNode.body, QuadtreeNode.child] <;>
    exact ⟨trivial, by assumption⟩

/-- A call above `MAX_DEPTH` on a node that is not an empty one leaves a node
without a body and with children. -/
theorem InsertStep.subdivided {mem : Heap K} {t : QuadtreeNode K} {b d : Nat} {mem1 : Heap K}
    {t1 : QuadtreeNode K} {n : Nat} (h : InsertStep mem t b d mem1 t1 n) :
    d < MAX_DEPTH → NotEmptySlot t →
    t1.body = none ∧ t1.child .NORTHWEST ≠ .null := by
  induction h with
  | store c s c1 c2 c3 tm com b d =>
    intro _ hne
    rcases hne with h1 | h1
    · exact absurd rfl h1
    · exact absurd rfl h1
  | descend c s c0 c1 c2 c3 tm com b d mem1 ch n hc0 hstep _ =>
    intro _ _
    exact setChild_subdivided c s c0 c1 c2 c3 tm com _ _ hc0 hstep.ne_null
  | fuse c s e c0 c1 c2 c3 tm com b d hmax => intro hd _; omega
  | split c s e c0 c1 c2 c3 tm com b d mem2 ch2 n hlt hstep _ =>
    intro _ _
    rw [split_form] at hstep ⊢
    exact setChild_subdivided c s _ _ _ _ tm com _ _ (split_child_ne_null _ _ _ _ _)
      hstep.ne_null

theorem update_mass_fields (mem : Heap K) (e q : Nat) (x : K) :
    (Function.update mem e { mem e with mass := x } q).position = (mem q).position ∧
    (Function.update mem e { mem e with mass := x } q).velocity = (mem q).velocity ∧
    (Function.update mem e { mem e with mass := x } q).acceleration
      = (mem q).acceleration := by
  by_cases h : q = e
  · subst h; simp
  · rw [Function.update_noteq h]
    exact ⟨rfl, rfl, rfl⟩

/-- The insertion loop on a root that is not an empty node, fusion or not: it
returns; the root keeps its centre and size and has no body once a body was
inserted; the bodies held are among those given; masses stay non-negative; and
positions, velocities and accelerations are untouched. -/
theorem insert_all_domain (fuel : Nat) (hf : MAX_DEPTH + 1 ≤ fuel) (S : Nat → Prop) :
    ∀ (ps : List Nat) (mem : Heap K) (t : QuadtreeNode K),
    t ≠ .null → WellFormed t → t.height ≤ MAX_DEPTH + 1 → NotEmptySlot t →
    (∀ p ∈ ps, S p) → (∀ p ∈ t.bodies, S p) → (∀ q, S q → 0 ≤ (mem q).mass) →
    ∃ mem1 t1 n, quadtree_insert_all fuel mem t ps = some (mem1, t1, n) ∧
      WellFormed t1 ∧ t1.geometry = t.geometry ∧
      (t.body = none → t1.body = none) ∧ (ps ≠ [] → t1.body = none) ∧
      (∀ p ∈ t1.bodies, S p) ∧ (∀ q, S q → 0 ≤ (mem1 q).mass) ∧
      (∀ q, (mem1 q).position = (mem q).position ∧ (mem1 q).velocity = (mem q).velocity ∧
        (mem1 q).acceleration = (mem q).acceleration) := by
  intro ps
  induction ps with
  | nil =>
    intro mem t _ h2 _ _ _ hb hm
    exact ⟨mem, t, 0, rfl, h2, rfl, fun h => h, fun h => absurd rfl h, hb, hm,
      fun _ => ⟨rfl, rfl, rfl⟩⟩
  | cons b rest ih =>
    intro mem t h1 h2 h3 hslot hps hb hm
    obtain ⟨r, hr⟩ := insert_recursive_terminates fuel mem t b 0 h1 h2 (by omega) (by omega)
    obtain ⟨m, u, k⟩ := r
    have hstep := insertStep_of_eq fuel mem t b 0 m u k hr
    obtain ⟨hu1, hu2, hu3⟩ := hstep.preserves h2 (by omega)
    have hgeo := hstep.geometry
    obtain ⟨hsub1, hsub2⟩ := hstep.subdivided (by simp [MAX_DEPTH]) hslot
    have hSb : S b := hps b (List.mem_cons_self b rest)
    have hfacts : (∀ p ∈ u.bodies, S p) ∧ (∀ q, S q → 0 ≤ (m q).mass) ∧
        (∀ q, (m q).position = (mem q).position ∧ (m q).velocity = (mem q).velocity ∧
          (m q).acceleration = (mem q).acceleration) := by
      rcases hstep.outcome h2 with ⟨-, hm1, hb1⟩ | ⟨-, hb1, e, he, hm1⟩
      · subst hm1
        refine ⟨fun p hp => ?_, hm, fun _ => ⟨rfl, rfl, rfl⟩⟩
        rw [hb1, Multiset.mem_cons] at hp
        rcases hp with rfl | hp
        · exact hSb
        · exact hb p hp
      · subst hm1
        refine ⟨fun p hp => hb p (by rw [← hb1]; exact hp), fun q hq => ?_,
          fun q => update_mass_fields mem e q _⟩
        by_cases hqe : q = e
        · subst hqe
          rw [Function.update_same]
          exact add_nonneg (hm q hq) (hm b hSb)
        · rw [Function.update_noteq hqe]
          exact hm q hq
    obtain ⟨fb, fm, ff⟩ := hfacts
    obtain ⟨m2, u2, k2, hr2, gw, gg, gb1, -, gb, gm, gf⟩ :=
      ih m u hu2 hu1 (by omega) (Or.inr hsub2)
        (fun p hp => hps p (List.mem_cons_of_mem b hp)) fb fm
    refine ⟨m2, u2, k + k2, ?_, gw, gg.trans hgeo, fun _ => gb1 hsub1, fun _ => gb1 hsub1,
      gb, gm, fun q => ?_⟩
    · simp only [quadtree_insert_all, quadtree_insert, hr, hr2]
    · obtain ⟨a1, a2, a3⟩ := gf q
      obtain ⟨b1, b2, b3⟩ := ff q
      exact ⟨a1.trans b1, a2.trans b2, a3.trans b3⟩

/-! ## The centre of mass stays in the domain -/

theorem moment_bounds (mem : Heap K) (s : K) (bs : Multiset Nat) :
    (∀ p ∈ bs, 0 ≤ (mem p).mass ∧ in_domain s (mem p).position) →
    (0 ≤ (moment mem bs).x ∧ (moment mem bs).x ≤ s * mass_sum mem bs) ∧
    (0 ≤ (moment mem bs).y ∧ (moment mem bs).y ≤ s * mass_sum mem bs) := by
  induction bs using Multiset.induction_on with
  | empty => intro _; simp [moment, mass_sum]
  | cons a bs ih =>
    intro h
    obtain ⟨hma, hxa1, hxa2, hya1, hya2⟩ := h a (Multiset.mem_cons_self a bs)
    obtain ⟨⟨i1, i2⟩, ⟨i3, i4⟩⟩ := ih (fun p hp => h p (Multiset.mem_cons_of_mem hp))
    simp only [moment] at i1 i2 i3 i4
    simp only [moment, mass_sum_cons, Multiset.map_cons, Multiset.sum_cons]
    have e1 := mul_nonneg hxa1 hma
    have e2 := mul_nonneg hya1 hma
    have e3 := mul_le_mul_of_nonneg_right hxa2 hma
    have e4 := mul_le_mul_of_nonneg_right hya2 hma
    refine ⟨⟨?_, ?_⟩, ⟨?_, ?_⟩⟩ <;> linarith

theorem weighted_average_in_domain (mem : Heap K) (s : K) (bs : Multiset Nat)
    (h : ∀ p ∈ bs, 0 ≤ (mem p).mass ∧ in_domain s (mem p).position)
    (hpos : 0 < mass_sum mem bs) :
    in_domain s (weighted_average mem bs) := by
  obtain ⟨⟨i1, i2⟩, ⟨i3, i4⟩⟩ := moment_bounds mem s bs h
  simp only [in_domain, weighted_average]
  exact ⟨div_nonneg i1 (le_of_lt hpos), (div_le_iff₀ hpos).mpr i2,
    div_nonneg i3 (le_of_lt hpos), (div_le_iff₀ hpos).mpr i4⟩

/-- A node without a body whose size is the side `s > 0` of the domain and whose
centre of mass lies in the domain gives no force to a target in the domain when
`theta <= 0.7`: either `d = 0`, or `d <= s * sqrt 2` and `s / d >= theta`. -/
theorem domain_root_no_force (sqrt : K → K) (hs : IsSqrt sqrt) (theta s : K)
    (hth : theta ≤ 7 / 10) (hs0 : 0 < s) (c : Vec2 K) (c0 c1 c2 c3 : QuadtreeNode K)
    (tm : K) (com : Vec2 K) (hcom : in_domain s com) (T : Nat) (mem : Heap K)
    (hpos : in_domain s (mem T).position) :
    barnes_hut_calculate_force sqrt T theta (.node c s none c0 c1 c2 c3 tm com) mem = mem := by
  rw [calculate_force_internal_eq, if_neg]
  rintro ⟨hd, hlt⟩
  obtain ⟨a1, a2, a3, a4⟩ := hcom
  obtain ⟨b1, b2, b3, b4⟩ := hpos
  have hq : 0 ≤ dotProduct (subtract com (mem T).position) (subtract com (mem T).position) := by
    simp only [dotProduct]
    exact add_nonneg (mul_self_nonneg _) (mul_self_nonneg _)
  have hmul := hs.mul_self _ hq
  rw [div_lt_iff₀ hd] at hlt
  simp only [length] at hd hlt
  simp only [dotProduct, subtract] at hmul hd hlt
  generalize sqrt ((com.x - (mem T).position.x) * (com.x - (mem T).position.x)
    + (com.y - (mem T).position.y) * (com.y - (mem T).position.y)) = d at hmul hd hlt
  have hx : (com.x - (mem T).position.x) * (com.x - (mem T).position.x) ≤ s * s := by
    nlinarith
  have hy : (com.y - (mem T).position.y) * (com.y - (mem T).position.y) ≤ s * s := by
    nlinarith
  have h1 : s < 7 / 10 * d := lt_of_lt_of_le hlt (mul_le_mul_of_nonneg_right hth (le_of_lt hd))
  have h2 : s * s < 7 / 10 * d * (7 / 10 * d) := mul_self_lt_mul_self (le_of_lt hs0) h1
  nlinarith

/-- The tree that `simulation_step` builds from two or more bodies of non-negative
mass: the insertion loop returns, the root keeps the centre and size of
`quadtree_create` and has no body, only bodies of the simulation are held, masses
stay non-negative and positions, velocities and accelerations are untouched. -/
theorem step_tree_shape (fuel : Nat) (hf : MAX_DEPTH + 1 ≤ fuel) (sim : Simulation K)
    (hn : 2 ≤ sim.num_bodies)
    (hmass : ∀ i, i < sim.num_bodies → 0 ≤ (sim.bodies i).mass) :
    ∃ mem1 c0 c1 c2 c3 tm com n,
      quadtree_insert_all fuel sim.bodies
        (quadtree_create ⟨sim.sim_size / 2, sim.sim_size / 2⟩ sim.sim_size)
        (List.range sim.num_bodies)
        = some (mem1, .node ⟨sim.sim_size / 2, sim.sim_size / 2⟩ sim.sim_size none
            c0 c1 c2 c3 tm com, n) ∧
      WellFormed (QuadtreeNode.node ⟨sim.sim_size / 2, sim.sim_size / 2⟩ sim.sim_size none
            c0 c1 c2 c3 tm com) ∧
      (∀ p ∈ (QuadtreeNode.node ⟨sim.sim_size / 2, sim.sim_size / 2⟩ sim.sim_size none
            c0 c1 c2 c3 tm com).bodies, p < sim.num_bodies) ∧
      (∀ q, q < sim.num_bodies → 0 ≤ (mem1 q).mass) ∧
      (∀ q, (mem1 q).position = (sim.bodies q).position ∧
        (mem1 q).velocity = (sim.bodies q).velocity ∧
        (mem1 q).acceleration = (sim.bodies q).acceleration) := by
  obtain ⟨f, rfl⟩ : ∃ f, fuel = f + 1 := ⟨fuel - 1, by omega⟩
  obtain ⟨m, hm⟩ : ∃ m, sim.num_bodies = m + 2 := ⟨sim.num_bodies - 2, by omega⟩
  have hrange : List.range sim.num_bodies = 0 :: List.map Nat.succ (List.range (m + 1)) := by
    rw [hm, List.range_succ_eq_map]
  have hne : List.map Nat.succ (List.range (m + 1)) ≠ [] := by
    simp [List.range_succ]
  have hmem : ∀ p ∈ List.map Nat.succ (List.range (m + 1)), p < sim.num_bodies :=
    fun p hp => List.mem_range.mp (by rw [hrange]; exact List.mem_cons_of_mem _ hp)
  obtain ⟨mem1, t1, k, hr, gw, gg, -, gb, gS, gm, gf⟩ :=
    insert_all_domain (f + 1) hf (fun p => p < sim.num_bodies)
      (List.map Nat.succ (List.range (m + 1))) sim.bodies
      (.node ⟨sim.sim_size / 2, sim.sim_size / 2⟩ sim.sim_size (some 0)
        .null .null .null .null 0 ⟨0, 0⟩)
      (by simp) (by simp [WellFormed]) (by simp [QuadtreeNode.height])
      (Or.inl (by simp [QuadtreeNode.body])) hmem
      (by
        intro p hp
        simp only [QuadtreeNode.bodies, Multiset.mem_singleton] at hp
        subst hp
        show 0 < sim.num_bodies
        omega)
      hmass
  have gb1 := gb hne
  cases t1 with
  | null => simp [QuadtreeNode.geometry] at gg
  | node c s b c0 c1 c2 c3 tm com =>
    simp only [QuadtreeNode.geometry, Option.some.injEq, Prod.mk.injEq] at gg
    obtain ⟨rfl, rfl⟩ := gg
    simp only [QuadtreeNode.body] at gb1
    subst gb1
    refine ⟨mem1, c0, c1, c2, c3, tm, com, 0 + k, ?_, gw, gS, gm, gf⟩
    rw [hrange]
    simp only [quadtree_insert_all, quadtree_insert]
    rw [quadtree_create, insert_recursive_empty]
    simp only [hr]

/-- C19: for every simulation with at least two bodies, `sim_size > 0`, all body
masses non-negative, all body positions inside `[0, sim_size] x [0, sim_size]` and
`theta <= 0.7`, `simulation_step` returns and imparts no force: after the step
every body has zero acceleration and its velocity is unchanged. -/
theorem no_force_small_theta (sqrt : K → K) (hs : IsSqrt sqrt) (fuel : Nat)
    (hf : MAX_DEPTH + 1 ≤ fuel) (sim : Simulation K) (hn : 2 ≤ sim.num_bodies)
    (hsize : 0 < sim.sim_size)
    (hmass : ∀ i, i < sim.num_bodies → 0 ≤ (sim.bodies i).mass)
    (hbox : ∀ i, i < sim.num_bodies → in_domain sim.sim_size (sim.bodies i).position)
    (hth : sim.theta ≤ 7 / 10) :
    ∃ sim1, simulation_step sqrt fuel sim = some sim1 ∧
      ∀ i, i < sim.num_bodies →
        (sim1.bodies i).acceleration = ⟨0, 0⟩ ∧
        (sim1.bodies i).velocity = (sim.bodies i).velocity := by
  obtain ⟨mem1, c0, c1, c2, c3, tm, com, n, hins, hw, hS, hm, hfld⟩ :=
    step_tree_shape fuel hf sim hn hmass
  refine ⟨_, simulation_step_eq sqrt fuel sim _ _ _ hins, ?_⟩
  intro i hi
  obtain ⟨T, W, hcomp⟩ := compute_internal mem1 ⟨sim.sim_size / 2, sim.sim_size / 2⟩
    sim.sim_size c0 c1 c2 c3 tm com
  have hagg := compute_allNodes mem1 _ hw (fun p hp => hm p (hS p hp))
  have hbod := compute_bodies mem1 (QuadtreeNode.node ⟨sim.sim_size / 2, sim.sim_size / 2⟩
    sim.sim_size none c0 c1 c2 c3 tm com)
  rw [hcomp] at hagg hbod
  generalize (if T > 0 then scale W (1 / T) else (⟨0, 0⟩ : Vec2 K)) = C at hcomp hagg hbod
  simp only [AllNodes, AggregateOK] at hagg
  obtain ⟨⟨a1, a2, a3, -⟩, -⟩ := hagg
  rw [hbod] at a1 a2
  have hheld : ∀ p ∈ (QuadtreeNode.node ⟨sim.sim_size / 2, sim.sim_size / 2⟩
      sim.sim_size none c0 c1 c2 c3 tm com).bodies,
      0 ≤ (mem1 p).mass ∧ in_domain sim.sim_size (mem1 p).position :=
    fun p hp => ⟨hm p (hS p hp), by rw [(hfld p).1]; exact hbox p (hS p hp)⟩
  have hT : 0 ≤ T := by
    rw [a1]
    exact mass_sum_nonneg mem1 _ (fun p hp => (hheld p hp).1)
  have hC : in_domain sim.sim_size C := by
    rcases lt_or_eq_of_le hT with hpos | hzero
    · rw [a2 hpos]
      exact weighted_average_in_domain mem1 sim.sim_size _ hheld (by rw [← a1]; exact hpos)
    · rw [a3 trivial hzero.symm]
      exact ⟨le_refl _, le_of_lt hsize, le_refl _, le_of_lt hsize⟩
  have hforce := force_loop_no_force sqrt sim.theta
    (quadtree_compute_mass_distribution mem1 (.node ⟨sim.sim_size / 2, sim.sim_size / 2⟩
      sim.sim_size none c0 c1 c2 c3 tm com)) (List.range sim.num_bodies) mem1
    (by
      intro j hj mem2 hp
      rw [hcomp]
      exact domain_root_no_force sqrt hs sim.theta sim.sim_size hth hsize _ _ _ _ _ T C hC j
        mem2 (by rw [hp j, (hfld j).1]; exact hbox j (List.mem_range.mp hj)))
  have h2 := hforce i
  rw [if_pos (List.mem_range.mpr hi)] at h2
  show (update_loop sim.dt (List.range sim.num_bodies) _ i).acceleration = ⟨0, 0⟩ ∧
    (update_loop sim.dt (List.range sim.num_bodies) _ i).velocity = (sim.bodies i).velocity
  rw [update_loop_apply sim.dt _ _ (List.nodup_range _) i, if_pos (List.mem_range.mpr hi)]
  simp only [update_body]
  split_ifs with hdt
  · rw [h2]
    exact ⟨rfl, (hfld i).2.1⟩
  · rw [Function.update_same, h2]
    refine ⟨rfl, ?_⟩
    rw [← (hfld i).2.1]
    ext <;> simp [add, scale]

/-- Witness for `no_force_small_theta`: the two bodies at `(0, 0)` and `(6, 8)` in
a domain of size 8 with `theta = 1/2`, over the reals. -/
theorem no_force_small_theta_witness :
    ∃ sim1, simulation_step Real.sqrt 101 (⟨twoBodies, 2, 1 / 2, 1, 8, 0⟩ : Simulation ℝ)
        = some sim1 ∧
      ∀ i, i < 2 →
        (sim1.bodies i).acceleration = ⟨0, 0⟩ ∧
        (sim1.bodies i).velocity = ((twoBodies : Heap ℝ) i).velocity :=
  no_force_small_theta Real.sqrt isSqrt_real 101 (by norm_num [MAX_DEPTH])
    ⟨twoBodies, 2, 1 / 2, 1, 8, 0⟩ (le_refl 2) (by norm_num)
    (fun i _ => by simp [twoBodies])
    (fun i hi => by
      have h : (i : ℝ) ≤ 1 := by exact_mod_cast Nat.le_of_lt_succ hi
      have h0 : (0 : ℝ) ≤ (i : ℝ) := Nat.cast_nonneg i
      simp only [in_domain, twoBodies]
      refine ⟨?_, ?_, ?_, ?_⟩ <;> linarith)
    (by norm_num)

/-! ## quadtree.c: half-open regions and the partition by `quadtree_subdivide` -/

/-- The half-open region of a node passes to the child that `get_quadrant`
chooses. -/
theorem half_open_region_child (c : Vec2 K) (s : K) (pos : Vec2 K)
    (h : half_open_region c s pos) :
    half_open_region (child_center c s (get_quadrant c pos)) (s / 2) pos := by
  obtain ⟨hx1, hx2, hy1, hy2⟩ := h
  unfold get_quadrant
  rcases lt_or_le pos.y c.y with h1 | h1 <;> rcases lt_or_le pos.x c.x with h2 | h2
  · simp only [h1, h2, if_true, child_center, half_open_region]
    refine ⟨?_, ?_, ?_, ?_⟩ <;> linarith
  · simp only [h1, not_lt.mpr h2, if_true, if_false, child_center, half_open_region]
    refine ⟨?_, ?_, ?_, ?_⟩ <;> linarith
  · simp only [not_lt.mpr h1, h2, if_true, if_false, child_center, half_open_region]
    refine ⟨?_, ?_, ?_, ?_⟩ <;> linarith
  · simp only [not_lt.mpr h1, not_lt.mpr h2, if_false, child_center, half_open_region]
    refine ⟨?_, ?_, ?_, ?_⟩ <;> linarith

/-- The half-open region of a child lies in the region of its parent. -/
theorem half_open_region_parent (c : Vec2 K) (s : K) (q : Quadrant) (pos : Vec2 K)
    (h : half_open_region (child_center c s q) (s / 2) pos) :
    half_open_region c s pos := by
  cases q <;> simp only [child_center, half_open_region] at h ⊢ <;>
    obtain ⟨h1, h2, h3, h4⟩ := h <;> refine ⟨?_, ?_, ?_, ?_⟩ <;> linarith

/-- The half-open regions of two children share no position. -/
theorem half_open_region_disjoint (c : Vec2 K) (s : K) (q q1 : Quadrant) (pos : Vec2 K)
    (h : half_open_region (child_center c s q) (s / 2) pos)
    (h1 : half_open_region (child_center c s q1) (s / 2) pos) : q = q1 := by
  cases q <;> cases q1 <;> simp only [child_center, half_open_region] at h h1 <;>
    obtain ⟨a1, a2, a3, a4⟩ := h <;> obtain ⟨b1, b2, b3, b4⟩ := h1 <;>
    first
      | rfl
      | (exfalso; linarith)

/-- The only child region holding a position is the one of the quadrant that
`get_quadrant` chooses. -/
theorem half_open_region_quadrant (c : Vec2 K) (s : K) (q : Quadrant) (pos : Vec2 K)
    (h : half_open_region (child_center c s q) (s / 2) pos) : q = get_quadrant c pos :=
  half_open_region_disjoint c s q _ pos h
    (half_open_region_child c s pos (half_open_region_parent c s q pos h))

/-- A region of positive size holds its centre. -/
theorem half_open_region_center (c : Vec2 K) (s : K) (h : 0 < s) :
    half_open_region c s c := by
  refine ⟨?_, ?_, ?_, ?_⟩ <;> linarith

theorem region_of_geometry (t : QuadtreeNode K) (c : Vec2 K) (s : K)
    (h : t.geometry = some (c, s)) (pos : Vec2 K) :
    t.region pos ↔ half_open_region c s pos := by
  cases t with
  | null => simp [QuadtreeNode.geometry] at h
  | node cc ss b c0 c1 c2 c3 tm com =>
    simp only [QuadtreeNode.geometry, Option.some.injEq, Prod.mk.injEq] at h
    obtain ⟨rfl, rfl⟩ := h
    rfl

/-- In a well-formed tree on the grid of `quadtree_subdivide` whose root has a
positive size, the children of every subdivided node partition its region. -/
theorem partition_of_gridded : ∀ t : QuadtreeNode K, WellFormed t → Gridded t →
    (∀ c s, t.geometry = some (c, s) → 0 < s) → AllNodes ChildrenPartition t := by
  intro t
  induction t with
  | null => intro _ _ _; trivial
  | node c s b c0 c1 c2 c3 tm com ih0 ih1 ih2 ih3 =>
    intro hw hG hs
    have hs0 : 0 < s := hs c s rfl
    have hw1 := hw
    have hG1 := hG
    simp only [WellFormed] at hw1
    simp only [Gridded] at hG1
    obtain ⟨hgrid, g0, g1, g2, g3⟩ := hG1
    have hch : ∀ q cc ss,
        ((QuadtreeNode.node c s b c0 c1 c2 c3 tm com).child q).geometry = some (cc, ss) →
        0 < ss := by
      intro q cc ss h
      rcases hgrid q with h0 | h0
      · rw [h0] at h
        simp [QuadtreeNode.geometry] at h
      · rw [h0] at h
        simp only [Option.some.injEq, Prod.mk.injEq] at h
        rw [← h.2]
        linarith
    refine ⟨?_, ih0 hw1.2.1 g0 (hch .NORTHWEST), ih1 hw1.2.2.1 g1 (hch .NORTHEAST),
      ih2 hw1.2.2.2.1 g2 (hch .SOUTHWEST), ih3 hw1.2.2.2.2 g3 (hch .SOUTHEAST)⟩
    intro hc0
    have hne := child_ne_null c s b c0 c1 c2 c3 tm com hc0 hw
    have hgeo : ∀ q, ((QuadtreeNode.node c s b c0 c1 c2 c3 tm com).child q).geometry
        = some (child_center c s q, s / 2) := fun q => (hgrid q).resolve_left (hne q)
    refine ⟨hne, fun pos => ⟨fun h => ?_, fun h => ?_⟩, fun q q1 pos h h1 => ?_, fun q => ?_⟩
    · exact ⟨get_quadrant c pos,
        (region_of_geometry _ _ _ (hgeo _) pos).mpr (half_open_region_child c s pos h)⟩
    · obtain ⟨q, hq⟩ := h
      exact half_open_region_parent c s q pos ((region_of_geometry _ _ _ (hgeo q) pos).mp hq)
    · exact half_open_region_disjoint c s q q1 pos
        ((region_of_geometry _ _ _ (hgeo q) pos).mp h)
        ((region_of_geometry _ _ _ (hgeo q1) pos).mp h1)
    · exact ⟨child_center c s q, (region_of_geometry _ _ _ (hgeo q) _).mpr
        (half_open_region_center _ _ (by linarith))⟩

theorem leafHolds_of_regionHolds (mem : Heap K) : ∀ t : QuadtreeNode K,
    AllNodes (RegionHolds half_open_region mem) t → AllNodes (LeafHolds mem) t := by
  intro t
  induction t with
  | null => intro _; trivial
  | node c s b c0 c1 c2 c3 tm com ih0 ih1 ih2 ih3 =>
    intro h
    simp only [AllNodes] at h
    obtain ⟨hP, h0, h1, h2, h3⟩ := h
    refine ⟨?_, ih0 h0, ih1 h1, ih2 h2, ih3 h3⟩
    intro p hp
    subst hp
    exact hP p (by simp [QuadtreeNode.bodies])

theorem regionHolds_congr (R : Vec2 K → K → Vec2 K → Prop) (mem mem1 : Heap K)
    (hpos : ∀ q, (mem1 q).position = (mem q).position) : ∀ t : QuadtreeNode K,
    AllNodes (RegionHolds R mem) t → AllNodes (RegionHolds R mem1) t := by
  intro t
  induction t with
  | null => intro _; trivial
  | node c s b c0 c1 c2 c3 tm com ih0 ih1 ih2 ih3 =>
    intro h
    simp only [AllNodes] at h
    obtain ⟨hP, h0, h1, h2, h3⟩ := h
    refine ⟨?_, ih0 h0, ih1 h1, ih2 h2, ih3 h3⟩
    intro p hp
    rw [hpos p]
    exact hP p hp

theorem regionHolds_setChild_sub (R : Vec2 K → K → Vec2 K → Prop) (mem : Heap K) (c : Vec2 K)
    (s : K) (c0 c1 c2 c3 : QuadtreeNode K) (tm : K) (com : Vec2 K) (q : Quadrant)
    (ch : QuadtreeNode K) (b : Nat)
    (hX : RegionHolds R mem (.node c s none c0 c1 c2 c3 tm com))
    (hb : R c s (mem b).position)
    (hbodies : ∀ p ∈ ((QuadtreeNode.node c s none c0 c1 c2 c3 tm com).setChild q ch).bodies,
      p = b ∨ p ∈ (QuadtreeNode.node c s none c0 c1 c2 c3 tm com).bodies) :
    RegionHolds R mem ((QuadtreeNode.node c s none c0 c1 c2 c3 tm com).setChild q ch) := by
  have key : ∀ p ∈ ((QuadtreeNode.node c s none c0 c1 c2 c3 tm com).setChild q ch).bodies,
      R c s (mem p).position := by
    intro p hp
    rcases hbodies p hp with rfl | hp
    · exact hb
    · exact hX p hp
  cases q <;> simp only [QuadtreeNode.setChild] at key ⊢ <;> exact key

theorem outcome_bodies_sub (mem mem1 : Heap K) (before after : Multiset Nat) (b n : Nat)
    (h : InsertOutcome mem before b mem1 after n) :
    ∀ p ∈ after, p = b ∨ p ∈ before := by
  intro p hp
  rcases h with ⟨-, -, hb⟩ | ⟨-, hb, -⟩
  · rw [hb, Multiset.mem_cons] at hp
    exact hp
  · rw [hb] at hp
    exact Or.inr hp

theorem outcome_positions (mem mem1 : Heap K) (before after : Multiset Nat) (b n : Nat)
    (h : InsertOutcome mem before b mem1 after n) :
    ∀ q, (mem1 q).position = (mem q).position := by
  intro q
  rcases h with ⟨-, hm, -⟩ | ⟨-, -, e, -, hm⟩
  · rw [hm]
  · rw [hm]
    exact (update_mass_fields mem e q _).1

/-- A call, fusion branch or not, keeps the grid of centres and sizes and keeps
every held body inside the region of every node above it, for any notion of
region that passes to the child chosen by `get_quadrant`. -/
theorem InsertStep.region_kept (R : Vec2 K → K → Vec2 K → Prop)
    (hR : ∀ c s pos, R c s pos → R (child_center c s (get_quadrant c pos)) (s / 2) pos)
    {mem : Heap K} {t : QuadtreeNode K} {b d : Nat} {mem1 : Heap K}
    {t1 : QuadtreeNode K} {n : Nat} (h : InsertStep mem t b d mem1 t1 n) :
    ∀ c s, t.geometry = some (c, s) → WellFormed t → Gridded t →
      AllNodes (RegionHolds R mem) t → R c s (mem b).position →
      t1.geometry = some (c, s) ∧ Gridded t1 ∧ AllNodes (RegionHolds R mem) t1 := by
  induction h with
  | store c s c1 c2 c3 tm com b d =>
    intro c' s' hgeo hw _ _ hb
    simp only [QuadtreeNode.geometry, Option.some.injEq, Prod.mk.injEq] at hgeo
    obtain ⟨rfl, rfl⟩ := hgeo
    simp only [WellFormed] at hw
    rcases hw.1 with h0 | h1
    · obtain ⟨-, rfl, rfl, rfl⟩ := h0
      refine ⟨rfl, gridded_leaf _ _ _ _ _, ?_⟩
      simp only [AllNodes, RegionHolds, QuadtreeNode.bodies, Multiset.mem_singleton, and_true]
      intro p hp
      rw [hp]
      exact hb
    · exact absurd rfl h1.2.1
  | descend c s c0 c1 c2 c3 tm com b d mem1 ch n hc0 hstep ih =>
    intro c' s' hgeo hw hG hA hb
    simp only [QuadtreeNode.geometry, Option.some.injEq, Prod.mk.injEq] at hgeo
    obtain ⟨rfl, rfl⟩ := hgeo
    have hwc := child_wellFormed c s none c0 c1 c2 c3 tm com hw
      (get_quadrant c (mem b).position)
    have hgc : ((QuadtreeNode.node c s none c0 c1 c2 c3 tm com).child
        (get_quadrant c (mem b).position)).geometry
        = some (child_center c s (get_quadrant c (mem b).position), s / 2) := by
      have hG1 := hG
      simp only [Gridded] at hG1
      rcases hG1.1 (get_quadrant c (mem b).position) with h0 | h0
      · exact absurd h0 (child_ne_null c s none c0 c1 c2 c3 tm com hc0 hw _)
      · exact h0
    obtain ⟨i1, i2, i3⟩ := ih _ _ hgc hwc (gridded_child c s none c0 c1 c2 c3 tm com _ hG)
      (allNodes_child _ c s none c0 c1 c2 c3 tm com _ hA) (hR c s _ hb)
    have hout := outcome_setChild c s c0 c1 c2 c3 tm com _ ch mem mem1 b n (hstep.outcome hwc)
    have hA1 := hA
    simp only [AllNodes] at hA1
    exact ⟨geometry_setChild _ _ _ _ _ _ _ _ _ _ _,
      gridded_setChild c s none c0 c1 c2 c3 tm com _ ch hG i2 i1,
      allNodes_setChild _ c s none c0 c1 c2 c3 tm com _ ch hA i3
        (regionHolds_setChild_sub R mem c s c0 c1 c2 c3 tm com _ ch b hA1.1 hb
          (outcome_bodies_sub _ _ _ _ _ _ hout))⟩
  | fuse c s e c0 c1 c2 c3 tm com b d _ =>
    intro c' s' hgeo _ hG hA _
    exact ⟨hgeo, hG, hA⟩
  | split c s e c0 c1 c2 c3 tm com b d mem2 ch2 n _ hstep ih =>
    intro c' s' hgeo _ _ hA hb
    simp only [QuadtreeNode.geometry, Option.some.injEq, Prod.mk.injEq] at hgeo
    obtain ⟨rfl, rfl⟩ := hgeo
    rw [split_form] at ih hstep ⊢
    have he : R c s (mem e).position := by
      simp only [AllNodes, RegionHolds, QuadtreeNode.bodies, Multiset.mem_singleton] at hA
      exact hA.1 e rfl
    have he2 := hR c s _ he
    have hw2 : WellFormed (QuadtreeNode.node c s none
        (split_child c s e (get_quadrant c (mem e).position) .NORTHWEST)
        (split_child c s e (get_quadrant c (mem e).position) .NORTHEAST)
        (split_child c s e (get_quadrant c (mem e).position) .SOUTHWEST)
        (split_child c s e (get_quadrant c (mem e).position) .SOUTHEAST) tm com) := by
      simp [WellFormed, split_child_ne_null, split_child_wellFormed]
    have hG2 : Gridded (QuadtreeNode.node c s none
        (split_child c s e (get_quadrant c (mem e).position) .NORTHWEST)
        (split_child c s e (get_quadrant c (mem e).position) .NORTHEAST)
        (split_child c s e (get_quadrant c (mem e).position) .SOUTHWEST)
        (split_child c s e (get_quadrant c (mem e).position) .SOUTHEAST) tm com) := by
      simp only [Gridded, split_child_gridded, and_true]
      intro q
      right
      cases q <;> simp only [QuadtreeNode.child, split_child_geometry]
    have hA2 : AllNodes (RegionHolds R mem) (QuadtreeNode.node c s none
        (split_child c s e (get_quadrant c (mem e).position) .NORTHWEST)
        (split_child c s e (get_quadrant c (mem e).position) .NORTHEAST)
        (split_child c s e (get_quadrant c (mem e).position) .SOUTHWEST)
        (split_child c s e (get_quadrant c (mem e).position) .SOUTHEAST) tm com) := by
      refine ⟨?_, split_child_region R mem c s e _ _ he2, split_child_region R mem c s e _ _ he2,
        split_child_region R mem c s e _ _ he2, split_child_region R mem c s e _ _ he2⟩
      intro p hp
      simp only [QuadtreeNode.bodies, split_child_bodies] at hp
      have hpe : p = e := by
        cases hq : get_quadrant c (mem e).position <;> rw [hq] at hp <;> simpa using hp
      rw [hpe]
      exact he
    have hwc := child_wellFormed _ _ _ _ _ _ _ _ _ hw2 (get_quadrant c (mem b).position)
    have hgc : ((QuadtreeNode.node c s none
        (split_child c s e (get_quadrant c (mem e).position) .NORTHWEST)
        (split_child c s e (get_quadrant c (mem e).position) .NORTHEAST)
        (split_child c s e (get_quadrant c (mem e).position) .SOUTHWEST)
        (split_child c s e (get_quadrant c (mem e).position) .SOUTHEAST) tm com).child
        (get_quadrant c (mem b).position)).geometry
        = some (child_center c s (get_quadrant c (mem b).position), s / 2) := by
      cases (get_quadrant c (mem b).position) <;>
        simp only [QuadtreeNode.child, split_child_geometry]
    obtain ⟨i1, i2, i3⟩ := ih _ _ hgc hwc (gridded_child _ _ _ _ _ _ _ _ _ _ hG2)
      (allNodes_child _ _ _ _ _ _ _ _ _ _ _ hA2) (hR c s _ hb)
    have hout := outcome_setChild c s _ _ _ _ tm com _ ch2 mem mem2 b n (hstep.outcome hwc)
    exact ⟨geometry_setChild _ _ _ _ _ _ _ _ _ _ _,
      gridded_setChild c s none _ _ _ _ tm com _ ch2 hG2 i2 i1,
      allNodes_setChild _ c s none _ _ _ _ tm com _ ch2 hA2 i3
        (regionHolds_setChild_sub R mem c s _ _ _ _ tm com _ ch2 b hA2.1 hb
          (outcome_bodies_sub _ _ _ _ _ _ hout))⟩

/-- The insertion loop, fusion branch or not: it returns, the root keeps its
centre and size, the tree stays well formed and on the grid of
`quadtree_subdivide`, every held body is in the region of every node above it,
and no position is changed. -/
theorem insert_all_region_kept (R : Vec2 K → K → Vec2 K → Prop)
    (hR : ∀ c s pos, R c s pos → R (child_center c s (get_quadrant c pos)) (s / 2) pos)
    (fuel : Nat) (hf : MAX_DEPTH + 1 ≤ fuel) (c : Vec2 K) (s : K) :
    ∀ (ps : List Nat) (mem : Heap K) (t : QuadtreeNode K),
    t.geometry = some (c, s) → WellFormed t → t.height ≤ MAX_DEPTH + 1 → Gridded t →
    AllNodes (RegionHolds R mem) t → (∀ p ∈ ps, R c s (mem p).position) →
    ∃ mem1 t1 n, quadtree_insert_all fuel mem t ps = some (mem1, t1, n) ∧
      t1.geometry = some (c, s) ∧ WellFormed t1 ∧ Gridded t1 ∧
      AllNodes (RegionHolds R mem1) t1 ∧ ∀ q, (mem1 q).position = (mem q).position := by
  intro ps
  induction ps with
  | nil =>
    intro mem t hg hw _ hG hA _
    exact ⟨mem, t, 0, rfl, hg, hw, hG, hA, fun _ => rfl⟩
  | cons b rest ih =>
    intro mem t hg hw hh hG hA hin
    have hne : t ≠ .null := by
      intro h0
      rw [h0] at hg
      simp [QuadtreeNode.geometry] at hg
    obtain ⟨r, hr⟩ := insert_recursive_terminates fuel mem t b 0 hne hw (by omega) (by omega)
    obtain ⟨m, u, k⟩ := r
    have hstep := insertStep_of_eq fuel mem t b 0 m u k hr
    obtain ⟨hu1, -, hu3⟩ := hstep.preserves hw (by omega)
    obtain ⟨r1, r2, r3⟩ := hstep.region_kept R hR c s hg hw hG hA
      (hin b (List.mem_cons_self b rest))
    have hpos := outcome_positions _ _ _ _ _ _ (hstep.outcome hw)
    obtain ⟨m2, u2, k2, hr2, g1, g2, g3, g4, g5⟩ :=
      ih m u r1 hu1 (by omega) r2 (regionHolds_congr R mem m hpos u r3)
        (fun p hp => by rw [hpos p]; exact hin p (List.mem_cons_of_mem b hp))
    refine ⟨m2, u2, k + k2, ?_, g1, g2, g3, g4, fun q => (g5 q).trans (hpos q)⟩
    simp only [quadtree_insert_all, quadtree_insert, hr, hr2]

/-- In exact arithmetic (no operation of `quadtree_subdivide` rounds), taking a
node's region to be the half-open square of side length `size` centred at its
`center_region`: for every tree built by `quadtree_create(center, size)` with
`size > 0` and `quadtree_insert` of bodies whose positions all lie in the root's
region, the insertions return, at every subdivided node the four children are
present and their regions partition the region of the node, and every body held
by a leaf lies in the region of that leaf. In the arithmetic of `double` this
needs that no child centre was rounded: see `farTree`. -/
theorem children_partition_regions (fuel : Nat) (hf : MAX_DEPTH + 1 ≤ fuel) (mem : Heap K)
    (center : Vec2 K) (size : K) (hsize : 0 < size) (ps : List Nat)
    (hin : ∀ p ∈ ps, (quadtree_create center size).region (mem p).position) :
    ∃ mem1 t n,
      quadtree_insert_all fuel mem (quadtree_create center size) ps = some (mem1, t, n) ∧
      AllNodes ChildrenPartition t ∧ AllNodes (LeafHolds mem1) t := by
  obtain ⟨-, h2, h3, -⟩ := create_invariant center size
  obtain ⟨mem1, t, n, hr, g1, g2, g3, g4, -⟩ :=
    insert_all_region_kept half_open_region half_open_region_child fuel hf center size ps mem
      (quadtree_create center size) rfl h2 h3 (gridded_leaf _ _ _ _ _)
      (by simp [quadtree_create, AllNodes, RegionHolds, QuadtreeNode.bodies]) hin
  refine ⟨mem1, t, n, hr, partition_of_gridded t g2 g3 ?_, leafHolds_of_regionHolds mem1 t g4⟩
  intro c s h
  rw [g1] at h
  simp only [Option.some.injEq, Prod.mk.injEq] at h
  rw [← h.2]
  exact hsize

/-- Witness for `children_partition_regions`: root square of side 16 centred at
`(0, 0)`, bodies at `(-4, -4)` and `(4, 4)`. -/
theorem children_partition_regions_witness :
    ∃ mem1 t n,
      quadtree_insert_all 101 (cornerBodies : Heap ℚ) (quadtree_create ⟨0, 0⟩ 16) [0, 1]
        = some (mem1, t, n) ∧
      AllNodes ChildrenPartition t ∧ AllNodes (LeafHolds mem1) t :=
  children_partition_regions 101 (by decide) (cornerBodies : Heap ℚ) ⟨0, 0⟩ 16 (by norm_num)
    [0, 1]
    (by
      intro p hp
      simp only [List.mem_cons, List.mem_singleton, List.not_mem_nil, or_false] at hp
      rcases hp with rfl | rfl <;>
        simp only [quadtree_create, QuadtreeNode.region, half_open_region, cornerBodies,
          Nat.cast_zero, Nat.cast_one, mul_zero, mul_one] <;> norm_num)

/-! ## quadtree.c in the arithmetic of `double`: insertion -/

/-- With rounding the closed square of side `size` fails as well: in `farTree`
body 0 at `2^53 - 1` is held by the south-east leaf, whose stored centre is
`2^53 + 4` and whose size is 8. -/
theorem far_body_outside_closed_region :
    side_length_region (⟨2 ^ 53 - 1, 2 ^ 53 - 1⟩ : Vec2 ℚ) 16
      ((farBodies : Heap ℚ) 0).position ∧
    side_length_region (⟨2 ^ 53 - 1, 2 ^ 53 - 1⟩ : Vec2 ℚ) 16
      ((farBodies : Heap ℚ) 1).position ∧
    ¬ AllNodes (RegionHolds side_length_region (farBodies : Heap ℚ))
        (farTree : QuadtreeNode ℚ) := by
  refine ⟨?_, ?_, ?_⟩
  · simp only [side_length_region, farBodies, Nat.cast_zero, mul_zero, sub_zero, abs_le]
    norm_num
  · simp only [side_length_region, farBodies, Nat.cast_one, mul_one, abs_le]
    norm_num
  · intro h
    simp only [farTree, AllNodes, RegionHolds] at h
    have h0 := h.2.2.2.2.1 0 (by simp [QuadtreeNode.bodies])
    simp only [side_length_region, farBodies, Nat.cast_zero, mul_zero, sub_zero, abs_le] at h0
    norm_num at h0

theorem subdivide_fl_id (t : QuadtreeNode K) :
    quadtree_subdivide_fl id t = quadtree_subdivide t := by
  cases t <;> rfl

theorem insert_recursive_fl_id (fuel : Nat) : ∀ (mem : Heap K) (t : QuadtreeNode K)
    (b d : Nat),
    quadtree_insert_recursive_fl id fuel mem t b d
      = quadtree_insert_recursive fuel mem t b d := by
  induction fuel with
  | zero => intro mem t b d; simp [quadtree_insert_recursive_fl, quadtree_insert_recursive]
  | succ fuel ih =>
    intro mem t b d
    cases t with
    | null => simp [quadtree_insert_recursive_fl, quadtree_insert_recursive]
    | node c s body c0 c1 c2 c3 tm com =>
      cases body with
      | none => simp only [quadtree_insert_recursive_fl, quadtree_insert_recursive, ih]
      | some e =>
        simp only [quadtree_insert_recursive_fl, quadtree_insert_recursive, ih,
          subdivide_fl_id, id]

/-- With `fl = id` (no operation rounds) the insertion loop with rounding is the
insertion loop in exact arithmetic. -/
theorem insert_all_fl_id (fuel : Nat) : ∀ (ps : List Nat) (mem : Heap K)
    (t : QuadtreeNode K),
    quadtree_insert_all_fl id fuel mem t ps = quadtree_insert_all fuel mem t ps := by
  intro ps
  induction ps with
  | nil => intro mem t; rfl
  | cons b rest ih =>
    intro mem t
    simp only [quadtree_insert_all_fl, quadtree_insert_all, quadtree_insert_fl,
      quadtree_insert, insert_recursive_fl_id, ih]

end Theorems

end BarnesHut
